import Mathlib

/-!
# Verification of a C implementation of Dijkstra's shortest-path algorithm

This development gives a shallow embedding of the program consisting of
`graph.c`, `minheap.c`, `dijkstras.c` and `main.c` (a city-routing tool built
around an adjacency-list graph, an indexed binary min-heap with decrease-key,
and Dijkstra's algorithm), and proves properties of the embedded program.

Modelling conventions:
* C pointers to `Vertex` structures are represented by the vertex's index in
  the graph's `adjLists` array (the program allocates each vertex exactly once
  and never moves it, so pointer identity coincides with index identity).
* C `int` values are represented by `Int`; the one place where the program's
  arithmetic can overflow (the relaxation sum `dist u + weight`) is wrapped
  with two's-complement 32-bit semantics (`wrap32`), matching what the
  compiled program does on the usual targets.
* Loops whose C termination is not structural are given explicit fuel at the
  call sites, with enough fuel that the embedded function runs the loop to
  completion exactly as the C program does on every terminating execution.
* The dynamic arrays managed by `realloc` in the C code are represented by
  Lean lists whose length plays the role of the tracked `size` fields (the
  program keeps the allocated size and the logical size in lockstep).
-/

set_option maxHeartbeats 1000000
set_option maxRecDepth 10000

namespace Dijk

/-- `INT_MAX` from `<limits.h>`, used by the program as the "unreached"
sentinel distance. -/
def INT_MAX : Int := 2147483647

/-- Two's-complement wraparound of 32-bit signed `int` arithmetic: the value
the compiled program computes when a C `int` sum overflows. -/
def wrap32 (x : Int) : Int := (x + 2147483648) % 4294967296 - 2147483648

/-- `Edge` from graph.c: start/end vertex pointers (modelled as indices) and
the distance. -/
structure Edge where
  start : Nat
  endVertex : Nat
  distance : Int
deriving Repr, DecidableEq

/-- `Vertex` from graph.c.  `numberOfEdges` is the length of `edges`. -/
structure Vertex where
  vertexNumber : Nat
  cityName : String
  edges : List Edge
  previous : Option Nat
  distanceFromSource : Int
  positionInHeap : Int
  visited : Bool
deriving Repr, DecidableEq

/-- `Graph` from graph.c; `numberOfCities` is the length of `adjLists`. -/
structure Graph where
  adjLists : List Vertex
deriving Repr, DecidableEq

/-- Placeholder vertex produced by reading through an invalid pointer; the
verified executions never touch it. -/
def defaultVertex : Vertex :=
  { vertexNumber := 0, cityName := "", edges := [], previous := none
    distanceFromSource := 0, positionInHeap := -1, visited := false }

def graphGetNumberOfCities (graph : Graph) : Nat := graph.adjLists.length

def graphGetVertex (graph : Graph) (vertexNumber : Nat) : Vertex :=
  graph.adjLists.getD vertexNumber defaultVertex

/-- Write-through of a mutation of the `Vertex` at a given index. -/
def graphSetVertex (graph : Graph) (i : Nat) (v : Vertex) : Graph :=
  ⟨graph.adjLists.set i v⟩

def vertexGetDistanceFromSource (vertex : Vertex) : Int := vertex.distanceFromSource

def vertexGetVertexNumber (vertex : Vertex) : Nat := vertex.vertexNumber

def vertexGetCityName (vertex : Vertex) : String := vertex.cityName

def vertexGetPrevious (vertex : Vertex) : Option Nat := vertex.previous

def vertexIsVisited (vertex : Vertex) : Bool := vertex.visited

def vertexGetPositionInHeap (vertex : Vertex) : Int := vertex.positionInHeap

def vertexGetNumberOfEdges (vertex : Vertex) : Nat := vertex.edges.length

def vertexGetEdge (vertex : Vertex) (edgeNumber : Nat) : Edge :=
  vertex.edges.getD edgeNumber ⟨0, 0, 0⟩

def vertexSetDistanceFromSource (graph : Graph) (i : Nat) (distance : Int) : Graph :=
  graphSetVertex graph i { graphGetVertex graph i with distanceFromSource := distance }

def vertexSetPrevious (graph : Graph) (i : Nat) (previousVertex : Option Nat) : Graph :=
  graphSetVertex graph i { graphGetVertex graph i with previous := previousVertex }

def vertexSetIsVisited (graph : Graph) (i : Nat) : Graph :=
  graphSetVertex graph i { graphGetVertex graph i with visited := true }

def vertexSetIsNotVisited (graph : Graph) (i : Nat) : Graph :=
  graphSetVertex graph i { graphGetVertex graph i with visited := false }

def vertexSetPositionInHeap (graph : Graph) (i : Nat) (position : Int) : Graph :=
  graphSetVertex graph i { graphGetVertex graph i with positionInHeap := position }

def edgeGetEndVertex (edge : Edge) : Nat := edge.endVertex

def edgeGetDistance (edge : Edge) : Int := edge.distance

/-! ## The MinHeap (minheap.c) -/

/-- `Node` from minheap.c.  `vertex` is the pointer to the associated graph
vertex, modelled as its index. -/
structure Node where
  value : Int
  position : Nat
  hasChildLeft : Bool
  hasChildRight : Bool
  vertex : Nat
deriving Repr, DecidableEq

/-- The combined mutable state the minheap functions operate on: they mutate
both the heap array and (through `vertexSetPositionInHeap` and the reads of
`distanceFromSource`) the graph. -/
structure St where
  g : Graph
  h : List Node
deriving Repr, DecidableEq

def defaultNode : Node :=
  { value := 0, position := 0, hasChildLeft := false, hasChildRight := false, vertex := 0 }

def heapGet (st : St) (i : Nat) : Node := st.h.getD i defaultNode

def heapVal (st : St) (i : Nat) : Int := (heapGet st i).value

/-- The C parent index `(int)floor((i - 1)/2)`: integer division truncates, so
the expression evaluates to `0` at `i = 0` (matching Nat subtraction). -/
def cparent (i : Nat) : Nat := (i - 1) / 2

/-- `nodeConstructor` from minheap.c. -/
def nodeConstructor (graph : Graph) (position : Nat) (vertex : Nat) : Node :=
  { value := vertexGetDistanceFromSource (graphGetVertex graph vertex)
    position := position, hasChildLeft := false, hasChildRight := false, vertex := vertex }

/-- `swapNode` from minheap.c: the child-presence flags stay attached to the
array slots, the (value, vertex) payload moves, both `position` fields and both
vertices' `positionInHeap` records are refreshed. -/
def swapNode (st : St) (currentPosition otherPosition : Nat) : St :=
  let a := heapGet st currentPosition
  let b := heapGet st otherPosition
  let newCur : Node := { value := b.value, vertex := b.vertex, position := currentPosition
                         hasChildLeft := a.hasChildLeft, hasChildRight := a.hasChildRight }
  let newOth : Node := { value := a.value, vertex := a.vertex, position := otherPosition
                         hasChildLeft := b.hasChildLeft, hasChildRight := b.hasChildRight }
  { g := vertexSetPositionInHeap
            (vertexSetPositionInHeap st.g a.vertex (otherPosition : Int))
            b.vertex (currentPosition : Int)
    h := (st.h.set currentPosition newCur).set otherPosition newOth }

/-- The sift-up loop shared (verbatim) by `minHeapEnqueue` and
`minHeapDecreaseNodeValue`.  The C loop stops at the root because the parent
formula maps `0` to itself and `value < value` is false; the explicit `= 0`
test here is that same exit condition.  `fuel` bounds the iterations; all call
sites pass enough fuel that the loop runs to completion. -/
def siftUpGo : Nat → St → Nat → St
  | 0, st, _ => st
  | fuel + 1, st, currentPosition =>
    if currentPosition = 0 then st
    else if heapVal st currentPosition < heapVal st (cparent currentPosition) then
      siftUpGo fuel (swapNode st currentPosition (cparent currentPosition)) (cparent currentPosition)
    else st

/-- `minHeapEnqueue` from minheap.c: append the new node, record its heap
position on the vertex, update the parent's child flag, sift up. -/
def minHeapEnqueue (st : St) (vertex : Nat) : St :=
  let size := st.h.length
  let h1 := st.h ++ [nodeConstructor st.g size vertex]
  let g1 := vertexSetPositionInHeap st.g vertex (size : Int)
  let currentPosition := size
  let parentPosition := cparent currentPosition
  let h2 :=
    if 0 < currentPosition then
      if currentPosition % 2 = 0 then
        h1.set parentPosition { h1.getD parentPosition defaultNode with hasChildRight := true }
      else
        h1.set parentPosition { h1.getD parentPosition defaultNode with hasChildLeft := true }
    else h1
  siftUpGo (currentPosition + 1) { g := g1, h := h2 } currentPosition

/-- The sift-down loop of `minHeapSiftDown` from minheap.c, navigated by the
per-slot child flags.  Out-of-range reads yield `defaultNode`, whose flags are
false.  All call sites pass enough fuel that the loop runs to completion. -/
def siftDownGo : Nat → St → Nat → St
  | 0, st, _ => st
  | fuel + 1, st, currentPosition =>
    let nd := heapGet st currentPosition
    if nd.hasChildLeft || nd.hasChildRight then
      if nd.hasChildLeft && nd.hasChildRight then
        let leftValue := heapVal st (2 * currentPosition + 1)
        let rightValue := heapVal st (2 * currentPosition + 2)
        if leftValue ≤ nd.value ∨ rightValue ≤ nd.value then
          if rightValue - leftValue ≤ 0 then
            siftDownGo fuel (swapNode st currentPosition (2 * currentPosition + 2))
              (2 * currentPosition + 2)
          else
            siftDownGo fuel (swapNode st currentPosition (2 * currentPosition + 1))
              (2 * currentPosition + 1)
        else st
      else if nd.hasChildLeft then
        if heapVal st (2 * currentPosition + 1) ≤ nd.value then
          siftDownGo fuel (swapNode st currentPosition (2 * currentPosition + 1))
            (2 * currentPosition + 1)
        else st
      else
        if heapVal st (2 * currentPosition + 2) ≤ nd.value then
          siftDownGo fuel (swapNode st currentPosition (2 * currentPosition + 2))
            (2 * currentPosition + 2)
        else st
    else st

/-- `minHeapSiftDown` from minheap.c: sift down from the top of the heap. -/
def minHeapSiftDown (st : St) : St := siftDownGo (st.h.length + 1) st 0

def minHeapGetSize (st : St) : Nat := st.h.length

def minHeapIsEmpty (st : St) : Bool := st.h.length = 0

/-- `minHeapDequeue` from minheap.c.  Returns the new state together with the
vertex (pointer) of the removed top node. -/
def minHeapDequeue (st : St) : St × Nat :=
  let tempNode := heapGet st 0
  let minVertex := tempNode.vertex
  if 1 < st.h.length then
    let size := st.h.length
    let lastNode := heapGet st (size - 1)
    -- move the rightmost node to the top, with position 0 and the old top's flags
    let newTop : Node := { value := lastNode.value, vertex := lastNode.vertex, position := 0
                           hasChildLeft := tempNode.hasChildLeft
                           hasChildRight := tempNode.hasChildRight }
    let g1 := vertexSetPositionInHeap st.g lastNode.vertex 0
    let h1 := st.h.set 0 newTop
    -- the parent of the removed rightmost node loses a child
    let parentNode := (size - 2) / 2
    let h2 :=
      if size % 2 = 0 then
        h1.set parentNode { h1.getD parentNode defaultNode with hasChildLeft := false }
      else
        h1.set parentNode { h1.getD parentNode defaultNode with hasChildRight := false }
    let h3 := h2.take (size - 1)
    (minHeapSiftDown { g := g1, h := h3 }, minVertex)
  else
    ({ g := st.g, h := [] }, minVertex)

/-- `minHeapDecreaseNodeValue` from minheap.c: refresh the node's value from
the vertex's (just lowered) distance, then sift up from the vertex's recorded
heap position.  (A negative recorded position would be an out-of-bounds C
access; `Int.toNat` maps it to 0, and the verified preconditions rule the
situation out.) -/
def minHeapDecreaseNodeValue (st : St) (vertex : Nat) : St :=
  let currentPosition := (vertexGetPositionInHeap (graphGetVertex st.g vertex)).toNat
  let h1 := st.h.set currentPosition
      { heapGet st currentPosition with
        value := vertexGetDistanceFromSource (graphGetVertex st.g vertex) }
  siftUpGo (currentPosition + 1) { g := st.g, h := h1 } currentPosition

/-! ## Graph construction (graph.c) -/

/-- `vertexConstructor` from graph.c. -/
def vertexConstructor (vertexNumber : Nat) (cityName : String) : Vertex :=
  { vertexNumber := vertexNumber, cityName := cityName, edges := [], previous := none
    distanceFromSource := INT_MAX, positionInHeap := -1, visited := false }

def graphConstructor : Graph := ⟨[]⟩

/-- `graphVertexResize` from graph.c: append one freshly constructed vertex. -/
def graphVertexResize (graph : Graph) (i : Nat) (string : String) : Graph :=
  ⟨graph.adjLists ++ [vertexConstructor i string]⟩

/-- `edgeConstructor` from graph.c (the stored `Vertex*` pointers are the
indices `start`/`endVertex`). -/
def edgeConstructor (_graph : Graph) (distance : Int) (start endv : Nat) : Edge :=
  { start := start, endVertex := endv, distance := distance }

/-- `addEdge` from graph.c: append the edge to the start vertex's list, then
append the reverse edge to the end vertex's list. -/
def addEdge (graph : Graph) (start endv : Nat) (distance : Int) : Graph :=
  let edge := edgeConstructor graph distance start endv
  let g1 := graphSetVertex graph start
      { graphGetVertex graph start with
        edges := (graphGetVertex graph start).edges ++ [edge] }
  let edge2 := edgeConstructor g1 distance endv start
  graphSetVertex g1 endv
      { graphGetVertex g1 endv with
        edges := (graphGetVertex g1 endv).edges ++ [edge2] }

/-- Accumulator of `checkStringsKnown`'s scan loop: the two output variables
and the two found-flags. -/
structure ScanSt where
  vertexNumberA : Nat
  stringAKnown : Bool
  vertexNumberB : Nat
  stringBKnown : Bool
deriving Repr, DecidableEq

/-- The body of `checkStringsKnown`'s scan loop for one index `k`. -/
def checkStringsKnownScan (graph : Graph) (stringA stringB : String)
    (s : ScanSt) (k : Nat) : ScanSt :=
  let s1 := if vertexGetCityName (graphGetVertex graph k) = stringA then
      { s with vertexNumberA := k, stringAKnown := true } else s
  if vertexGetCityName (graphGetVertex graph k) = stringB then
    { s1 with vertexNumberB := k, stringBKnown := true } else s1

/-- `checkStringsKnown` from graph.c.  `vertexNumberA`/`vertexNumberB` are the
values the caller's output variables hold on entry (every path of the C
function assigns both before they are read back, so they only matter as the
scan's initial accumulator).  Returns the possibly grown graph and the two
vertex numbers. -/
def checkStringsKnown (graph : Graph) (stringA stringB : String)
    (vertexNumberA vertexNumberB : Nat) : Graph × Nat × Nat :=
  let scan := (List.range (graphGetNumberOfCities graph)).foldl
    (checkStringsKnownScan graph stringA stringB)
    ⟨vertexNumberA, false, vertexNumberB, false⟩
  if ¬(scan.stringAKnown ∧ scan.stringBKnown) then
    let (g1, numA) :=
      if ¬scan.stringAKnown then
        (graphVertexResize graph (graphGetNumberOfCities graph) stringA,
         graphGetNumberOfCities graph)
      else (graph, scan.vertexNumberA)
    let (g2, numB) :=
      if ¬scan.stringBKnown then
        (graphVertexResize g1 (graphGetNumberOfCities g1) stringB,
         graphGetNumberOfCities g1)
      else (g1, scan.vertexNumberB)
    (g2, numA, numB)
  else (graph, scan.vertexNumberA, scan.vertexNumberB)

/-- `graphPopulateGraph` from graph.c, over the already-parsed sequence of
`(start, end, distance)` records of the `ukcities` file (file reading and the
line-count error check are I/O outside the core).  A record with
`distance <= 0` makes the program `exit(-1)`, modelled as `none`.  The two
`int` output variables start at 0 and are always overwritten by
`checkStringsKnown` before being read, so they are threaded as constants. -/
def graphPopulateGraph (graph : Graph) (records : List (String × String × Int)) :
    Option Graph :=
  records.foldlM
    (fun g r =>
      let res := checkStringsKnown g r.1 r.2.1 0 0
      if r.2.2 ≤ 0 then none
      else some (addEdge res.1 res.2.1 res.2.2 r.2.2))
    graph

/-- `graphGetVertexNumber` from graph.c: linear search by name; an unknown
name makes the program `exit(-1)`, modelled as `none`. -/
def graphGetVertexNumber (graph : Graph) (string : String) : Option Nat :=
  (List.range (graphGetNumberOfCities graph)).find?
    (fun i => vertexGetCityName (graphGetVertex graph i) = string)

/-! ## The Dijkstra engine (dijkstras.c) -/

/-- The reset phase of `dijkstras` (lines 42-57): set the source distance to
0, every other distance to `INT_MAX`, clear `previous` and `visited`, and
enqueue every vertex in index order. -/
def dijkstrasReset (graph : Graph) (h : List Node) (source : Nat) : St :=
  let g0 := vertexSetDistanceFromSource graph source 0
  (List.range (graphGetNumberOfCities graph)).foldl
    (fun st i =>
      let g1 := if i ≠ source then vertexSetDistanceFromSource st.g i INT_MAX else st.g
      let g2 := vertexSetPrevious g1 i none
      let g3 := vertexSetIsNotVisited g2 i
      minHeapEnqueue { g := g3, h := st.h } i)
    { g := g0, h := h }

/-- One execution of the relaxation body (dijkstras.c lines 74-94) for the
edge `edgeOfU` of the dequeued vertex `u`.  The C sum
`vertexGetDistanceFromSource(u) + edgeGetDistance(edgeOfU)` is a 32-bit `int`
addition, hence `wrap32`. -/
def relaxEdge (u : Nat) (st : St) (edgeOfU : Edge) : St :=
  let v := edgeGetEndVertex edgeOfU
  if vertexIsVisited (graphGetVertex st.g v) then st
  else
    let alternateRoute :=
      wrap32 (vertexGetDistanceFromSource (graphGetVertex st.g u) + edgeGetDistance edgeOfU)
    if alternateRoute < vertexGetDistanceFromSource (graphGetVertex st.g v) then
      let g1 := vertexSetDistanceFromSource st.g v alternateRoute
      let g2 := vertexSetPrevious g1 v (some u)
      minHeapDecreaseNodeValue { g := g2, h := st.h } v
    else st

/-- The while loop of `dijkstras` (lines 59-97): dequeue the minimum, relax
all its edges, mark it visited, until the heap is empty.  Each iteration
shrinks the heap by exactly one node, so `fuel := st.h.length` runs the loop
to completion. -/
def relaxLoop : Nat → St → St
  | 0, st => st
  | fuel + 1, st =>
    if minHeapIsEmpty st then st
    else
      let du := minHeapDequeue st
      let u := du.2
      let st2 := (graphGetVertex du.1.g u).edges.foldl (relaxEdge u) du.1
      relaxLoop fuel { g := vertexSetIsVisited st2.g u, h := st2.h }

/-- `dijkstras` from dijkstras.c: reset phase followed by the relaxation
loop. -/
def dijkstras (graph : Graph) (h : List Node) (source : Nat) : St :=
  let st0 := dijkstrasReset graph h source
  relaxLoop st0.h.length st0

/-! ## Result rendering (dijkstras.c, `dijkstrasWriteToFile`) -/

/-- The predecessor walk of `dijkstrasWriteToFile` (lines 165-176): starting
from the destination, append the previous vertex's city name and step to its
vertex number while the previous pointer is not NULL.  The C loop has no
bound; `fuel` at the call site covers every terminating execution. -/
def routeWalk (graph : Graph) : Nat → Nat → List String → List String
  | 0, _, routeCityNames => routeCityNames
  | fuel + 1, i, routeCityNames =>
    match vertexGetPrevious (graphGetVertex graph i) with
    | none => routeCityNames
    | some p =>
      routeWalk graph fuel (vertexGetVertexNumber (graphGetVertex graph p))
        (routeCityNames ++ [vertexGetCityName (graphGetVertex graph p)])

/-- The `routeCityNames` array built by `dijkstrasWriteToFile`: destination
name first, then the city names read off the predecessor chain. -/
def routeCityNames (graph : Graph) (destinationVertexNumber : Nat) : List String :=
  routeWalk graph (graphGetNumberOfCities graph) destinationVertexNumber
    [vertexGetCityName (graphGetVertex graph destinationVertexNumber)]

/-- `dijkstrasWriteToFile` from dijkstras.c: the text written to the output
file for one query — the distance header, then the route printed from index
`count - 1` down to index `0` of `routeCityNames`. -/
def dijkstrasWriteToFile (graph : Graph)
    (sourceVertexNumber destinationVertexNumber : Nat) : String :=
  let sourceName := vertexGetCityName (graphGetVertex graph sourceVertexNumber)
  let destinationName := vertexGetCityName (graphGetVertex graph destinationVertexNumber)
  let distanceFromSource :=
    vertexGetDistanceFromSource (graphGetVertex graph destinationVertexNumber)
  let names := routeCityNames graph destinationVertexNumber
  sourceName ++ " to " ++ destinationName ++ " is " ++ toString distanceFromSource ++
    "km\n\n" ++ "Route:\n" ++
    String.join (((names.drop 1).reverse).map (fun s => s ++ " ---> ")) ++
    names.headD "" ++ "\n\n" ++ "\n\n"

/-! ## Shorthands for the per-vertex scheduling fields -/

/-- `vertexGetDistanceFromSource(graphGetVertex(g, i))`. -/
def distOf (g : Graph) (i : Nat) : Int := vertexGetDistanceFromSource (graphGetVertex g i)

/-- `vertexGetPrevious(graphGetVertex(g, i))`. -/
def prevOf (g : Graph) (i : Nat) : Option Nat := vertexGetPrevious (graphGetVertex g i)

/-- `vertexIsVisited(graphGetVertex(g, i))`. -/
def visOf (g : Graph) (i : Nat) : Bool := vertexIsVisited (graphGetVertex g i)

/-- `vertexGetPositionInHeap(graphGetVertex(g, i))`. -/
def posOf (g : Graph) (i : Nat) : Int := vertexGetPositionInHeap (graphGetVertex g i)

/-! ## Heap invariants

The representation invariant of the minheap, as maintained by minheap.c:
the min-heap ordering on values, the child-presence flags agreeing with the
array occupancy, and the position bookkeeping (both the per-node `position`
field and the `positionInHeap` record of the associated graph vertex). -/

/-- The vertices referenced by the heap nodes, in slot order. -/
def heapVerts (st : St) : List Nat := st.h.map Node.vertex

/-- The (vertex, value) payloads of the heap nodes, in slot order. -/
def heapPairs (st : St) : List (Nat × Int) := st.h.map (fun nd => (nd.vertex, nd.value))

/-- Min-heap ordering: every non-root slot's value is at least its parent's. -/
def heapInv (st : St) : Prop :=
  ∀ j, j < st.h.length → j ≠ 0 → heapVal st (cparent j) ≤ heapVal st j

/-- The `hasChildLeft`/`hasChildRight` flags agree with the array occupancy. -/
def flagsOK (st : St) : Prop :=
  ∀ i, i < st.h.length →
    ((heapGet st i).hasChildLeft = true ↔ 2 * i + 1 < st.h.length) ∧
    ((heapGet st i).hasChildRight = true ↔ 2 * i + 2 < st.h.length)

/-- Position bookkeeping: each slot's node records its own index, references a
real graph vertex, and that vertex's `positionInHeap` points back at the
slot. -/
def posOK (st : St) : Prop :=
  ∀ i, i < st.h.length →
    (heapGet st i).position = i ∧
    (heapGet st i).vertex < graphGetNumberOfCities st.g ∧
    posOf st.g (heapGet st i).vertex = (i : Int)

/-- The full representation invariant of the heap. -/
def WFHeap (st : St) : Prop := heapInv st ∧ flagsOK st ∧ posOK st

/-- Each heap node's value mirrors its vertex's current
`distanceFromSource`. -/
def heapSync (st : St) : Prop :=
  ∀ p ∈ heapPairs st, p.2 = distOf st.g p.1

/-- The graphs `g` and `g'` agree except possibly on `positionInHeap` fields:
the only part of the graph the minheap functions mutate. -/
def EqButPos (g g' : Graph) : Prop :=
  graphGetNumberOfCities g = graphGetNumberOfCities g' ∧
  ∀ i, distOf g i = distOf g' i ∧ prevOf g i = prevOf g' i ∧ visOf g i = visOf g' i ∧
    (graphGetVertex g i).edges = (graphGetVertex g' i).edges ∧
    (graphGetVertex g i).cityName = (graphGetVertex g' i).cityName ∧
    (graphGetVertex g i).vertexNumber = (graphGetVertex g' i).vertexNumber

/-- The state of the heap during a sift-up from `cur`: every parent-child
relation holds except possibly the one into `cur`, and `cur`'s parent is
already at most `cur`'s children (the grandparent relation). -/
def AlmostUp (st : St) (cur : Nat) : Prop :=
  (∀ j, j < st.h.length → j ≠ 0 → j ≠ cur → heapVal st (cparent j) ≤ heapVal st j) ∧
  (∀ j, j < st.h.length → j ≠ 0 → cparent j = cur →
    heapVal st (cparent cur) ≤ heapVal st j)

/-- The state of the heap during a sift-down at `cur`: every parent-child
relation holds except possibly the ones out of `cur`, and (once `cur` is not
the root) `cur`'s parent is already at most `cur`'s children. -/
def AlmostDown (st : St) (cur : Nat) : Prop :=
  (∀ j, j < st.h.length → j ≠ 0 → cparent j ≠ cur → heapVal st (cparent j) ≤ heapVal st j) ∧
  (cur ≠ 0 → ∀ j, j < st.h.length → j ≠ 0 → cparent j = cur →
    heapVal st (cparent cur) ≤ heapVal st j)

/-- The values observed by repeatedly calling `minHeapDequeue` until the heap
is empty (no interleaved enqueue or decrease-key).  One unit of fuel per
element suffices because each dequeue removes exactly one node. -/
def popAllGo : Nat → St → List Int
  | 0, _ => []
  | fuel + 1, st =>
    if st.h.length = 0 then []
    else heapVal st 0 :: popAllGo fuel (minHeapDequeue st).1

def popAll (st : St) : List Int := popAllGo st.h.length st

/-! ## Decidability of the heap invariants (for concrete instances) -/

instance (st : St) : Decidable (heapInv st) :=
  decidable_of_iff
    (∀ j, j < st.h.length → j ≠ 0 → heapVal st (cparent j) ≤ heapVal st j) Iff.rfl

instance (st : St) : Decidable (flagsOK st) :=
  decidable_of_iff
    (∀ i, i < st.h.length →
      ((heapGet st i).hasChildLeft = true ↔ 2 * i + 1 < st.h.length) ∧
      ((heapGet st i).hasChildRight = true ↔ 2 * i + 2 < st.h.length)) Iff.rfl

instance (st : St) : Decidable (posOK st) :=
  decidable_of_iff
    (∀ i, i < st.h.length →
      (heapGet st i).position = i ∧
      (heapGet st i).vertex < graphGetNumberOfCities st.g ∧
      posOf st.g (heapGet st i).vertex = (i : Int)) Iff.rfl

instance (st : St) : Decidable (WFHeap st) :=
  decidable_of_iff (heapInv st ∧ flagsOK st ∧ posOK st) Iff.rfl

instance (st : St) : Decidable (heapSync st) :=
  decidable_of_iff (∀ p ∈ heapPairs st, p.2 = distOf st.g p.1) Iff.rfl

/-! ## Example states and graphs used as concrete instances -/

/-- A well-formed three-vertex graph with a two-node heap holding vertices 0
and 1, used to instantiate the heap-operation theorems. -/
def exWF : St :=
  { g := ⟨[{ vertexNumber := 0, cityName := "A", edges := [], previous := none
             distanceFromSource := 1, positionInHeap := 0, visited := false },
           { vertexNumber := 1, cityName := "B", edges := [], previous := none
             distanceFromSource := 5, positionInHeap := 1, visited := false },
           { vertexNumber := 2, cityName := "C", edges := [], previous := none
             distanceFromSource := 3, positionInHeap := -1, visited := false }]⟩
    h := [{ value := 1, position := 0, hasChildLeft := true, hasChildRight := false
            vertex := 0 },
          { value := 5, position := 1, hasChildLeft := false, hasChildRight := false
            vertex := 1 }] }

/-- A two-node heap whose child's value ties its parent's. -/
def stTie : St :=
  { g := ⟨[]⟩
    h := [{ value := 1, position := 0, hasChildLeft := true, hasChildRight := false
            vertex := 0 },
          { value := 1, position := 1, hasChildLeft := false, hasChildRight := false
            vertex := 1 }] }

/-- A three-node heap whose root exceeds its two equal-valued children. -/
def stSd : St :=
  { g := ⟨[]⟩
    h := [{ value := 5, position := 0, hasChildLeft := true, hasChildRight := true
            vertex := 0 },
          { value := 3, position := 1, hasChildLeft := false, hasChildRight := false
            vertex := 1 },
          { value := 3, position := 2, hasChildLeft := false, hasChildRight := false
            vertex := 2 }] }

/-- Edge records of two disconnected pairs: A-B(1) and C-D(1). -/
def recsTwoIslands : List (String × String × Int) := [("A", "B", 1), ("C", "D", 1)]

/-- The graph built from `recsTwoIslands`. -/
def gTwoIslands : Graph :=
  (graphPopulateGraph graphConstructor recsTwoIslands).getD graphConstructor

/-- Edge records forcing the relaxation sum past `INT_MAX`:
A-B(2000000000) and B-C(2000000000). -/
def recsOverflow : List (String × String × Int) :=
  [("A", "B", 2000000000), ("B", "C", 2000000000)]

/-- The graph built from `recsOverflow`. -/
def gOverflow : Graph :=
  (graphPopulateGraph graphConstructor recsOverflow).getD graphConstructor

/-! ## Claim theorems: the heap (C4, C7, C8, C10) -/

/-- `Reach g s v`: there is an edge path from `s` to `v` in `g`. -/
inductive Reach (g : Graph) (s : Nat) : Nat → Prop
  | refl : Reach g s s
  | step {u : Nat} (e : Edge) : Reach g s u → e ∈ (graphGetVertex g u).edges →
      Reach g s e.endVertex

/-! ## Claim theorems: sentinel handling and rendering (C1, C2, C3, C5) -/

/-- The graph built from the single record ("X", "X", 3) whose two equal city
names were previously unseen. -/
def gDup : Graph :=
  (graphPopulateGraph graphConstructor [("X", "X", 3)]).getD graphConstructor

/-- `g` and `g'` have the same vertex count and identical `edges`, `cityName`
and `vertexNumber` fields everywhere: the part of the graph that `dijkstras`
never mutates. -/
def SameSkeleton (g g' : Graph) : Prop :=
  graphGetNumberOfCities g = graphGetNumberOfCities g' ∧
  ∀ i, (graphGetVertex g i).edges = (graphGetVertex g' i).edges ∧
    (graphGetVertex g i).cityName = (graphGetVertex g' i).cityName ∧
    (graphGetVertex g i).vertexNumber = (graphGetVertex g' i).vertexNumber

/-- One iteration of the reset loop of `dijkstras` (lines 44-56), for loop
index `i`. -/
def resetStep (source : Nat) (st : St) (i : Nat) : St :=
  let g1 := if i ≠ source then vertexSetDistanceFromSource st.g i INT_MAX else st.g
  let g2 := vertexSetPrevious g1 i none
  let g3 := vertexSetIsNotVisited g2 i
  minHeapEnqueue { g := g3, h := st.h } i

/-- The invariant of the reset loop after the first `i` iterations, for a run
that started on graph `g` with an empty heap. -/
def ResetInv (g : Graph) (s i : Nat) (st : St) : Prop :=
  SameSkeleton g st.g ∧
  st.h.length = i ∧
  (heapVerts st).Perm (List.range i) ∧
  WFHeap st ∧ heapSync st ∧
  distOf st.g s = 0 ∧
  (∀ j, j < i → j ≠ s → distOf st.g j = INT_MAX) ∧
  (∀ j, j < i → prevOf st.g j = none ∧ visOf st.g j = false)

/-- Structural well-formedness of a loaded graph: every vertex records its own
index, and every stored edge points to a real vertex and carries a positive
weight (graphPopulateGraph rejects `distance <= 0`). -/
def WFGraph (g : Graph) : Prop :=
  ∀ i, i < graphGetNumberOfCities g →
    (graphGetVertex g i).vertexNumber = i ∧
    ∀ e ∈ (graphGetVertex g i).edges,
      e.endVertex < graphGetNumberOfCities g ∧ 1 ≤ e.distance

/-- The sum of the weights of the edges stored on vertex `i`. -/
def vertexWeightSum (g : Graph) (i : Nat) : Int :=
  ((graphGetVertex g i).edges.map Edge.distance).sum

/-- The sum of all stored edge weights of the graph (each undirected record
counted once per direction). -/
def totalWeight (g : Graph) : Int :=
  ((List.range (graphGetNumberOfCities g)).map (vertexWeightSum g)).sum

/-- The vertices not yet marked visited, in index order. -/
def unvisited (g : Graph) : List Nat :=
  (List.range (graphGetNumberOfCities g)).filter (fun i => !(visOf g i))

/-- A realized predecessor chain of the current graph state: `l` lists the
chain vertices from `v` back to the source and `es` the traversed edges, with
each link recorded in the `previous` field and each distance obtained by
adding the edge weight to the predecessor's distance. -/
inductive PredChain (g : Graph) (s : Nat) : Nat → List Nat → List Edge → Prop
  | src (hp : prevOf g s = none) (hd : distOf g s = 0) : PredChain g s s [s] []
  | step {u v : Nat} {l : List Nat} {es : List Edge} (e : Edge)
      (hch : PredChain g s u l es)
      (he : e ∈ (graphGetVertex g u).edges)
      (hev : e.endVertex = v)
      (hprev : prevOf g v = some u)
      (hdist : distOf g v = distOf g u + e.distance)
      (hnew : v ∉ l) :
      PredChain g s v (v :: l) (e :: es)

/-- Every visited reachable vertex carries a realized predecessor chain whose
vertices are all visited. -/
def ChainsOK (g0 : Graph) (s : Nat) (st : St) : Prop :=
  ∀ v, v < graphGetNumberOfCities g0 → visOf st.g v = true → Reach g0 s v →
    ∃ l es, PredChain st.g s v l es ∧ ∀ x ∈ l, visOf st.g x = true

/-- The clean-phase half of the loop invariant: intact heap, heap contents =
unvisited vertices, visited vertices reachable, unvisited vertices either
untouched (sentinel) or carrying a frontier chain, finalized neighbour bounds,
and the source untouched while unvisited. -/
def CleanSide (g0 : Graph) (s : Nat) (st : St) : Prop :=
  WFHeap st ∧ heapSync st ∧ (heapVerts st).Perm (unvisited st.g) ∧
  (∀ v, v < graphGetNumberOfCities g0 → visOf st.g v = true → Reach g0 s v) ∧
  (∀ v, v < graphGetNumberOfCities g0 → visOf st.g v = false →
     distOf st.g v = INT_MAX ∨ (Reach g0 s v ∧
       ∃ l es, PredChain st.g s v l es ∧ ∀ x ∈ l.tail, visOf st.g x = true)) ∧
  (∀ x, x < graphGetNumberOfCities g0 → visOf st.g x = true →
     ∀ e ∈ (graphGetVertex st.g x).edges, visOf st.g e.endVertex = false →
       distOf st.g e.endVertex ≤ distOf st.g x + e.distance) ∧
  (visOf st.g s = false → distOf st.g s = 0 ∧ prevOf st.g s = none)

/-- The dirty-phase half: every reachable vertex has been finalized. -/
def AllReachVis (g0 : Graph) (s : Nat) (st : St) : Prop :=
  ∀ v, v < graphGetNumberOfCities g0 → Reach g0 s v → visOf st.g v = true

def LoopInv (g0 : Graph) (s : Nat) (st : St) : Prop :=
  SameSkeleton g0 st.g ∧ ChainsOK g0 s st ∧
  (CleanSide g0 s st ∨ AllReachVis g0 s st)

/-- The invariant maintained while relaxing the edges of the freshly dequeued
vertex `u` (still unvisited, already removed from the heap). -/
def CleanFold (g0 : Graph) (s u : Nat) (t : St) : Prop :=
  SameSkeleton g0 t.g ∧ WFHeap t ∧ heapSync t ∧
  (heapVerts t).Perm ((unvisited t.g).erase u) ∧
  u < graphGetNumberOfCities g0 ∧
  visOf t.g u = false ∧
  Reach g0 s u ∧
  (∃ l es, PredChain t.g s u l es ∧ ∀ x ∈ l.tail, visOf t.g x = true) ∧
  ChainsOK g0 s t ∧
  (∀ v, v < graphGetNumberOfCities g0 → visOf t.g v = true → Reach g0 s v) ∧
  (∀ v, v < graphGetNumberOfCities g0 → visOf t.g v = false → v ≠ u →
     distOf t.g v = INT_MAX ∨ (Reach g0 s v ∧
       ∃ l es, PredChain t.g s v l es ∧ ∀ x ∈ l.tail, visOf t.g x = true ∨ x = u)) ∧
  (∀ x, x < graphGetNumberOfCities g0 → visOf t.g x = true →
     ∀ e ∈ (graphGetVertex t.g x).edges, visOf t.g e.endVertex = false →
       distOf t.g e.endVertex ≤ distOf t.g x + e.distance) ∧
  (visOf t.g s = false → distOf t.g s = 0 ∧ prevOf t.g s = none)

instance (g : Graph) : Decidable (WFGraph g) :=
  decidable_of_iff
    (∀ i, i < graphGetNumberOfCities g →
      (graphGetVertex g i).vertexNumber = i ∧
      ∀ e ∈ (graphGetVertex g i).edges,
        e.endVertex < graphGetNumberOfCities g ∧ 1 ≤ e.distance) Iff.rfl

/-- The worked example of the specification: A-B 4km, B-C 5km, A-C 10km. -/
def gSpec : Graph :=
  (graphPopulateGraph graphConstructor [("A", "B", 4), ("B", "C", 5), ("A", "C", 10)]).getD
    graphConstructor

/-! ## List indexing helpers -/

theorem getD_set_self {α : Type} (l : List α) (i : Nat) (a d : α) (h : i < l.length) :
    (l.set i a).getD i d = a := by
  simp [List.getD_eq_getElem?_getD, List.getElem?_set_self, h]

theorem getD_set_ne {α : Type} (l : List α) (i j : Nat) (a d : α) (h : i ≠ j) :
    (l.set i a).getD j d = l.getD j d := by
  simp [List.getD_eq_getElem?_getD, List.getElem?_set_ne h]

theorem getD_append_lt {α : Type} (l l' : List α) (i : Nat) (d : α) (h : i < l.length) :
    (l ++ l').getD i d = l.getD i d := by
  simp [List.getD_eq_getElem?_getD, List.getElem?_append, h]

theorem getD_append_len {α : Type} (l : List α) (a d : α) :
    (l ++ [a]).getD l.length d = a := by
  simp [List.getD_eq_getElem?_getD]

theorem getD_len_le {α : Type} (l : List α) (i : Nat) (d : α) (h : l.length ≤ i) :
    l.getD i d = d := by
  simp [List.getD_eq_getElem?_getD, List.getElem?_eq_none h]

theorem getD_take_lt {α : Type} (l : List α) (k i : Nat) (d : α) (h : i < k) :
    (l.take k).getD i d = l.getD i d := by
  simp [List.getD_eq_getElem?_getD, List.getElem?_take, h]

theorem getD_range (n i : Nat) (h : i < n) (d : Nat) : (List.range n).getD i d = i := by
  simp [List.getD_eq_getElem?_getD, List.getElem?_range h]

theorem getD_map_eq {α β : Type} (l : List α) (f : α → β) (i : Nat) (d : α)
    (h : i < l.length) : (l.map f).getD i (f d) = f (l.getD i d) := by
  simp [List.getD_eq_getElem?_getD, List.getElem?_eq_getElem h]

/-- Setting a slot to a value that only changes fields a projection ignores
leaves the projected list unchanged. -/
theorem map_set_eq_of_proj {α β : Type} (l : List α) (f : α → β) (i : Nat) (a : α)
    (h : f a = f (l.getD i a)) : (l.set i a).map f = l.map f := by
  by_cases hi : i < l.length
  · apply List.ext_getElem
    · simp
    · intro j hj hj'
      by_cases hij : i = j
      · subst hij
        have h2 : l.getD i a = l[i] := by
          simp [List.getD_eq_getElem?_getD, List.getElem?_eq_getElem hi]
        rw [h2] at h
        simp [List.getElem_set, h]
      · simp [List.getElem_set, hij]
  · rw [List.set_eq_of_length_le (Nat.le_of_not_lt hi)]

/-! ## Effect of the vertex setters -/

theorem numberOfCities_graphSetVertex (g : Graph) (i : Nat) (v : Vertex) :
    graphGetNumberOfCities (graphSetVertex g i v) = graphGetNumberOfCities g := by
  simp [graphGetNumberOfCities, graphSetVertex]

theorem graphGetVertex_graphSetVertex_self (g : Graph) (i : Nat) (v : Vertex)
    (h : i < graphGetNumberOfCities g) : graphGetVertex (graphSetVertex g i v) i = v :=
  getD_set_self _ _ _ _ h

theorem graphGetVertex_graphSetVertex_ne (g : Graph) (i : Nat) (v : Vertex) (j : Nat)
    (h : i ≠ j) : graphGetVertex (graphSetVertex g i v) j = graphGetVertex g j :=
  getD_set_ne _ _ _ _ _ h

theorem graphSetVertex_of_le (g : Graph) (i : Nat) (v : Vertex)
    (h : graphGetNumberOfCities g ≤ i) : graphSetVertex g i v = g := by
  simp only [graphSetVertex]
  rw [List.set_eq_of_length_le h]

theorem EqButPos.refl (g : Graph) : EqButPos g g := ⟨rfl, fun _ => ⟨rfl, rfl, rfl, rfl, rfl, rfl⟩⟩

theorem EqButPos.trans {g1 g2 g3 : Graph} (h1 : EqButPos g1 g2) (h2 : EqButPos g2 g3) :
    EqButPos g1 g3 := by
  refine ⟨h1.1.trans h2.1, fun i => ?_⟩
  obtain ⟨a1, b1, c1, d1, e1, f1⟩ := h1.2 i
  obtain ⟨a2, b2, c2, d2, e2, f2⟩ := h2.2 i
  exact ⟨a1.trans a2, b1.trans b2, c1.trans c2, d1.trans d2, e1.trans e2, f1.trans f2⟩

theorem EqButPos_setPos (g : Graph) (i : Nat) (p : Int) :
    EqButPos g (vertexSetPositionInHeap g i p) := by
  by_cases hi : i < graphGetNumberOfCities g
  · refine ⟨(numberOfCities_graphSetVertex _ _ _).symm, fun j => ?_⟩
    by_cases hij : i = j
    · subst hij
      simp [distOf, prevOf, visOf, vertexSetPositionInHeap,
        graphGetVertex_graphSetVertex_self _ _ _ hi, vertexGetDistanceFromSource,
        vertexGetPrevious, vertexIsVisited]
    · simp [distOf, prevOf, visOf, vertexSetPositionInHeap,
        graphGetVertex_graphSetVertex_ne _ _ _ _ hij]
  · rw [vertexSetPositionInHeap, graphSetVertex_of_le _ _ _ (Nat.le_of_not_lt hi)]
    exact EqButPos.refl g

theorem posOf_setPos_self (g : Graph) (i : Nat) (p : Int)
    (h : i < graphGetNumberOfCities g) : posOf (vertexSetPositionInHeap g i p) i = p := by
  rw [posOf, vertexSetPositionInHeap, graphGetVertex_graphSetVertex_self _ _ _ h]
  rfl

theorem posOf_setPos_ne (g : Graph) (i : Nat) (p : Int) (j : Nat) (h : i ≠ j) :
    posOf (vertexSetPositionInHeap g i p) j = posOf g j := by
  rw [posOf, vertexSetPositionInHeap, graphGetVertex_graphSetVertex_ne _ _ _ _ h]
  rfl

theorem numberOfCities_setPos (g : Graph) (i : Nat) (p : Int) :
    graphGetNumberOfCities (vertexSetPositionInHeap g i p) = graphGetNumberOfCities g :=
  numberOfCities_graphSetVertex _ _ _

/-! ## Swapping two list entries is a permutation -/

theorem getD_eq_getElem {α : Type} (l : List α) (k : Nat) (d : α) (hk : k < l.length) :
    l.getD k d = l[k] := by
  simp [List.getD_eq_getElem?_getD, List.getElem?_eq_getElem hk]

theorem set_getD_self {α : Type} (l : List α) (i : Nat) (d : α) :
    l.set i (l.getD i d) = l := by
  by_cases hi : i < l.length
  · apply List.ext_getElem
    · simp
    · intro k hk hk'
      rw [List.getElem_set]
      split
      · subst ‹i = k›
        exact (getD_eq_getElem l i d hi).symm ▸ rfl
      · rfl
  · exact List.set_eq_of_length_le (Nat.le_of_not_lt hi)

theorem extract_set_perm {α : Type} :
    ∀ (l : List α) (m : Nat) (x d : α), m < l.length →
      (l.getD m d :: l.set m x).Perm (x :: l)
  | [], m, _, _, hm => absurd hm (by simp)
  | y :: t, 0, x, d, _ => by
    simpa using List.Perm.swap x y t
  | y :: t, m + 1, x, d, hm => by
    have ht : m < t.length := by simpa using hm
    have ih := extract_set_perm t m x d ht
    exact ((List.Perm.swap y (t.getD m d) (t.set m x)).trans (ih.cons y)).trans
      (List.Perm.swap x y t)

/-- Swapping the entries at two valid indices permutes the list. -/
theorem set_set_perm {α : Type} :
    ∀ (l : List α) (i j : Nat) (d : α), i < l.length → j < l.length →
      ((l.set i (l.getD j d)).set j (l.getD i d)).Perm l
  | [], i, _, _, hi, _ => absurd hi (by simp)
  | x :: t, 0, 0, d, _, _ => by simp
  | x :: t, 0, j + 1, d, hi, hj => by
    have ht : j < t.length := by simpa using hj
    simpa using extract_set_perm t j x d ht
  | x :: t, i + 1, 0, d, hi, hj => by
    have ht : i < t.length := by simpa using hi
    simpa using extract_set_perm t i x d ht
  | x :: t, i + 1, j + 1, d, hi, hj => by
    have hti : i < t.length := by simpa using hi
    have htj : j < t.length := by simpa using hj
    simpa using (set_set_perm t i j d hti htj).cons x

/-! ## Basic facts about `swapNode` -/

theorem swapNode_h_length (st : St) (i j : Nat) :
    (swapNode st i j).h.length = st.h.length := by
  simp [swapNode]

theorem heapGet_swapNode_snd (st : St) (i j : Nat) (hj : j < st.h.length) :
    heapGet (swapNode st i j) j =
      { value := (heapGet st i).value, vertex := (heapGet st i).vertex, position := j
        hasChildLeft := (heapGet st j).hasChildLeft
        hasChildRight := (heapGet st j).hasChildRight } := by
  have : j < (st.h.set i (heapGet st i)).length := by simpa using hj
  simp only [swapNode, heapGet]
  rw [getD_set_self _ _ _ _ (by simpa using hj)]

theorem heapGet_swapNode_fst (st : St) (i j : Nat) (hij : i ≠ j) (hi : i < st.h.length) :
    heapGet (swapNode st i j) i =
      { value := (heapGet st j).value, vertex := (heapGet st j).vertex, position := i
        hasChildLeft := (heapGet st i).hasChildLeft
        hasChildRight := (heapGet st i).hasChildRight } := by
  simp only [swapNode, heapGet]
  rw [getD_set_ne _ _ _ _ _ (Ne.symm hij), getD_set_self _ _ _ _ hi]

theorem heapGet_swapNode_other (st : St) (i j k : Nat) (hki : k ≠ i) (hkj : k ≠ j) :
    heapGet (swapNode st i j) k = heapGet st k := by
  simp only [swapNode, heapGet]
  rw [getD_set_ne _ _ _ _ _ (Ne.symm hkj), getD_set_ne _ _ _ _ _ (Ne.symm hki)]

theorem swapNode_g_EqButPos (st : St) (i j : Nat) : EqButPos st.g (swapNode st i j).g :=
  (EqButPos_setPos _ _ _).trans (EqButPos_setPos _ _ _)

theorem posOf_swapNode_fst (st : St) (i j : Nat)
    (hv : (heapGet st i).vertex ≠ (heapGet st j).vertex)
    (hb : (heapGet st i).vertex < graphGetNumberOfCities st.g) :
    posOf (swapNode st i j).g (heapGet st i).vertex = (j : Int) := by
  simp only [swapNode]
  rw [posOf_setPos_ne _ _ _ _ (Ne.symm hv), posOf_setPos_self _ _ _ hb]

theorem posOf_swapNode_snd (st : St) (i j : Nat)
    (hb : (heapGet st j).vertex < graphGetNumberOfCities st.g) :
    posOf (swapNode st i j).g (heapGet st j).vertex = (i : Int) := by
  simp only [swapNode]
  rw [posOf_setPos_self]
  rwa [numberOfCities_setPos]

theorem posOf_swapNode_other (st : St) (i j : Nat) (x : Nat)
    (hxi : x ≠ (heapGet st i).vertex) (hxj : x ≠ (heapGet st j).vertex) :
    posOf (swapNode st i j).g x = posOf st.g x := by
  simp only [swapNode]
  rw [posOf_setPos_ne _ _ _ _ (Ne.symm hxj), posOf_setPos_ne _ _ _ _ (Ne.symm hxi)]

theorem heapPairs_length (st : St) : (heapPairs st).length = st.h.length := by
  simp [heapPairs]

theorem heapPairs_getD (st : St) (i : Nat) (hi : i < st.h.length) :
    (heapPairs st).getD i (defaultNode.vertex, defaultNode.value) =
      ((heapGet st i).vertex, (heapGet st i).value) := by
  have h2 := getD_map_eq st.h (fun nd => (nd.vertex, nd.value)) i defaultNode hi
  simp only [heapPairs, heapGet]
  exact h2

theorem heapPairs_swapNode_perm (st : St) (i j : Nat) (hi : i < st.h.length)
    (hj : j < st.h.length) : (heapPairs (swapNode st i j)).Perm (heapPairs st) := by
  have key := set_set_perm (heapPairs st) i j (defaultNode.vertex, defaultNode.value)
    (by simpa [heapPairs_length] using hi) (by simpa [heapPairs_length] using hj)
  rw [heapPairs_getD st j hj, heapPairs_getD st i hi] at key
  have : heapPairs (swapNode st i j) =
      ((heapPairs st).set i ((heapGet st j).vertex, (heapGet st j).value)).set j
        ((heapGet st i).vertex, (heapGet st i).value) := by
    simp [heapPairs, swapNode, List.map_set]
  rw [this]
  exact key

/-! ## Sift-up restores the heap invariant -/

theorem cparent_lt {i : Nat} (h : i ≠ 0) : cparent i < i := by
  have := Nat.div_le_self (i - 1) 2
  unfold cparent
  omega

theorem heapVal_swapNode_fst (st : St) (i j : Nat) (hij : i ≠ j) (hi : i < st.h.length) :
    heapVal (swapNode st i j) i = heapVal st j := by
  rw [heapVal, heapGet_swapNode_fst st i j hij hi]
  rfl

theorem heapVal_swapNode_snd (st : St) (i j : Nat) (hj : j < st.h.length) :
    heapVal (swapNode st i j) j = heapVal st i := by
  rw [heapVal, heapGet_swapNode_snd st i j hj]
  rfl

theorem heapVal_swapNode_other (st : St) (i j k : Nat) (hki : k ≠ i) (hkj : k ≠ j) :
    heapVal (swapNode st i j) k = heapVal st k := by
  rw [heapVal, heapGet_swapNode_other st i j k hki hkj]
  rfl

theorem posOK_vertex_ne {st : St} (hp : posOK st) {i j : Nat} (hi : i < st.h.length)
    (hj : j < st.h.length) (hij : i ≠ j) :
    (heapGet st i).vertex ≠ (heapGet st j).vertex := by
  intro he
  apply hij
  have h1 := (hp i hi).2.2
  have h2 := (hp j hj).2.2
  rw [he, h2] at h1
  exact_mod_cast h1.symm

theorem flagsOK_swapNode {st : St} (hf : flagsOK st) {i j : Nat} (hij : i ≠ j)
    (hi : i < st.h.length) (hj : j < st.h.length) : flagsOK (swapNode st i j) := by
  intro k hk
  rw [swapNode_h_length] at hk
  rw [swapNode_h_length]
  rcases eq_or_ne k i with rfl | hki
  · rw [heapGet_swapNode_fst st k j hij hi]
    exact hf k hk
  · rcases eq_or_ne k j with rfl | hkj
    · rw [heapGet_swapNode_snd st i k hj]
      exact hf k hk
    · rw [heapGet_swapNode_other st i j k hki hkj]
      exact hf k hk

theorem posOK_swapNode {st : St} (hp : posOK st) {i j : Nat} (hij : i ≠ j)
    (hi : i < st.h.length) (hj : j < st.h.length) : posOK (swapNode st i j) := by
  have hvne := posOK_vertex_ne hp hi hj hij
  have hn : graphGetNumberOfCities (swapNode st i j).g = graphGetNumberOfCities st.g :=
    ((swapNode_g_EqButPos st i j).1).symm
  intro k hk
  rw [swapNode_h_length] at hk
  rcases eq_or_ne k i with rfl | hki
  · rw [heapGet_swapNode_fst st k j hij hi]
    refine ⟨rfl, ?_, ?_⟩
    · rw [hn]
      exact (hp j hj).2.1
    · exact posOf_swapNode_snd st k j (hp j hj).2.1
  · rcases eq_or_ne k j with rfl | hkj
    · rw [heapGet_swapNode_snd st i k hj]
      refine ⟨rfl, ?_, ?_⟩
      · rw [hn]
        exact (hp i hi).2.1
      · exact posOf_swapNode_fst st i k hvne (hp i hi).2.1
    · rw [heapGet_swapNode_other st i j k hki hkj]
      refine ⟨(hp k hk).1, ?_, ?_⟩
      · rw [hn]
        exact (hp k hk).2.1
      · rw [posOf_swapNode_other st i j _ (posOK_vertex_ne hp hk hi hki)
          (posOK_vertex_ne hp hk hj hkj)]
        exact (hp k hk).2.2

/-- `heapSync` follows from a payload permutation plus agreement of the graphs
on distances. -/
theorem heapSync_of_perm {st st' : St} (hs : heapSync st)
    (hperm : (heapPairs st').Perm (heapPairs st)) (he : EqButPos st.g st'.g) :
    heapSync st' := by
  intro p hp
  have : p ∈ heapPairs st := hperm.mem_iff.mp hp
  rw [← (he.2 p.1).1]
  exact hs p this

theorem AlmostUp_swap {st : St} {cur : Nat} (hc0 : cur ≠ 0) (hlen : cur < st.h.length)
    (hau : AlmostUp st cur)
    (hswap : heapVal st cur < heapVal st (cparent cur)) :
    AlmostUp (swapNode st cur (cparent cur)) (cparent cur) := by
  obtain ⟨P1, P2⟩ := hau
  set par := cparent cur with hpar
  have hplt : par < cur := cparent_lt hc0
  have hplen : par < st.h.length := hplt.trans hlen
  have hne : cur ≠ par := Nat.ne_of_gt hplt
  have hvcur : heapVal (swapNode st cur par) cur = heapVal st par :=
    heapVal_swapNode_fst st cur par hne hlen
  have hvpar : heapVal (swapNode st cur par) par = heapVal st cur :=
    heapVal_swapNode_snd st cur par hplen
  have hvoth : ∀ k, k ≠ cur → k ≠ par → heapVal (swapNode st cur par) k = heapVal st k :=
    fun k h1 h2 => heapVal_swapNode_other st cur par k h1 h2
  constructor
  · intro j hj hj0 hjp
    rw [swapNode_h_length] at hj
    rcases eq_or_ne j cur with rfl | hjc
    · -- the swapped-up entry: its new parent relation is the swap condition
      rw [hvcur, hpar, hvpar]
      exact le_of_lt hswap
    · have hvj : heapVal (swapNode st cur par) j = heapVal st j := hvoth j hjc hjp
      rcases eq_or_ne (cparent j) cur with hpc | hpc
      · -- j was a child of cur; its parent slot now holds cur's old parent value
        rw [hvj, hpc, hvcur]
        exact P2 j hj hj0 hpc
      · rcases eq_or_ne (cparent j) par with hpp | hpp
        · -- j is a child of par other than cur
          have h1 := P1 j hj hj0 hjc
          rw [hpp] at h1
          rw [hvj, hpp, hvpar]
          exact le_of_lt (lt_of_lt_of_le hswap h1)
        · rw [hvj, hvoth _ hpc hpp]
          exact P1 j hj hj0 hjc
  · intro j hj hj0 hpj
    rw [swapNode_h_length] at hj
    rcases eq_or_ne par 0 with hp0 | hp0
    · -- par is the root: its parent is itself, holding cur's old value
      have hcp : cparent par = par := by
        rw [hp0]
        rfl
      rw [hcp, hvpar]
      rcases eq_or_ne j cur with rfl | hjc
      · rw [hvcur]
        exact le_of_lt hswap
      · have hjpar : j ≠ par := by
          rw [hp0]
          exact hj0
        rw [hvoth j hjc hjpar]
        have h1 := P1 j hj hj0 hjc
        rw [hpj] at h1
        exact le_of_lt (lt_of_lt_of_le hswap h1)
    · have hcpp : cparent par ≠ cur := by
        have := cparent_lt hp0
        omega
      have hcpp2 : cparent par ≠ par := by
        have := cparent_lt hp0
        omega
      rw [hvoth _ hcpp hcpp2]
      have hbase : heapVal st (cparent par) ≤ heapVal st par := P1 par hplen hp0 hne.symm
      rcases eq_or_ne j cur with rfl | hjc
      · rw [hvcur]
        exact hbase
      · have hjp : j ≠ par := by
          intro h
          rw [h] at hpj
          have := cparent_lt hp0
          omega
        rw [hvoth j hjc hjp]
        have h1 := P1 j hj hj0 hjc
        rw [hpj] at h1
        exact hbase.trans h1

theorem siftUpGo_fuel :
    ∀ (f1 : Nat) {f2 : Nat} (st : St) (cur : Nat), cur < f1 → cur < f2 →
      siftUpGo f1 st cur = siftUpGo f2 st cur := by
  intro f1
  induction f1 with
  | zero => intro f2 st cur h1 _; omega
  | succ f1 ih =>
    intro f2 st cur h1 h2
    cases f2 with
    | zero => omega
    | succ f2 =>
      simp only [siftUpGo]
      rcases eq_or_ne cur 0 with rfl | hc0
      · simp
      · rw [if_neg hc0, if_neg hc0]
        by_cases hlt : heapVal st cur < heapVal st (cparent cur)
        · rw [if_pos hlt, if_pos hlt]
          have hp := cparent_lt hc0
          exact ih _ _ (by omega) (by omega)
        · rw [if_neg hlt, if_neg hlt]

/-- Everything sift-up guarantees: starting from an `AlmostUp` state it
restores the full heap ordering, preserves the flag and position bookkeeping,
permutes the payloads, keeps the length, and touches the graph only through
`positionInHeap`. -/
theorem siftUpGo_spec :
    ∀ (cur : Nat) (st : St), AlmostUp st cur → cur < st.h.length → flagsOK st → posOK st →
      heapInv (siftUpGo (cur + 1) st cur) ∧ flagsOK (siftUpGo (cur + 1) st cur) ∧
      posOK (siftUpGo (cur + 1) st cur) ∧
      (heapPairs (siftUpGo (cur + 1) st cur)).Perm (heapPairs st) ∧
      (siftUpGo (cur + 1) st cur).h.length = st.h.length ∧
      EqButPos st.g (siftUpGo (cur + 1) st cur).g := by
  intro cur
  induction cur using Nat.strong_induction_on with
  | _ cur ih =>
    intro st hau hlen hf hp
    rcases eq_or_ne cur 0 with rfl | hc0
    · have hid : siftUpGo (0 + 1) st 0 = st := by
        simp [siftUpGo]
      rw [hid]
      exact ⟨fun j hj hj0 => hau.1 j hj hj0 hj0, hf, hp, List.Perm.refl _, rfl,
        EqButPos.refl _⟩
    · by_cases hlt : heapVal st cur < heapVal st (cparent cur)
      · have hstep : siftUpGo (cur + 1) st cur =
            siftUpGo cur (swapNode st cur (cparent cur)) (cparent cur) := by
          cases cur with
          | zero => exact absurd rfl hc0
          | succ c =>
            simp only [siftUpGo, if_neg hc0, if_pos hlt]
        have hplt : cparent cur < cur := cparent_lt hc0
        have hplen : cparent cur < st.h.length := hplt.trans hlen
        have hfuel : siftUpGo cur (swapNode st cur (cparent cur)) (cparent cur) =
            siftUpGo (cparent cur + 1) (swapNode st cur (cparent cur)) (cparent cur) :=
          siftUpGo_fuel cur _ _ hplt (Nat.lt_succ_self _)
        rw [hstep, hfuel]
        have hne : cur ≠ cparent cur := Nat.ne_of_gt hplt
        have hau' := AlmostUp_swap hc0 hlen hau hlt
        have hlen' : cparent cur < (swapNode st cur (cparent cur)).h.length := by
          rw [swapNode_h_length]
          exact hplen
        have hf' := flagsOK_swapNode hf hne hlen hplen
        have hp' := posOK_swapNode hp hne hlen hplen
        obtain ⟨r1, r2, r3, r4, r5, r6⟩ := ih (cparent cur) hplt _ hau' hlen' hf' hp'
        refine ⟨r1, r2, r3, ?_, ?_, ?_⟩
        · exact r4.trans (heapPairs_swapNode_perm st cur (cparent cur) hlen hplen)
        · rw [r5, swapNode_h_length]
        · exact (swapNode_g_EqButPos st cur (cparent cur)).trans r6
      · have hstop : siftUpGo (cur + 1) st cur = st := by
          cases cur with
          | zero => exact absurd rfl hc0
          | succ c =>
            simp only [siftUpGo, if_neg hc0, if_neg hlt]
        rw [hstop]
        refine ⟨?_, hf, hp, List.Perm.refl _, rfl, EqButPos.refl _⟩
        intro j hj hj0
        rcases eq_or_ne j cur with rfl | hjc
        · exact le_of_not_lt hlt
        · exact hau.1 j hj hj0 hjc

/-! ## `minHeapEnqueue` preserves the heap's representation invariant -/

theorem cparent_child_eq {n : Nat} (h : 0 < n) :
    (n % 2 = 1 → 2 * cparent n + 1 = n ∧ 2 * cparent n + 2 = n + 1) ∧
    (n % 2 = 0 → 2 * cparent n + 1 = n - 1 ∧ 2 * cparent n + 2 = n) := by
  unfold cparent
  omega

theorem minHeapEnqueue_spec (st : St) (v : Nat) (hWF : WFHeap st) (hs : heapSync st)
    (hv : v < graphGetNumberOfCities st.g) (hfresh : v ∉ heapVerts st) :
    WFHeap (minHeapEnqueue st v) ∧ heapSync (minHeapEnqueue st v) ∧
    (heapPairs (minHeapEnqueue st v)).Perm ((v, distOf st.g v) :: heapPairs st) ∧
    (minHeapEnqueue st v).h.length = st.h.length + 1 ∧
    EqButPos st.g (minHeapEnqueue st v).g := by
  obtain ⟨hInv, hF, hP⟩ := hWF
  set n := st.h.length with hn
  set newNd := nodeConstructor st.g n v with hnew
  set g1 := vertexSetPositionInHeap st.g v (n : Int) with hg1
  set h1 := st.h ++ [newNd] with hh1
  set h2 : List Node :=
    (if 0 < n then
      if n % 2 = 0 then
        h1.set (cparent n) { h1.getD (cparent n) defaultNode with hasChildRight := true }
      else
        h1.set (cparent n) { h1.getD (cparent n) defaultNode with hasChildLeft := true }
    else h1) with hh2
  have hunfold : minHeapEnqueue st v = siftUpGo (n + 1) ⟨g1, h2⟩ n := by
    simp only [minHeapEnqueue, hh2, hh1, hg1, hnew, hn]
  set st2 : St := ⟨g1, h2⟩ with hst2
  have hlen1 : h1.length = n + 1 := by
    simp [hh1]
  have hlen2 : st2.h.length = n + 1 := by
    show h2.length = n + 1
    rw [hh2]
    split
    · split <;> simp [hlen1]
    · exact hlen1
  -- facts about cparent n when the heap was nonempty
  have hparlt : 0 < n → cparent n < n := fun h0 => cparent_lt (Nat.pos_iff_ne_zero.mp h0)
  -- heapGet st2 at the new slot
  have hget_new : heapGet st2 n = newNd := by
    show h2.getD n defaultNode = newNd
    have hbase : h1.getD n defaultNode = newNd := by
      rw [hh1, hn]
      exact getD_append_len st.h newNd defaultNode
    rw [hh2]
    split
    · have hne : cparent n ≠ n := Nat.ne_of_lt (hparlt ‹0 < n›)
      split <;> rw [getD_set_ne _ _ _ _ _ hne] <;> exact hbase
    · exact hbase
  -- heapGet st2 at the parent slot (when n > 0)
  have hget_par : 0 < n → heapGet st2 (cparent n) =
      (if n % 2 = 0 then { heapGet st (cparent n) with hasChildRight := true }
       else { heapGet st (cparent n) with hasChildLeft := true }) := by
    intro h0
    have hplt := hparlt h0
    have hbase : h1.getD (cparent n) defaultNode = heapGet st (cparent n) := by
      rw [hh1]
      exact getD_append_lt _ _ _ _ hplt
    have hplen1 : cparent n < h1.length := by
      rw [hlen1]
      omega
    show h2.getD (cparent n) defaultNode = _
    rw [hh2, if_pos h0]
    by_cases he2 : n % 2 = 0
    · rw [if_pos he2, if_pos he2, getD_set_self _ _ _ _ hplen1, hbase]
    · rw [if_neg he2, if_neg he2, getD_set_self _ _ _ _ hplen1, hbase]
  -- heapGet st2 elsewhere
  have hget_old : ∀ k, k < n → k ≠ cparent n → heapGet st2 k = heapGet st k := by
    intro k hk hkp
    have hbase : h1.getD k defaultNode = heapGet st k := by
      rw [hh1]
      exact getD_append_lt _ _ _ _ hk
    show h2.getD k defaultNode = heapGet st k
    rw [hh2]
    split
    · split <;> rw [getD_set_ne _ _ _ _ _ (Ne.symm hkp)] <;> exact hbase
    · exact hbase
  have hval2 : ∀ k, k < n → heapVal st2 k = heapVal st k := by
    intro k hk
    rcases eq_or_ne k (cparent n) with rfl | hkp
    · have h0 : 0 < n := by omega
      rw [heapVal, heapVal, hget_par h0]
      split <;> rfl
    · rw [heapVal, heapVal, hget_old k hk hkp]
  have hau : AlmostUp st2 n := by
    constructor
    · intro j hj hj0 hjn
      rw [hlen2] at hj
      have hjlt : j < n := by omega
      have hplt2 : cparent j < n := (cparent_lt hj0).trans hjlt
      rw [hval2 j hjlt, hval2 (cparent j) hplt2]
      exact hInv j hjlt hj0
    · intro j hj hj0 hpje
      rw [hlen2] at hj
      have := cparent_lt hj0
      omega
  have hflags2 : flagsOK st2 := by
    intro k hk
    rw [hlen2] at hk
    rw [hlen2]
    rcases eq_or_ne k n with rfl | hkn
    · rw [hget_new, hnew]
      constructor
      · simp [nodeConstructor]
        omega
      · simp [nodeConstructor]
        omega
    · have hklt : k < n := by omega
      have h0 : 0 < n := by omega
      rcases eq_or_ne k (cparent n) with rfl | hkp
      · have hcc := cparent_child_eq h0
        rw [hget_par h0]
        by_cases he2 : n % 2 = 0
        · obtain ⟨hc1, hc2⟩ := hcc.2 he2
          rw [if_pos he2]
          constructor
          · show (heapGet st (cparent n)).hasChildLeft = true ↔ _
            rw [(hF (cparent n) hklt).1]
            omega
          · exact ⟨fun _ => by omega, fun _ => rfl⟩
        · obtain ⟨hc1, hc2⟩ := hcc.1 (by omega)
          rw [if_neg he2]
          constructor
          · exact ⟨fun _ => by omega, fun _ => rfl⟩
          · show (heapGet st (cparent n)).hasChildRight = true ↔ _
            rw [(hF (cparent n) hklt).2]
            omega
      · rw [hget_old k hklt hkp]
        have hold := hF k hklt
        have hc : cparent n = (n - 1) / 2 := rfl
        constructor
        · rw [hold.1]
          constructor
          · intro h
            omega
          · intro h
            by_contra hcon
            have : 2 * k + 1 = n := by omega
            apply hkp
            omega
        · rw [hold.2]
          constructor
          · intro h
            omega
          · intro h
            by_contra hcon
            have : 2 * k + 2 = n := by omega
            apply hkp
            omega
  have hmem : ∀ k, k < n → (heapGet st k).vertex ∈ heapVerts st := by
    intro k hk
    have hm : heapGet st k ∈ st.h := by
      rw [heapGet, getD_eq_getElem st.h k defaultNode hk]
      exact List.getElem_mem hk
    exact List.mem_map_of_mem _ hm
  have hnum : graphGetNumberOfCities st2.g = graphGetNumberOfCities st.g := by
    show graphGetNumberOfCities g1 = _
    rw [hg1]
    exact numberOfCities_setPos _ _ _
  have hpos2 : posOK st2 := by
    intro k hk
    rw [hlen2] at hk
    rcases eq_or_ne k n with rfl | hkn
    · rw [hget_new, hnew]
      refine ⟨rfl, ?_, ?_⟩
      · show v < _
        rw [hnum]
        exact hv
      · show posOf g1 v = _
        rw [hg1]
        exact posOf_setPos_self st.g v _ hv
    · have hklt : k < n := by omega
      have hvert : (heapGet st2 k).vertex = (heapGet st k).vertex ∧
          (heapGet st2 k).position = (heapGet st k).position := by
        rcases eq_or_ne k (cparent n) with rfl | hkp
        · rw [hget_par (by omega)]
          split <;> exact ⟨rfl, rfl⟩
        · rw [hget_old k hklt hkp]
          exact ⟨rfl, rfl⟩
      obtain ⟨hv1, hp1⟩ := hvert
      have hpk := hP k hklt
      refine ⟨?_, ?_, ?_⟩
      · rw [hp1]
        exact hpk.1
      · rw [hv1, hnum]
        exact hpk.2.1
      · rw [hv1]
        show posOf g1 _ = _
        rw [hg1, posOf_setPos_ne st.g v _ _ (fun he => hfresh (he ▸ hmem k hklt))]
        exact hpk.2.2
  have hpairs2 : heapPairs st2 = heapPairs st ++ [(v, distOf st.g v)] := by
    show h2.map (fun nd => (nd.vertex, nd.value)) = _
    have h2eq : h2.map (fun nd => (nd.vertex, nd.value)) =
        h1.map (fun nd => (nd.vertex, nd.value)) := by
      rw [hh2]
      split
      · have hplen1 : cparent n < h1.length := by
          rw [hlen1]
          have := hparlt ‹0 < n›
          omega
        have e1 : ∀ nd : Node, h1.getD (cparent n) nd = h1[cparent n] :=
          fun nd => getD_eq_getElem h1 (cparent n) nd hplen1
        split <;> (apply map_set_eq_of_proj; rw [e1, e1])
      · rfl
    rw [h2eq, hh1, List.map_append]
    rfl
  have hsync2 : heapSync st2 := by
    intro p hp2
    rw [hpairs2] at hp2
    have hd : distOf st2.g p.1 = distOf st.g p.1 := ((EqButPos_setPos st.g v _).2 p.1).1.symm
    rw [hd]
    rcases List.mem_append.mp hp2 with hin | hnew2
    · exact hs p hin
    · have : p = (v, distOf st.g v) := by simpa using hnew2
      rw [this]
  rw [hunfold]
  have hlt : n < st2.h.length := by
    rw [hlen2]
    omega
  obtain ⟨r1, r2, r3, r4, r5, r6⟩ := siftUpGo_spec n st2 hau hlt hflags2 hpos2
  have h9 : (heapPairs st2).Perm ((v, distOf st.g v) :: heapPairs st) := by
    rw [hpairs2]
    exact List.perm_append_singleton _ _
  refine ⟨⟨r1, r2, r3⟩, heapSync_of_perm hsync2 r4 r6, r4.trans h9, ?_, ?_⟩
  · rw [r5, hlen2]
  · have h10 : EqButPos st.g st2.g := by
      show EqButPos st.g g1
      rw [hg1]
      exact EqButPos_setPos st.g v _
    exact h10.trans r6

/-! ## `minHeapDecreaseNodeValue` preserves the heap's representation invariant -/

theorem heapVerts_eq_map_fst (st : St) : heapVerts st = (heapPairs st).map Prod.fst := by
  simp [heapVerts, heapPairs]

theorem posOK_slot_unique {st : St} (hp : posOK st) {k k' : Nat} (hk : k < st.h.length)
    (hk' : k' < st.h.length) (he : (heapGet st k).vertex = (heapGet st k').vertex) :
    k = k' := by
  by_contra hne
  exact posOK_vertex_ne hp hk hk' hne he

theorem minHeapDecreaseNodeValue_spec (st : St) (v : Nat) (hWF : WFHeap st)
    (hsync : ∀ p ∈ heapPairs st, p.1 ≠ v → p.2 = distOf st.g p.1)
    (hin : v ∈ heapVerts st)
    (hdec : distOf st.g v ≤ heapVal st ((posOf st.g v).toNat)) :
    WFHeap (minHeapDecreaseNodeValue st v) ∧ heapSync (minHeapDecreaseNodeValue st v) ∧
    (heapVerts (minHeapDecreaseNodeValue st v)).Perm (heapVerts st) ∧
    (minHeapDecreaseNodeValue st v).h.length = st.h.length ∧
    EqButPos st.g (minHeapDecreaseNodeValue st v).g := by
  obtain ⟨hInv, hF, hP⟩ := hWF
  -- locate v's slot
  obtain ⟨nd, hnd, hndv⟩ := List.mem_map.mp hin
  obtain ⟨k, hk, hkeq⟩ := List.mem_iff_getElem.mp hnd
  have hgetk : heapGet st k = nd := by
    rw [heapGet, getD_eq_getElem st.h k defaultNode hk, hkeq]
  have hkv : (heapGet st k).vertex = v := by
    rw [hgetk, hndv]
  have hposv : posOf st.g v = (k : Int) := by
    have := (hP k hk).2.2
    rwa [hkv] at this
  have hcur : (posOf st.g v).toNat = k := by
    rw [hposv]
    exact Int.toNat_natCast k
  set newNd : Node := { heapGet st k with value := distOf st.g v } with hnewNd
  have hunfold : minHeapDecreaseNodeValue st v =
      siftUpGo (k + 1) ⟨st.g, st.h.set k newNd⟩ k := by
    have hcur' : (vertexGetPositionInHeap (graphGetVertex st.g v)).toNat = k := hcur
    simp only [minHeapDecreaseNodeValue, hcur', hnewNd]
    rfl
  set st1 : St := ⟨st.g, st.h.set k newNd⟩ with hst1
  have hlen1 : st1.h.length = st.h.length := by
    simp [hst1]
  have hget1_k : heapGet st1 k = newNd := getD_set_self _ _ _ _ hk
  have hget1_ne : ∀ j, j ≠ k → heapGet st1 j = heapGet st j :=
    fun j hj => getD_set_ne _ _ _ _ _ (Ne.symm hj)
  have hval1_k : heapVal st1 k = distOf st.g v := by
    rw [heapVal, hget1_k, hnewNd]
  have hval1_ne : ∀ j, j ≠ k → heapVal st1 j = heapVal st j := by
    intro j hj
    rw [heapVal, hget1_ne j hj]
    rfl
  have hold_le : distOf st.g v ≤ heapVal st k := by
    rwa [hcur] at hdec
  have hau : AlmostUp st1 k := by
    constructor
    · intro j hj hj0 hjk
      rw [hlen1] at hj
      rw [hval1_ne j hjk]
      rcases eq_or_ne (cparent j) k with hpj | hpj
      · rw [hpj, hval1_k]
        have h2 := hInv j hj hj0
        rw [hpj] at h2
        exact hold_le.trans h2
      · rw [hval1_ne _ hpj]
        exact hInv j hj hj0
    · intro j hj hj0 hpj
      rw [hlen1] at hj
      have hjk : j ≠ k := by
        have := cparent_lt hj0
        omega
      rw [hval1_ne j hjk]
      rcases eq_or_ne (cparent k) k with hck | hck
      · -- k is the root
        rw [hck, hval1_k]
        have h2 := hInv j hj hj0
        rw [hpj] at h2
        exact hold_le.trans h2
      · rw [hval1_ne _ hck]
        have h2 := hInv j hj hj0
        rw [hpj] at h2
        have hk0 : k ≠ 0 := by
          intro h0
          rw [h0] at hck
          exact hck rfl
        exact (hInv k hk hk0).trans h2
  have hflags1 : flagsOK st1 := by
    intro i hi
    rw [hlen1] at hi
    rw [hlen1]
    rcases eq_or_ne i k with rfl | hik
    · rw [hget1_k, hnewNd]
      exact hF i hi
    · rw [hget1_ne i hik]
      exact hF i hi
  have hpos1 : posOK st1 := by
    intro i hi
    rw [hlen1] at hi
    rcases eq_or_ne i k with rfl | hik
    · rw [hget1_k, hnewNd]
      exact hP i hi
    · rw [hget1_ne i hik]
      exact hP i hi
  have hpairs1 : heapPairs st1 = (heapPairs st).set k (v, distOf st.g v) := by
    show (st.h.set k newNd).map _ = _
    simp only [List.map_set]
    rw [show newNd.vertex = v from hkv]
    rfl
  have hsync1 : heapSync st1 := by
    intro p hp1
    have hp1' : p ∈ (heapPairs st).set k (v, distOf st.g v) := by
      rwa [hpairs1] at hp1
    obtain ⟨j, hj, hjeq⟩ := List.mem_iff_getElem.mp hp1'
    have hjlen : j < st.h.length := by
      have h7 := hj
      simp only [List.length_set, heapPairs_length] at h7
      exact h7
    have hjp2 : j < (heapPairs st).length := by
      rw [heapPairs_length]
      exact hjlen
    have hklen' : k < (heapPairs st).length := by
      rw [heapPairs_length]
      exact hk
    rcases eq_or_ne j k with rfl | hjk
    · have : p = (v, distOf st.g v) := by
        rw [← hjeq, List.getElem_set]
        simp
      rw [this]
    · have hpj : p = (heapPairs st)[j] := by
        rw [← hjeq, List.getElem_set, if_neg (Ne.symm hjk)]
      have hfst : p.1 = (heapGet st j).vertex := by
        rw [hpj]
        have : (heapPairs st)[j] = ((heapGet st j).vertex, (heapGet st j).value) := by
          rw [← heapPairs_getD st j hjlen]
          exact (getD_eq_getElem _ _ _ (by rw [heapPairs_length]; exact hjlen)).symm
        rw [this]
      have hne : p.1 ≠ v := by
        rw [hfst, ← hkv]
        exact posOK_vertex_ne hP hjlen hk hjk
      have hpmem : p ∈ heapPairs st := by
        rw [hpj]
        exact List.getElem_mem _
      exact hsync p hpmem hne
  have hverts1 : heapVerts st1 = heapVerts st := by
    show (st.h.set k newNd).map Node.vertex = _
    apply map_set_eq_of_proj
    rw [getD_eq_getElem st.h k newNd hk, hkeq]
    exact (show newNd.vertex = (heapGet st k).vertex from rfl).trans
      (congrArg Node.vertex hgetk)
  have hk1 : k < st1.h.length := by
    rw [hlen1]
    exact hk
  obtain ⟨r1, r2, r3, r4, r5, r6⟩ := siftUpGo_spec k st1 hau hk1 hflags1 hpos1
  rw [hunfold]
  refine ⟨⟨r1, r2, r3⟩, heapSync_of_perm hsync1 r4 r6, ?_, ?_, r6⟩
  · have h5 := r4.map Prod.fst
    rw [← heapVerts_eq_map_fst, ← heapVerts_eq_map_fst, hverts1] at h5
    exact h5
  · rw [r5, hlen1]

/-! ## Sift-down restores the heap invariant -/

theorem cparent_left_child (i : Nat) : cparent (2 * i + 1) = i := by
  unfold cparent
  omega

theorem cparent_right_child (i : Nat) : cparent (2 * i + 2) = i := by
  unfold cparent
  omega

theorem child_of_cparent {j cur : Nat} (h : cparent j = cur) (hj : j ≠ 0) :
    j = 2 * cur + 1 ∨ j = 2 * cur + 2 := by
  unfold cparent at h
  omega

theorem AlmostDown_swap {st : St} {cur c : Nat} (hc : c = 2 * cur + 1 ∨ c = 2 * cur + 2)
    (hclen : c < st.h.length) (had : AlmostDown st cur)
    (hsib : ∀ j, j < st.h.length → j ≠ 0 → cparent j = cur → heapVal st c ≤ heapVal st j)
    (hcv : heapVal st c ≤ heapVal st cur) :
    AlmostDown (swapNode st cur c) c := by
  obtain ⟨D1, D2⟩ := had
  have hcur_lt : cur < c := by omega
  have hne : cur ≠ c := by omega
  have hc0 : c ≠ 0 := by omega
  have hcpc : cparent c = cur := by
    rcases hc with rfl | rfl
    · exact cparent_left_child cur
    · exact cparent_right_child cur
  have hcurlen : cur < st.h.length := hcur_lt.trans hclen
  have hvcur : heapVal (swapNode st cur c) cur = heapVal st c :=
    heapVal_swapNode_fst st cur c hne hcurlen
  have hvc : heapVal (swapNode st cur c) c = heapVal st cur :=
    heapVal_swapNode_snd st cur c hclen
  have hvoth : ∀ k, k ≠ cur → k ≠ c → heapVal (swapNode st cur c) k = heapVal st k :=
    fun k h1 h2 => heapVal_swapNode_other st cur c k h1 h2
  constructor
  · intro j hj hj0 hjpc
    rw [swapNode_h_length] at hj
    rcases eq_or_ne j cur with rfl | hjcur
    · -- the relation into cur itself
      have hcur0 : j ≠ 0 := hj0
      rw [hvcur]
      have hppj : cparent j ≠ j := Nat.ne_of_lt (cparent_lt hj0)
      have hppc : cparent j ≠ c := by
        have := cparent_lt hj0
        omega
      rw [hvoth _ hppj hppc]
      exact D2 hj0 c hclen hc0 hcpc
    · rcases eq_or_ne j c with rfl | hjc
      · rw [hvc, hcpc, hvcur]
        exact hcv
      · have hvj : heapVal (swapNode st cur c) j = heapVal st j := hvoth j hjcur hjc
        rcases eq_or_ne (cparent j) cur with hpj | hpj
        · rw [hvj, hpj, hvcur]
          exact hsib j hj hj0 hpj
        · have hpjc : cparent j ≠ cur := hpj
          rw [hvj, hvoth _ hpjc hjpc]
          exact D1 j hj hj0 hpjc
  · intro _ j hj hj0 hpj
    rw [swapNode_h_length] at hj
    rw [hcpc, hvcur]
    have hjcur : j ≠ cur := by
      have := cparent_lt hj0
      omega
    have hjc : j ≠ c := by
      have := cparent_lt hj0
      omega
    rw [hvoth j hjcur hjc]
    have h2 := D1 j hj hj0 (by rw [hpj]; omega)
    rw [hpj] at h2
    exact h2

theorem siftDownGo_fuel :
    ∀ (f1 : Nat) {f2 : Nat} (st : St) (cur : Nat),
      st.h.length - cur < f1 → st.h.length - cur < f2 →
      siftDownGo f1 st cur = siftDownGo f2 st cur := by
  intro f1
  induction f1 with
  | zero => intro f2 st cur h1 _; omega
  | succ f1 ih =>
    intro f2 st cur h1 h2
    cases f2 with
    | zero => omega
    | succ f2 =>
      simp only [siftDownGo]
      by_cases hany : (heapGet st cur).hasChildLeft || (heapGet st cur).hasChildRight
      · rw [if_pos hany, if_pos hany]
        have hcurlen : cur < st.h.length := by
          by_contra hcon
          have hdef : heapGet st cur = defaultNode := by
            rw [heapGet, getD_len_le _ _ _ (Nat.le_of_not_lt hcon)]
          rw [hdef] at hany
          simp [defaultNode] at hany
        by_cases hboth : (heapGet st cur).hasChildLeft && (heapGet st cur).hasChildRight
        · rw [if_pos hboth, if_pos hboth]
          by_cases hcond : heapVal st (2 * cur + 1) ≤ (heapGet st cur).value ∨
              heapVal st (2 * cur + 2) ≤ (heapGet st cur).value
          · rw [if_pos hcond, if_pos hcond]
            by_cases hrl : heapVal st (2 * cur + 2) - heapVal st (2 * cur + 1) ≤ 0
            · rw [if_pos hrl, if_pos hrl]
              exact ih _ _ (by rw [swapNode_h_length]; omega)
                (by rw [swapNode_h_length]; omega)
            · rw [if_neg hrl, if_neg hrl]
              exact ih _ _ (by rw [swapNode_h_length]; omega)
                (by rw [swapNode_h_length]; omega)
          · rw [if_neg hcond, if_neg hcond]
        · rw [if_neg hboth, if_neg hboth]
          by_cases hleft : (heapGet st cur).hasChildLeft
          · rw [if_pos hleft, if_pos hleft]
            by_cases hcond : heapVal st (2 * cur + 1) ≤ (heapGet st cur).value
            · rw [if_pos hcond, if_pos hcond]
              exact ih _ _ (by rw [swapNode_h_length]; omega)
                (by rw [swapNode_h_length]; omega)
            · rw [if_neg hcond, if_neg hcond]
          · rw [if_neg hleft, if_neg hleft]
            by_cases hcond : heapVal st (2 * cur + 2) ≤ (heapGet st cur).value
            · rw [if_pos hcond, if_pos hcond]
              exact ih _ _ (by rw [swapNode_h_length]; omega)
                (by rw [swapNode_h_length]; omega)
            · rw [if_neg hcond, if_neg hcond]
      · rw [if_neg hany, if_neg hany]

/-- Everything sift-down guarantees, by induction on the fuel: from an
`AlmostDown` state it restores the heap ordering, preserves the flag and
position bookkeeping, permutes the payloads, keeps the length, and touches the
graph only through `positionInHeap`. -/
theorem siftDownGo_spec :
    ∀ (fuel : Nat) (st : St) (cur : Nat), st.h.length - cur < fuel →
      AlmostDown st cur → flagsOK st → posOK st →
      heapInv (siftDownGo fuel st cur) ∧ flagsOK (siftDownGo fuel st cur) ∧
      posOK (siftDownGo fuel st cur) ∧
      (heapPairs (siftDownGo fuel st cur)).Perm (heapPairs st) ∧
      (siftDownGo fuel st cur).h.length = st.h.length ∧
      EqButPos st.g (siftDownGo fuel st cur).g := by
  intro fuel
  induction fuel with
  | zero => intro st cur h1; omega
  | succ fuel ih =>
    intro st cur hfuel had hF hP
    obtain ⟨D1, D2⟩ := had
    simp only [siftDownGo]
    by_cases hany : (heapGet st cur).hasChildLeft || (heapGet st cur).hasChildRight
    · rw [if_pos hany]
      have hcurlen : cur < st.h.length := by
        by_contra hcon
        have hdef : heapGet st cur = defaultNode := by
          rw [heapGet, getD_len_le _ _ _ (Nat.le_of_not_lt hcon)]
        rw [hdef] at hany
        simp [defaultNode] at hany
      -- a helper: dispatch one swap-and-recurse step with child c
      have step : ∀ c, (c = 2 * cur + 1 ∨ c = 2 * cur + 2) → c < st.h.length →
          (∀ j, j < st.h.length → j ≠ 0 → cparent j = cur →
            heapVal st c ≤ heapVal st j) →
          heapVal st c ≤ heapVal st cur →
          heapInv (siftDownGo fuel (swapNode st cur c) c) ∧
          flagsOK (siftDownGo fuel (swapNode st cur c) c) ∧
          posOK (siftDownGo fuel (swapNode st cur c) c) ∧
          (heapPairs (siftDownGo fuel (swapNode st cur c) c)).Perm (heapPairs st) ∧
          (siftDownGo fuel (swapNode st cur c) c).h.length = st.h.length ∧
          EqButPos st.g (siftDownGo fuel (swapNode st cur c) c).g := by
        intro c hc hclen hsib hcv
        have hne : cur ≠ c := by omega
        have had' := AlmostDown_swap hc hclen ⟨D1, D2⟩ hsib hcv
        have hF' := flagsOK_swapNode hF hne hcurlen hclen
        have hP' := posOK_swapNode hP hne hcurlen hclen
        have hfuel' : (swapNode st cur c).h.length - c < fuel := by
          rw [swapNode_h_length]
          omega
        obtain ⟨r1, r2, r3, r4, r5, r6⟩ := ih (swapNode st cur c) c hfuel' had' hF' hP'
        refine ⟨r1, r2, r3, ?_, ?_, ?_⟩
        · exact r4.trans (heapPairs_swapNode_perm st cur c hcurlen hclen)
        · rw [r5, swapNode_h_length]
        · exact (swapNode_g_EqButPos st cur c).trans r6
      by_cases hboth : (heapGet st cur).hasChildLeft && (heapGet st cur).hasChildRight
      · rw [if_pos hboth]
        have hL : 2 * cur + 1 < st.h.length :=
          (hF cur hcurlen).1.mp (Bool.and_elim_left hboth)
        have hR : 2 * cur + 2 < st.h.length :=
          (hF cur hcurlen).2.mp (Bool.and_elim_right hboth)
        by_cases hcond : heapVal st (2 * cur + 1) ≤ (heapGet st cur).value ∨
            heapVal st (2 * cur + 2) ≤ (heapGet st cur).value
        · rw [if_pos hcond]
          by_cases hrl : heapVal st (2 * cur + 2) - heapVal st (2 * cur + 1) ≤ 0
          · rw [if_pos hrl]
            have hrl' : heapVal st (2 * cur + 2) ≤ heapVal st (2 * cur + 1) := by
              omega
            refine step (2 * cur + 2) (Or.inr rfl) hR ?_ ?_
            · intro j hj hj0 hpj
              rcases child_of_cparent hpj hj0 with rfl | rfl
              · exact hrl'
              · exact le_refl _
            · rcases hcond with h | h
              · exact hrl'.trans h
              · exact h
          · rw [if_neg hrl]
            have hlr : heapVal st (2 * cur + 1) ≤ heapVal st (2 * cur + 2) := by
              omega
            refine step (2 * cur + 1) (Or.inl rfl) hL ?_ ?_
            · intro j hj hj0 hpj
              rcases child_of_cparent hpj hj0 with rfl | rfl
              · exact le_refl _
              · exact hlr
            · rcases hcond with h | h
              · exact h
              · exact hlr.trans h
        · rw [if_neg hcond]
          push_neg at hcond
          refine ⟨?_, hF, hP, List.Perm.refl _, rfl, EqButPos.refl _⟩
          intro j hj hj0
          rcases eq_or_ne (cparent j) cur with hpj | hpj
          · rw [hpj]
            rcases child_of_cparent hpj hj0 with rfl | rfl
            · exact le_of_lt hcond.1
            · exact le_of_lt hcond.2
          · exact D1 j hj hj0 hpj
      · rw [if_neg hboth]
        by_cases hleft : (heapGet st cur).hasChildLeft
        · rw [if_pos hleft]
          have hL : 2 * cur + 1 < st.h.length := (hF cur hcurlen).1.mp hleft
          have hRfalse : ¬ 2 * cur + 2 < st.h.length := by
            intro hcon
            have := (hF cur hcurlen).2.mpr hcon
            rw [hleft, this] at hboth
            simp at hboth
          by_cases hcond : heapVal st (2 * cur + 1) ≤ (heapGet st cur).value
          · rw [if_pos hcond]
            refine step (2 * cur + 1) (Or.inl rfl) hL ?_ hcond
            intro j hj hj0 hpj
            rcases child_of_cparent hpj hj0 with rfl | rfl
            · exact le_refl _
            · exact absurd hj hRfalse
          · rw [if_neg hcond]
            refine ⟨?_, hF, hP, List.Perm.refl _, rfl, EqButPos.refl _⟩
            intro j hj hj0
            rcases eq_or_ne (cparent j) cur with hpj | hpj
            · rw [hpj]
              rcases child_of_cparent hpj hj0 with rfl | rfl
              · exact le_of_not_le hcond
              · exact absurd hj hRfalse
            · exact D1 j hj hj0 hpj
        · -- `hasChildRight` alone contradicts the flag invariant
          exfalso
          have hright : (heapGet st cur).hasChildRight = true := by
            rcases Bool.or_eq_true_iff.mp hany with h | h
            · exact absurd h hleft
            · exact h
          have hR : 2 * cur + 2 < st.h.length := (hF cur hcurlen).2.mp hright
          have hL : 2 * cur + 1 < st.h.length := by omega
          exact hleft ((hF cur hcurlen).1.mpr hL)
    · rw [if_neg hany]
      refine ⟨?_, hF, hP, List.Perm.refl _, rfl, EqButPos.refl _⟩
      intro j hj hj0
      rcases eq_or_ne (cparent j) cur with hpj | hpj
      · exfalso
        have hjc := child_of_cparent hpj hj0
        have hcurlen : cur < st.h.length := by omega
        have hL : 2 * cur + 1 < st.h.length := by omega
        have := (hF cur hcurlen).1.mpr hL
        rw [Bool.or_eq_true_iff] at hany
        exact hany (Or.inl this)
      · exact D1 j hj hj0 hpj

/-! ## `minHeapDequeue` returns the minimum and preserves the invariant -/

/-- In a heap-ordered array the root is a global minimum. -/
theorem heapInv_root_min {st : St} (hInv : heapInv st) :
    ∀ i, i < st.h.length → heapVal st 0 ≤ heapVal st i := by
  intro i
  induction i using Nat.strong_induction_on with
  | _ i ih =>
    intro hi
    rcases eq_or_ne i 0 with rfl | hi0
    · exact le_refl _
    · have hp := cparent_lt hi0
      exact (ih (cparent i) hp (hp.trans hi)).trans (hInv i hi hi0)

theorem minHeapDequeue_spec (st : St) (hWF : WFHeap st) (hs : heapSync st)
    (hne : 0 < st.h.length) :
    (minHeapDequeue st).2 = (heapGet st 0).vertex ∧
    WFHeap (minHeapDequeue st).1 ∧ heapSync (minHeapDequeue st).1 ∧
    (heapPairs st).Perm
      (((heapGet st 0).vertex, heapVal st 0) :: heapPairs (minHeapDequeue st).1) ∧
    (minHeapDequeue st).1.h.length = st.h.length - 1 ∧
    EqButPos st.g (minHeapDequeue st).1.g := by
  obtain ⟨hInv, hF, hP⟩ := hWF
  by_cases ht : 1 < st.h.length
  case neg =>
    -- exactly one node
    have hone : st.h.length = 1 := by omega
    obtain ⟨a, hh⟩ := List.length_eq_one.mp hone
    have hres : minHeapDequeue st = ({ g := st.g, h := [] }, (heapGet st 0).vertex) := by
      simp only [minHeapDequeue, if_neg ht]
    rw [hres]
    refine ⟨rfl, ⟨?_, ?_, ?_⟩, ?_, ?_, ?_, EqButPos.refl _⟩
    · intro j hj
      simp at hj
    · intro j hj
      simp at hj
    · intro j hj
      simp at hj
    · intro p hp
      simp [heapPairs] at hp
    · have : heapPairs st = [((heapGet st 0).vertex, heapVal st 0)] := by
        simp only [heapPairs, hh, List.map_cons, List.map_nil]
        have : heapGet st 0 = a := by
          rw [heapGet, hh]
          rfl
        rw [this, heapVal, this]
      rw [this]
      exact List.Perm.refl _
    · simp [hone]
  case pos =>
    set size := st.h.length with hsize
    set tempNode := heapGet st 0 with htemp
    set lastNode := heapGet st (size - 1) with hlast
    set newTop : Node := { value := lastNode.value, vertex := lastNode.vertex, position := 0
                           hasChildLeft := tempNode.hasChildLeft
                           hasChildRight := tempNode.hasChildRight } with hnewTop
    set g1 := vertexSetPositionInHeap st.g lastNode.vertex 0 with hg1
    set h1 := st.h.set 0 newTop with hh1
    set pn := (size - 2) / 2 with hpn
    set h2 : List Node :=
      (if size % 2 = 0 then
        h1.set pn { h1.getD pn defaultNode with hasChildLeft := false }
      else
        h1.set pn { h1.getD pn defaultNode with hasChildRight := false }) with hh2
    set h3 := h2.take (size - 1) with hh3
    have hres : minHeapDequeue st =
        (minHeapSiftDown { g := g1, h := h3 }, tempNode.vertex) := by
      simp only [minHeapDequeue, if_pos ht]
    have hlen1 : h1.length = size := by
      simp [hh1]
    have hlen2 : h2.length = size := by
      rw [hh2]
      split <;> simp [hlen1]
    have hlen3 : h3.length = size - 1 := by
      rw [hh3, List.length_take, hlen2]
      omega
    set st3 : St := { g := g1, h := h3 } with hst3
    have hlen3' : st3.h.length = size - 1 := hlen3
    have hpnlt : pn < size - 1 ∨ pn = 0 := by
      rw [hpn]
      omega
    have hpnlt2 : pn < size := by
      rw [hpn]
      omega
    have hpn1 : pn < h1.length := by
      rw [hlen1]
      exact hpnlt2
    -- slot contents of st3
    have hget3 : ∀ k, k < size - 1 → heapGet st3 k = h2.getD k defaultNode := by
      intro k hk
      show h3.getD k defaultNode = _
      rw [hh3]
      exact getD_take_lt _ _ _ _ hk
    have hget2_ne : ∀ k, k ≠ pn → h2.getD k defaultNode = h1.getD k defaultNode := by
      intro k hk
      rw [hh2]
      split <;> exact getD_set_ne _ _ _ _ _ (Ne.symm hk)
    have hget2_pn : h2.getD pn defaultNode =
        (if size % 2 = 0 then { h1.getD pn defaultNode with hasChildLeft := false }
         else { h1.getD pn defaultNode with hasChildRight := false }) := by
      rw [hh2]
      split <;> exact getD_set_self _ _ _ _ hpn1
    have hget1_0 : h1.getD 0 defaultNode = newTop := by
      rw [hh1]
      exact getD_set_self _ _ _ _ (by omega)
    have hget1_ne : ∀ k, k ≠ 0 → h1.getD k defaultNode = heapGet st k := by
      intro k hk
      rw [hh1]
      exact getD_set_ne _ _ _ _ _ (Ne.symm hk)
    -- values in st3
    have hval3_0 : heapVal st3 0 = lastNode.value := by
      rw [heapVal]
      rcases eq_or_ne pn 0 with hpn0 | hpn0
      · rw [hget3 0 (by omega), ← hpn0, hget2_pn, hpn0, hget1_0]
        split <;> rfl
      · rw [hget3 0 (by omega), hget2_ne 0 (Ne.symm hpn0), hget1_0]
    have hval3_ne : ∀ k, k < size - 1 → k ≠ 0 → heapVal st3 k = heapVal st k := by
      intro k hk hk0
      rw [heapVal, hget3 k hk]
      rcases eq_or_ne k pn with rfl | hkpn
      · rw [hget2_pn, hget1_ne pn hk0]
        split <;> rfl
      · rw [hget2_ne k hkpn, hget1_ne k hk0]
        rfl
    -- vertices and positions in st3
    have hvp3_0 : (heapGet st3 0).vertex = lastNode.vertex ∧ (heapGet st3 0).position = 0 := by
      rcases eq_or_ne pn 0 with hpn0 | hpn0
      · rw [hget3 0 (by omega), ← hpn0, hget2_pn, hpn0, hget1_0]
        constructor <;> (split <;> rfl)
      · rw [hget3 0 (by omega), hget2_ne 0 (Ne.symm hpn0), hget1_0]
        exact ⟨rfl, rfl⟩
    have hvp3_ne : ∀ k, k < size - 1 → k ≠ 0 →
        (heapGet st3 k).vertex = (heapGet st k).vertex ∧
        (heapGet st3 k).position = (heapGet st k).position := by
      intro k hk hk0
      rw [hget3 k hk]
      rcases eq_or_ne k pn with rfl | hkpn
      · rw [hget2_pn, hget1_ne pn hk0]
        constructor <;> (split <;> rfl)
      · rw [hget2_ne k hkpn, hget1_ne k hk0]
        exact ⟨rfl, rfl⟩
    -- the heap ordering minus the root: AlmostDown at 0
    have had3 : AlmostDown st3 0 := by
      constructor
      · intro j hj hj0 hpj
        rw [hlen3'] at hj
        have hplt : cparent j < j := cparent_lt hj0
        rw [hval3_ne j hj hj0, hval3_ne (cparent j) (by omega) hpj]
        exact hInv j (by omega) hj0
      · intro h0
        exact absurd rfl h0
    have hflags3 : flagsOK st3 := by
      intro k hk
      rw [hlen3'] at hk
      rw [hlen3']
      rcases eq_or_ne k 0 with rfl | hk0
      · rcases eq_or_ne pn 0 with hpn0 | hpn0
        · have hsize23 : size = 2 ∨ size = 3 := by
            rw [hpn] at hpn0
            omega
          have hnode : heapGet st3 0 =
              (if size % 2 = 0 then { newTop with hasChildLeft := false }
               else { newTop with hasChildRight := false }) := by
            rw [hget3 0 (by omega), ← hpn0, hget2_pn, hpn0, hget1_0]
          rcases hsize23 with h2e | h3e
          · rw [hnode, if_pos (by omega : size % 2 = 0)]
            constructor
            · show false = true ↔ _
              simp
              omega
            · show tempNode.hasChildRight = true ↔ _
              constructor
              · intro hcon
                have := (hF 0 (by omega)).2.mp hcon
                omega
              · intro hcon
                omega
          · rw [hnode, if_neg (by omega : ¬size % 2 = 0)]
            constructor
            · show tempNode.hasChildLeft = true ↔ _
              constructor
              · intro _
                omega
              · intro _
                exact (hF 0 (by omega)).1.mpr (by omega)
            · show false = true ↔ _
              simp
              omega
        · -- pn ≠ 0, hence size ≥ 4 and the root keeps both flags
          have hsize4 : 4 ≤ size := by
            rw [hpn] at hpn0
            omega
          have hnode : heapGet st3 0 = newTop := by
            rw [hget3 0 (by omega), hget2_ne 0 (Ne.symm hpn0), hget1_0]
          rw [hnode]
          constructor
          · show tempNode.hasChildLeft = true ↔ _
            constructor
            · intro _
              omega
            · intro _
              exact (hF 0 (by omega)).1.mpr (by omega)
          · show tempNode.hasChildRight = true ↔ _
            constructor
            · intro _
              omega
            · intro _
              exact (hF 0 (by omega)).2.mpr (by omega)
      · have hklt : k < size := by omega
        rcases eq_or_ne k pn with rfl | hkpn
        · have hnode : heapGet st3 pn =
              (if size % 2 = 0 then { heapGet st pn with hasChildLeft := false }
               else { heapGet st pn with hasChildRight := false }) := by
            rw [hget3 pn hk, hget2_pn, hget1_ne pn hk0]
          by_cases he2 : size % 2 = 0
          · rw [hnode, if_pos he2]
            have h2pn : 2 * pn + 1 = size - 1 := by
              rw [hpn]
              omega
            constructor
            · show false = true ↔ _
              simp
              omega
            · show (heapGet st pn).hasChildRight = true ↔ _
              constructor
              · intro hcon
                have := (hF pn hklt).2.mp hcon
                rw [hpn] at this ⊢
                omega
              · intro hcon
                rw [hpn] at hcon
                omega
          · rw [hnode, if_neg he2]
            have h2pn : 2 * pn + 2 = size - 1 := by
              rw [hpn]
              omega
            constructor
            · show (heapGet st pn).hasChildLeft = true ↔ _
              constructor
              · intro _
                omega
              · intro _
                exact (hF pn hklt).1.mpr (by omega)
            · show false = true ↔ _
              simp
              omega
        · have hnode : heapGet st3 k = heapGet st k := by
            rw [hget3 k hk, hget2_ne k hkpn, hget1_ne k hk0]
          rw [hnode]
          constructor
          · rw [(hF k hklt).1]
            rw [hpn] at hkpn
            omega
          · rw [(hF k hklt).2]
            rw [hpn] at hkpn
            omega
    have hnum1 : graphGetNumberOfCities g1 = graphGetNumberOfCities st.g := by
      rw [hg1]
      exact numberOfCities_setPos _ _ _
    have hlastb : (heapGet st (size - 1)).vertex < graphGetNumberOfCities st.g :=
      (hP (size - 1) (by omega)).2.1
    have hpos3 : posOK st3 := by
      intro k hk
      rw [hlen3'] at hk
      rcases eq_or_ne k 0 with rfl | hk0
      · obtain ⟨hv0, hp0⟩ := hvp3_0
        refine ⟨hp0, ?_, ?_⟩
        · rw [hv0]
          show _ < graphGetNumberOfCities g1
          rw [hnum1]
          exact hlastb
        · rw [hv0]
          show posOf g1 lastNode.vertex = _
          rw [hg1]
          exact posOf_setPos_self st.g _ 0 hlastb
      · obtain ⟨hvk, hpk⟩ := hvp3_ne k hk hk0
        have hklt : k < size := by omega
        refine ⟨?_, ?_, ?_⟩
        · rw [hpk]
          exact (hP k hklt).1
        · rw [hvk]
          show _ < graphGetNumberOfCities g1
          rw [hnum1]
          exact (hP k hklt).2.1
        · rw [hvk]
          show posOf g1 _ = _
          rw [hg1, posOf_setPos_ne st.g _ _ _
            (posOK_vertex_ne hP (by omega) hklt (by omega))]
          exact (hP k hklt).2.2
    -- payload decomposition: the old payload list is a permutation of the
    -- removed root payload consed onto the shrunken heap's payloads
    obtain ⟨a, t, hht⟩ : ∃ a t, st.h = a :: t := by
      cases hhl : st.h with
      | nil =>
        exfalso
        have h9 : size = 0 := by
          rw [hsize, hhl]
          rfl
        omega
      | cons a t => exact ⟨a, t, rfl⟩
    have htlen : size = t.length + 1 := by
      rw [hsize, hht]
      rfl
    have htne : t ≠ [] := by
      intro hcon
      rw [hcon, List.length_nil] at htlen
      omega
    have hlastget : lastNode = t.getLast htne := by
      rw [hlast, heapGet, hht]
      have h8 : size - 1 = (t.length - 1) + 1 := by omega
      rw [h8]
      show t.getD (t.length - 1) defaultNode = _
      rw [getD_eq_getElem t _ _ (by omega)]
      rw [List.getLast_eq_getElem]
    have htempa : tempNode = a := by
      rw [htemp, heapGet, hht]
      rfl
    have e1 : ∀ nd : Node, h1.getD pn nd = h1[pn] :=
      fun nd => getD_eq_getElem h1 pn nd hpn1
    have h2pay : h2.map (fun nd => (nd.vertex, nd.value)) =
        h1.map (fun nd => (nd.vertex, nd.value)) := by
      rw [hh2]
      split <;> (apply map_set_eq_of_proj; simp only [e1])
    have h3pay : h3.map (fun nd => (nd.vertex, nd.value)) =
        (lastNode.vertex, lastNode.value) ::
          t.dropLast.map (fun nd => (nd.vertex, nd.value)) := by
      rw [hh3, List.map_take, h2pay, hh1, List.map_set, hht, List.map_cons]
      have h8 : size - 1 = (t.length - 1) + 1 := by omega
      rw [h8]
      show List.take _ (_ :: _) = _
      rw [List.take_succ_cons]
      have hsplit : t.map (fun nd => (nd.vertex, nd.value)) =
          t.dropLast.map (fun nd => (nd.vertex, nd.value)) ++
            [((t.getLast htne).vertex, (t.getLast htne).value)] := by
        conv_lhs => rw [← List.dropLast_append_getLast htne]
        rw [List.map_append]
        rfl
      rw [hsplit]
      have hdl : (t.dropLast.map (fun nd => (nd.vertex, nd.value))).length = t.length - 1 := by
        rw [List.length_map, List.length_dropLast]
      rw [← hdl, List.take_left]
    have hstpay : heapPairs st =
        (tempNode.vertex, tempNode.value) ::
          (t.dropLast.map (fun nd => (nd.vertex, nd.value)) ++
            [(lastNode.vertex, lastNode.value)]) := by
      rw [heapPairs, hht, List.map_cons, htempa]
      congr 1
      conv_lhs => rw [← List.dropLast_append_getLast htne]
      rw [List.map_append, hlastget]
      rfl
    have hperm_dec : (heapPairs st).Perm
        ((tempNode.vertex, tempNode.value) :: heapPairs st3) := by
      rw [hstpay]
      refine List.Perm.cons _ ?_
      have : heapPairs st3 = (lastNode.vertex, lastNode.value) ::
          t.dropLast.map (fun nd => (nd.vertex, nd.value)) := h3pay
      rw [this]
      exact List.perm_append_singleton _ _
    -- sync for the shrunken heap
    have hsync3 : heapSync st3 := by
      intro p hp3
      have hpmem : p ∈ heapPairs st := by
        have h10 : p ∈ (tempNode.vertex, tempNode.value) :: heapPairs st3 :=
          List.mem_cons_of_mem _ hp3
        exact hperm_dec.symm.subset h10
      have hd : distOf st3.g p.1 = distOf st.g p.1 := by
        show distOf g1 p.1 = _
        rw [hg1]
        exact ((EqButPos_setPos st.g lastNode.vertex 0).2 p.1).1.symm
      rw [hd]
      exact hs p hpmem
    -- run the sift-down
    have hsd : minHeapSiftDown st3 = siftDownGo (st3.h.length + 1) st3 0 := rfl
    obtain ⟨r1, r2, r3, r4, r5, r6⟩ :=
      siftDownGo_spec (st3.h.length + 1) st3 0 (by omega) had3 hflags3 hpos3
    rw [hres]
    refine ⟨rfl, ?_, ?_, ?_, ?_, ?_⟩
    · rw [hsd]
      exact ⟨r1, r2, r3⟩
    · rw [hsd]
      exact heapSync_of_perm hsync3 r4 r6
    · rw [hsd]
      exact hperm_dec.trans ((r4.symm).cons _)
    · rw [hsd]
      show (siftDownGo _ st3 0).h.length = _
      rw [r5, hlen3']
    · rw [hsd]
      have h11 : EqButPos st.g st3.g := by
        show EqButPos st.g g1
        rw [hg1]
        exact EqButPos_setPos _ _ _
      exact h11.trans r6

/-! ## Length accounting of the heap operations (unconditional) -/

theorem siftUpGo_length : ∀ (fuel : Nat) (st : St) (cur : Nat),
    (siftUpGo fuel st cur).h.length = st.h.length := by
  intro fuel
  induction fuel with
  | zero => intro st cur; rfl
  | succ fuel ih =>
    intro st cur
    simp only [siftUpGo]
    split
    · rfl
    · split
      · rw [ih, swapNode_h_length]
      · rfl

theorem siftDownGo_length : ∀ (fuel : Nat) (st : St) (cur : Nat),
    (siftDownGo fuel st cur).h.length = st.h.length := by
  intro fuel
  induction fuel with
  | zero => intro st cur; rfl
  | succ fuel ih =>
    intro st cur
    simp only [siftDownGo]
    split
    · split
      · split
        · split <;> rw [ih, swapNode_h_length]
        · rfl
      · split
        · split
          · rw [ih, swapNode_h_length]
          · rfl
        · split
          · rw [ih, swapNode_h_length]
          · rfl
    · rfl

theorem minHeapEnqueue_h_length (st : St) (v : Nat) :
    (minHeapEnqueue st v).h.length = st.h.length + 1 := by
  simp only [minHeapEnqueue]
  rw [siftUpGo_length]
  split
  · split <;> simp
  · simp

theorem minHeapDequeue_h_length (st : St) :
    (minHeapDequeue st).1.h.length = st.h.length - 1 := by
  simp only [minHeapDequeue]
  split
  · show (minHeapSiftDown _).h.length = _
    rw [minHeapSiftDown, siftDownGo_length]
    show (List.take _ _).length = _
    rw [List.length_take]
    split <;> simp
  · simp
    omega

theorem minHeapDecreaseNodeValue_h_length (st : St) (v : Nat) :
    (minHeapDecreaseNodeValue st v).h.length = st.h.length := by
  simp only [minHeapDecreaseNodeValue]
  rw [siftUpGo_length]
  simp

theorem relaxEdge_h_length (u : Nat) (st : St) (e : Edge) :
    (relaxEdge u st e).h.length = st.h.length := by
  simp only [relaxEdge]
  split
  · rfl
  · split
    · rw [minHeapDecreaseNodeValue_h_length]
    · rfl

theorem relaxFold_h_length (u : Nat) : ∀ (es : List Edge) (st : St),
    (es.foldl (relaxEdge u) st).h.length = st.h.length := by
  intro es
  induction es with
  | nil => intro st; rfl
  | cons e es ih =>
    intro st
    rw [List.foldl_cons, ih, relaxEdge_h_length]

/-- The relaxation loop drains the heap completely (each iteration removes
exactly one node and never adds any). -/
theorem relaxLoop_drains : ∀ (fuel : Nat) (st : St), st.h.length ≤ fuel →
    (relaxLoop fuel st).h = [] := by
  intro fuel
  induction fuel with
  | zero =>
    intro st hst
    show st.h = []
    exact List.length_eq_zero.mp (by omega)
  | succ fuel ih =>
    intro st hst
    simp only [relaxLoop]
    by_cases he : minHeapIsEmpty st
    · rw [if_pos he]
      simp only [minHeapIsEmpty, decide_eq_true_eq] at he
      exact List.length_eq_zero.mp he
    · rw [if_neg he]
      apply ih
      simp only [minHeapIsEmpty, decide_eq_true_eq] at he
      show ((_ : List Edge).foldl (relaxEdge _) (minHeapDequeue st).1).h.length ≤ fuel
      rw [relaxFold_h_length, minHeapDequeue_h_length]
      omega

/-! ## Repeated dequeuing -/

theorem heapInv_le_pairs {st : St} (hInv : heapInv st) :
    ∀ p ∈ heapPairs st, heapVal st 0 ≤ p.2 := by
  intro p hp
  obtain ⟨i, hi, heq⟩ := List.mem_iff_getElem.mp hp
  have hi' : i < st.h.length := by
    have h9 := hi
    rw [heapPairs_length] at h9
    exact h9
  have h8 : (heapPairs st)[i] = ((heapGet st i).vertex, (heapGet st i).value) := by
    rw [← heapPairs_getD st i hi']
    exact (getD_eq_getElem _ _ _ hi).symm
  rw [← heq, h8]
  exact heapInv_root_min hInv i hi'

theorem popAllGo_chain : ∀ (fuel : Nat) (st : St), st.h.length ≤ fuel →
    WFHeap st → heapSync st →
    List.Chain' (fun a b : Int => a ≤ b) (popAllGo fuel st) := by
  intro fuel
  induction fuel with
  | zero => intro st _ _ _; exact List.chain'_nil
  | succ fuel ih =>
    intro st hfuel hWF hs
    simp only [popAllGo]
    by_cases hemp : st.h.length = 0
    · rw [if_pos hemp]
      exact List.chain'_nil
    · rw [if_neg hemp]
      obtain ⟨_, hWF', hs', hperm, hlen', _⟩ :=
        minHeapDequeue_spec st hWF hs (by omega)
      have hlen2 : (minHeapDequeue st).1.h.length ≤ fuel := by omega
      refine List.chain'_cons'.mpr ⟨?_, ih _ hlen2 hWF' hs'⟩
      intro b hb
      cases fuel with
      | zero => simp [popAllGo] at hb
      | succ fuel =>
        simp only [popAllGo] at hb
        by_cases hemp' : (minHeapDequeue st).1.h.length = 0
        · rw [if_pos hemp'] at hb
          simp at hb
        · rw [if_neg hemp'] at hb
          simp at hb
          rw [← hb]
          -- the new root's payload was already in the old heap
          have hmem0 : heapGet (minHeapDequeue st).1 0 ∈ (minHeapDequeue st).1.h := by
            rw [heapGet, getD_eq_getElem _ _ _ (by omega)]
            exact List.getElem_mem _
          have hpair : ((heapGet (minHeapDequeue st).1 0).vertex,
              (heapGet (minHeapDequeue st).1 0).value) ∈ heapPairs (minHeapDequeue st).1 :=
            List.mem_map_of_mem _ hmem0
          have hin : ((heapGet (minHeapDequeue st).1 0).vertex,
              (heapGet (minHeapDequeue st).1 0).value) ∈ heapPairs st :=
            hperm.symm.subset (List.mem_cons_of_mem _ hpair)
          exact heapInv_le_pairs hWF.1 _ hin

/-- Claim C4: starting from a heap state satisfying the representation
invariant (min-heap ordering, child flags and recorded positions consistent
with the array occupancy, values mirroring the vertices' distances), each of
`minHeapEnqueue` (of a fresh, valid vertex), `minHeapDequeue` (of a non-empty
heap) and `minHeapDecreaseNodeValue` (of an enqueued vertex whose distance was
not increased) yields a state satisfying that invariant again. -/
theorem c4_heap_ops_preserve_invariant :
    (∀ (st : St) (v : Nat), WFHeap st → heapSync st →
      v < graphGetNumberOfCities st.g → v ∉ heapVerts st →
      WFHeap (minHeapEnqueue st v) ∧ heapSync (minHeapEnqueue st v)) ∧
    (∀ st : St, WFHeap st → heapSync st → 0 < st.h.length →
      WFHeap (minHeapDequeue st).1 ∧ heapSync (minHeapDequeue st).1) ∧
    (∀ (st : St) (v : Nat), WFHeap st →
      (∀ p ∈ heapPairs st, p.1 ≠ v → p.2 = distOf st.g p.1) → v ∈ heapVerts st →
      distOf st.g v ≤ heapVal st ((posOf st.g v).toNat) →
      WFHeap (minHeapDecreaseNodeValue st v) ∧
        heapSync (minHeapDecreaseNodeValue st v)) := by
  refine ⟨fun st v h1 h2 h3 h4 => ?_, fun st h1 h2 h3 => ?_, fun st v h1 h2 h3 h4 => ?_⟩
  · obtain ⟨r1, r2, _, _, _⟩ := minHeapEnqueue_spec st v h1 h2 h3 h4
    exact ⟨r1, r2⟩
  · obtain ⟨_, r1, r2, _, _, _⟩ := minHeapDequeue_spec st h1 h2 h3
    exact ⟨r1, r2⟩
  · obtain ⟨r1, r2, _, _, _⟩ := minHeapDecreaseNodeValue_spec st v h1 h2 h3 h4
    exact ⟨r1, r2⟩

/-- Witness for C4 at the concrete state `exWF`. -/
theorem c4_heap_ops_preserve_invariant_witness :
    (WFHeap (minHeapEnqueue exWF 2) ∧ heapSync (minHeapEnqueue exWF 2)) ∧
    (WFHeap (minHeapDequeue exWF).1 ∧ heapSync (minHeapDequeue exWF).1) ∧
    (WFHeap (minHeapDecreaseNodeValue exWF 1) ∧
      heapSync (minHeapDecreaseNodeValue exWF 1)) :=
  ⟨c4_heap_ops_preserve_invariant.1 exWF 2 (by decide) (by decide) (by decide) (by decide),
   c4_heap_ops_preserve_invariant.2.1 exWF (by decide) (by decide) (by decide),
   c4_heap_ops_preserve_invariant.2.2 exWF 1 (by decide) (by decide) (by decide) (by decide)⟩

/-- Claim C7: for a non-empty heap satisfying the invariant, `minHeapDequeue`
returns the vertex stored at slot 0, whose value is at most every other
entry's value; and repeatedly dequeuing until the heap is empty, with no
interleaved enqueue or decrease-key, yields a non-decreasing sequence of
values. -/
theorem c7_dequeue_returns_minimum :
    (∀ st : St, WFHeap st → heapSync st → 0 < st.h.length →
      (minHeapDequeue st).2 = (heapGet st 0).vertex ∧
      (∀ i, i < st.h.length → heapVal st 0 ≤ heapVal st i)) ∧
    (∀ st : St, WFHeap st → heapSync st →
      List.Chain' (fun a b : Int => a ≤ b) (popAll st)) := by
  constructor
  · intro st hWF hs hne
    exact ⟨(minHeapDequeue_spec st hWF hs hne).1, heapInv_root_min hWF.1⟩
  · intro st hWF hs
    exact popAllGo_chain st.h.length st (le_refl _) hWF hs

/-- Witness for C7 at the concrete state `exWF`. -/
theorem c7_dequeue_returns_minimum_witness :
    ((minHeapDequeue exWF).2 = (heapGet exWF 0).vertex ∧
      (∀ i, i < exWF.h.length → heapVal exWF 0 ≤ heapVal exWF i)) ∧
    List.Chain' (fun a b : Int => a ≤ b) (popAll exWF) :=
  ⟨c7_dequeue_returns_minimum.1 exWF (by decide) (by decide) (by decide),
   c7_dequeue_returns_minimum.2 exWF (by decide) (by decide)⟩

/-- Claim C8: tie handling.  In the sift-up loop shared by `minHeapEnqueue`
and `minHeapDecreaseNodeValue`, an entry whose value equals (or exceeds) its
parent's value is not swapped — only strictly smaller values move up.  In the
sift-down of `minHeapDequeue`, when the current entry has two children and its
value is at least either child's value, it is swapped with the smaller-valued
child, preferring the right child exactly when rightValue is at most
leftValue. -/
theorem c8_tie_handling :
    (∀ (fuel : Nat) (st : St) (cur : Nat),
      heapVal st (cparent cur) ≤ heapVal st cur → siftUpGo (fuel + 1) st cur = st) ∧
    (∀ (fuel : Nat) (st : St) (cur : Nat),
      (heapGet st cur).hasChildLeft = true → (heapGet st cur).hasChildRight = true →
      (heapVal st (2 * cur + 1) ≤ heapVal st cur ∨
        heapVal st (2 * cur + 2) ≤ heapVal st cur) →
      siftDownGo (fuel + 1) st cur =
        siftDownGo fuel
          (swapNode st cur
            (if heapVal st (2 * cur + 2) ≤ heapVal st (2 * cur + 1) then 2 * cur + 2
             else 2 * cur + 1))
          (if heapVal st (2 * cur + 2) ≤ heapVal st (2 * cur + 1) then 2 * cur + 2
           else 2 * cur + 1)) := by
  constructor
  · intro fuel st cur hle
    simp only [siftUpGo]
    split
    · rfl
    · rw [if_neg (not_lt.mpr hle)]
  · intro fuel st cur hL hR hcond
    have h1 : ((heapGet st cur).hasChildLeft || (heapGet st cur).hasChildRight) = true := by
      rw [hL, hR]
      rfl
    have h2 : ((heapGet st cur).hasChildLeft && (heapGet st cur).hasChildRight) = true := by
      rw [hL, hR]
      rfl
    have hcond' : heapVal st (2 * cur + 1) ≤ (heapGet st cur).value ∨
        heapVal st (2 * cur + 2) ≤ (heapGet st cur).value := hcond
    simp only [siftDownGo]
    rw [if_pos h1, if_pos h2, if_pos hcond']
    by_cases hrl : heapVal st (2 * cur + 2) - heapVal st (2 * cur + 1) ≤ 0
    · rw [if_pos hrl,
        if_pos (show heapVal st (2 * cur + 2) ≤ heapVal st (2 * cur + 1) by omega)]
    · rw [if_neg hrl,
        if_neg (show ¬heapVal st (2 * cur + 2) ≤ heapVal st (2 * cur + 1) by omega)]

/-- Witness for C8: a tie with the parent does not swap; a root not smaller
than its two equal children swaps with the right child. -/
theorem c8_tie_handling_witness :
    siftUpGo 1 stTie 1 = stTie ∧
    siftDownGo 1 stSd 0 =
      siftDownGo 0
        (swapNode stSd 0
          (if heapVal stSd 2 ≤ heapVal stSd 1 then 2 else 1))
        (if heapVal stSd 2 ≤ heapVal stSd 1 then 2 else 1) :=
  ⟨c8_tie_handling.1 0 stTie 1 (by decide),
   c8_tie_handling.2 0 stSd 0 (by decide) (by decide) (by decide)⟩

/-- Claim C10: when `dijkstras` returns, the MinHeap it was given is empty
again (size 0): the relaxation loop dequeues one node per iteration, never
re-inserts, and runs until the heap is empty, which is what makes reusing the
single MinHeap instance across the sequential queries of `fastestRoute`
sound without any explicit clearing. -/
theorem c10_heap_empty_after_run (graph : Graph) (h : List Node) (source : Nat) :
    (dijkstras graph h source).h = [] :=
  relaxLoop_drains _ _ (le_refl _)

/-! ## Reachability along edges -/

/-- Claim C1 (the code contradicts it): on the two-island graph A-B(1), C-D(1)
with source A, vertex D (index 3) has no edge path from A, yet after the run
its distance is -2147483648 — the relaxation added the edge weight 1 onto the
INT_MAX sentinel distance of C and wrapped — and its predecessor is C
(index 2), not none.  C itself (popped first among the unreachable pair)
retains the sentinel. -/
theorem c1_sentinel_overflow :
    ¬ Reach gTwoIslands 0 3 ∧
    distOf (dijkstras gTwoIslands [] 0).g 3 = -2147483648 ∧
    prevOf (dijkstras gTwoIslands [] 0).g 3 = some 2 ∧
    distOf (dijkstras gTwoIslands [] 0).g 2 = INT_MAX ∧
    prevOf (dijkstras gTwoIslands [] 0).g 2 = none := by
  refine ⟨?_, by decide, by decide, by decide, by decide⟩
  intro hr
  have hmem : ∀ v, Reach gTwoIslands 0 v → v = 0 ∨ v = 1 := by
    intro v hv
    induction hv with
    | refl => exact Or.inl rfl
    | step e hu he ih =>
      rcases ih with h0 | h1
      · have hedges : (graphGetVertex gTwoIslands 0).edges =
            [{ start := 0, endVertex := 1, distance := 1 }] := by decide
        rw [h0, hedges] at he
        simp at he
        rw [he]
        exact Or.inr rfl
      · have hedges : (graphGetVertex gTwoIslands 1).edges =
            [{ start := 1, endVertex := 0, distance := 1 }] := by decide
        rw [h1, hedges] at he
        simp at he
        rw [he]
        exact Or.inl rfl
  rcases hmem 3 hr with h | h <;> simp at h

/-- Claim C2 (the code contradicts it): for the unreachable destination C
(sentinel distance, none predecessor) the program renders a distance header
containing the sentinel value and a route line consisting of the destination
name — it reports no "no route". -/
theorem c2_no_sentinel_check_counterexample :
    distOf (dijkstras gTwoIslands [] 0).g 2 = INT_MAX ∧
    prevOf (dijkstras gTwoIslands [] 0).g 2 = none ∧
    dijkstrasWriteToFile (dijkstras gTwoIslands [] 0).g 0 2 =
      "A to C is 2147483647km\n\nRoute:\nC\n\n\n\n" := by
  refine ⟨by decide, by decide, ?_⟩
  decide

/-- Claim C2 as amended: `dijkstrasWriteToFile` performs no sentinel check at
all.  For every graph state and destination whose predecessor is none (in
particular every unreachable destination that retains the sentinel), it
renders the distance header with whatever `distanceFromSource` holds and a
route consisting of the destination name alone. -/
theorem c2_renders_unreachable (g : Graph) (src dst : Nat)
    (h : prevOf g dst = none) :
    routeCityNames g dst = [vertexGetCityName (graphGetVertex g dst)] ∧
    dijkstrasWriteToFile g src dst =
      vertexGetCityName (graphGetVertex g src) ++ " to " ++
        vertexGetCityName (graphGetVertex g dst) ++ " is " ++
        toString (distOf g dst) ++ "km\n\n" ++ "Route:\n" ++
        vertexGetCityName (graphGetVertex g dst) ++ "\n\n" ++ "\n\n" := by
  have h' : vertexGetPrevious (graphGetVertex g dst) = none := h
  have hroute : routeCityNames g dst = [vertexGetCityName (graphGetVertex g dst)] := by
    rw [routeCityNames]
    cases graphGetNumberOfCities g with
    | zero => rfl
    | succ n =>
      simp [routeWalk, h']
  refine ⟨hroute, ?_⟩
  rw [dijkstrasWriteToFile, hroute]
  simp [distOf, String.append_empty, show String.join [] = "" from rfl]

/-- Witness for the amended C2 on the two-island run (destination C). -/
theorem c2_renders_unreachable_witness :
    routeCityNames (dijkstras gTwoIslands [] 0).g 2 =
      [vertexGetCityName (graphGetVertex (dijkstras gTwoIslands [] 0).g 2)] ∧
    dijkstrasWriteToFile (dijkstras gTwoIslands [] 0).g 0 2 =
      vertexGetCityName (graphGetVertex (dijkstras gTwoIslands [] 0).g 0) ++ " to " ++
        vertexGetCityName (graphGetVertex (dijkstras gTwoIslands [] 0).g 2) ++ " is " ++
        toString (distOf (dijkstras gTwoIslands [] 0).g 2) ++ "km\n\n" ++ "Route:\n" ++
        vertexGetCityName (graphGetVertex (dijkstras gTwoIslands [] 0).g 2) ++
        "\n\n" ++ "\n\n" :=
  c2_renders_unreachable (dijkstras gTwoIslands [] 0).g 0 2 (by decide)

/-! ## The scan loop of `checkStringsKnown` -/

theorem checkStringsKnownScan_flagA (g : Graph) (sA sB : String) (acc : ScanSt) (k : Nat) :
    (checkStringsKnownScan g sA sB acc k).stringAKnown = true ↔
      acc.stringAKnown = true ∨ vertexGetCityName (graphGetVertex g k) = sA := by
  unfold checkStringsKnownScan
  split_ifs with hA hB hB <;> simp_all

theorem checkStringsKnownScan_flagB (g : Graph) (sA sB : String) (acc : ScanSt) (k : Nat) :
    (checkStringsKnownScan g sA sB acc k).stringBKnown = true ↔
      acc.stringBKnown = true ∨ vertexGetCityName (graphGetVertex g k) = sB := by
  unfold checkStringsKnownScan
  split_ifs with hA hB hB <;> simp_all

theorem checkStringsKnownScan_A_sound (g : Graph) (sA sB : String) (acc : ScanSt)
    (k : Nat) (hk : k < graphGetNumberOfCities g)
    (hacc : acc.stringAKnown = true → acc.vertexNumberA < graphGetNumberOfCities g ∧
      vertexGetCityName (graphGetVertex g acc.vertexNumberA) = sA) :
    (checkStringsKnownScan g sA sB acc k).stringAKnown = true →
      (checkStringsKnownScan g sA sB acc k).vertexNumberA < graphGetNumberOfCities g ∧
      vertexGetCityName
        (graphGetVertex g (checkStringsKnownScan g sA sB acc k).vertexNumberA) = sA := by
  unfold checkStringsKnownScan
  split_ifs with h1 h2 h2
  · intro _
    exact ⟨hk, h1⟩
  · intro _
    exact ⟨hk, h1⟩
  · intro hflag
    exact hacc hflag
  · intro hflag
    exact hacc hflag

theorem checkStringsKnownScan_B_sound (g : Graph) (sA sB : String) (acc : ScanSt)
    (k : Nat) (hk : k < graphGetNumberOfCities g)
    (hacc : acc.stringBKnown = true → acc.vertexNumberB < graphGetNumberOfCities g ∧
      vertexGetCityName (graphGetVertex g acc.vertexNumberB) = sB) :
    (checkStringsKnownScan g sA sB acc k).stringBKnown = true →
      (checkStringsKnownScan g sA sB acc k).vertexNumberB < graphGetNumberOfCities g ∧
      vertexGetCityName
        (graphGetVertex g (checkStringsKnownScan g sA sB acc k).vertexNumberB) = sB := by
  unfold checkStringsKnownScan
  split_ifs with h1 h2 h2
  · intro _
    exact ⟨hk, h2⟩
  · intro hflag
    exact hacc hflag
  · intro _
    exact ⟨hk, h2⟩
  · intro hflag
    exact hacc hflag

/-- The scan keeps its outputs pointing at genuine occurrences of the sought
names. -/
theorem checkStringsKnownScan_fold_sound (g : Graph) (sA sB : String) :
    ∀ (l : List Nat) (acc : ScanSt), (∀ k ∈ l, k < graphGetNumberOfCities g) →
      ((acc.stringAKnown = true → acc.vertexNumberA < graphGetNumberOfCities g ∧
          vertexGetCityName (graphGetVertex g acc.vertexNumberA) = sA) →
       (acc.stringBKnown = true → acc.vertexNumberB < graphGetNumberOfCities g ∧
          vertexGetCityName (graphGetVertex g acc.vertexNumberB) = sB) →
      ((l.foldl (checkStringsKnownScan g sA sB) acc).stringAKnown = true →
          (l.foldl (checkStringsKnownScan g sA sB) acc).vertexNumberA <
              graphGetNumberOfCities g ∧
            vertexGetCityName (graphGetVertex g
              (l.foldl (checkStringsKnownScan g sA sB) acc).vertexNumberA) = sA) ∧
      ((l.foldl (checkStringsKnownScan g sA sB) acc).stringBKnown = true →
          (l.foldl (checkStringsKnownScan g sA sB) acc).vertexNumberB <
              graphGetNumberOfCities g ∧
            vertexGetCityName (graphGetVertex g
              (l.foldl (checkStringsKnownScan g sA sB) acc).vertexNumberB) = sB)) := by
  intro l
  induction l with
  | nil => intro acc _ hA hB; exact ⟨hA, hB⟩
  | cons k l ih =>
    intro acc hmem hA hB
    rw [List.foldl_cons]
    apply ih _ (fun x hx => hmem x (List.mem_cons_of_mem _ hx))
    · exact checkStringsKnownScan_A_sound g sA sB acc k
        (hmem k (List.mem_cons_self _ _)) hA
    · exact checkStringsKnownScan_B_sound g sA sB acc k
        (hmem k (List.mem_cons_self _ _)) hB

/-- If some scanned index carries the sought name, the found-flag ends up
set. -/
theorem checkStringsKnownScan_fold_findsA (g : Graph) (sA sB : String) :
    ∀ (l : List Nat) (acc : ScanSt),
      (acc.stringAKnown = true ∨ ∃ k ∈ l, vertexGetCityName (graphGetVertex g k) = sA) →
      (l.foldl (checkStringsKnownScan g sA sB) acc).stringAKnown = true := by
  intro l
  induction l with
  | nil =>
    intro acc h
    rcases h with h | h
    · exact h
    · simp at h
  | cons k l ih =>
    intro acc h
    rw [List.foldl_cons]
    apply ih
    rw [checkStringsKnownScan_flagA]
    rcases h with h | h
    · exact Or.inl (Or.inl h)
    · rcases h with ⟨k2, hk2, hname⟩
      rcases List.mem_cons.mp hk2 with rfl | hk2'
      · exact Or.inl (Or.inr hname)
      · exact Or.inr ⟨k2, hk2', hname⟩

theorem checkStringsKnownScan_fold_findsB (g : Graph) (sA sB : String) :
    ∀ (l : List Nat) (acc : ScanSt),
      (acc.stringBKnown = true ∨ ∃ k ∈ l, vertexGetCityName (graphGetVertex g k) = sB) →
      (l.foldl (checkStringsKnownScan g sA sB) acc).stringBKnown = true := by
  intro l
  induction l with
  | nil =>
    intro acc h
    rcases h with h | h
    · exact h
    · simp at h
  | cons k l ih =>
    intro acc h
    rw [List.foldl_cons]
    apply ih
    rw [checkStringsKnownScan_flagB]
    rcases h with h | h
    · exact Or.inl (Or.inl h)
    · rcases h with ⟨k2, hk2, hname⟩
      rcases List.mem_cons.mp hk2 with rfl | hk2'
      · exact Or.inl (Or.inr hname)
      · exact Or.inr ⟨k2, hk2', hname⟩

/-- Claim C3 (the code contradicts it): loading the single edge record
("X", "X", 3) — two equal, previously unseen city names — creates TWO distinct
vertices (indices 0 and 1) both named "X": `checkStringsKnown` decides both
found-flags against the graph as it was before either vertex was added. -/
theorem c3_duplicate_name_counterexample :
    graphPopulateGraph graphConstructor [("X", "X", 3)] = some gDup ∧
    graphGetNumberOfCities gDup = 2 ∧
    vertexGetCityName (graphGetVertex gDup 0) = "X" ∧
    vertexGetCityName (graphGetVertex gDup 1) = "X" := by
  refine ⟨?_, by decide, by decide, by decide⟩
  decide

/-- Claim C3 as amended: registering names that are both already known does
return existing indices carrying those names and creates no new vertex — the
duplicate-collapse only fails for an edge record whose two equal names are
previously unseen (see the counterexample). -/
theorem c3_known_names_collapse (g : Graph) (sA sB : String) (iA iB : Nat)
    (hA : ∃ k, k < graphGetNumberOfCities g ∧
      vertexGetCityName (graphGetVertex g k) = sA)
    (hB : ∃ k, k < graphGetNumberOfCities g ∧
      vertexGetCityName (graphGetVertex g k) = sB) :
    (checkStringsKnown g sA sB iA iB).1 = g ∧
    (checkStringsKnown g sA sB iA iB).2.1 < graphGetNumberOfCities g ∧
    vertexGetCityName
      (graphGetVertex g (checkStringsKnown g sA sB iA iB).2.1) = sA ∧
    (checkStringsKnown g sA sB iA iB).2.2 < graphGetNumberOfCities g ∧
    vertexGetCityName
      (graphGetVertex g (checkStringsKnown g sA sB iA iB).2.2) = sB := by
  obtain ⟨kA, hkA, hnA⟩ := hA
  obtain ⟨kB, hkB, hnB⟩ := hB
  have hmemA : kA ∈ List.range (graphGetNumberOfCities g) := List.mem_range.mpr hkA
  have hmemB : kB ∈ List.range (graphGetNumberOfCities g) := List.mem_range.mpr hkB
  have hflagA := checkStringsKnownScan_fold_findsA g sA sB
    (List.range (graphGetNumberOfCities g)) ⟨iA, false, iB, false⟩
    (Or.inr ⟨kA, hmemA, hnA⟩)
  have hflagB := checkStringsKnownScan_fold_findsB g sA sB
    (List.range (graphGetNumberOfCities g)) ⟨iA, false, iB, false⟩
    (Or.inr ⟨kB, hmemB, hnB⟩)
  have hsound := checkStringsKnownScan_fold_sound g sA sB
    (List.range (graphGetNumberOfCities g)) ⟨iA, false, iB, false⟩
    (fun x hx => List.mem_range.mp hx)
    (fun hcon => absurd hcon (by simp)) (fun hcon => absurd hcon (by simp))
  simp only [checkStringsKnown]
  rw [if_neg (fun hcon => hcon ⟨hflagA, hflagB⟩)]
  obtain ⟨hsA, hsB⟩ := hsound
  obtain ⟨h1, h2⟩ := hsA hflagA
  obtain ⟨h3, h4⟩ := hsB hflagB
  exact ⟨rfl, h1, h2, h3, h4⟩

/-- Witness for the amended C3: on the two-island graph, looking up the known
names "B" and "A" changes nothing and returns their indices. -/
theorem c3_known_names_collapse_witness :
    (checkStringsKnown gTwoIslands "B" "A" 0 0).1 = gTwoIslands ∧
    (checkStringsKnown gTwoIslands "B" "A" 0 0).2.1 <
      graphGetNumberOfCities gTwoIslands ∧
    vertexGetCityName (graphGetVertex gTwoIslands
      (checkStringsKnown gTwoIslands "B" "A" 0 0).2.1) = "B" ∧
    (checkStringsKnown gTwoIslands "B" "A" 0 0).2.2 <
      graphGetNumberOfCities gTwoIslands ∧
    vertexGetCityName (graphGetVertex gTwoIslands
      (checkStringsKnown gTwoIslands "B" "A" 0 0).2.2) = "A" :=
  c3_known_names_collapse gTwoIslands "B" "A" 0 0
    ⟨1, by decide, by decide⟩ ⟨0, by decide, by decide⟩

/-- Claim C5 (the code contradicts it as stated): with weights 2000000000 on
A-B and B-C, source A and destination C, the rendered route is A ---> B ---> C
whose weights sum to 4000000000, but distanceFromSource(C) is the wrapped
value -294967296: the relaxation sum overflowed `int`, as the comment at
dijkstras.c lines 48-50 warns. -/
theorem c5_overflow_counterexample :
    routeCityNames (dijkstras gOverflow [] 0).g 2 = ["C", "B", "A"] ∧
    distOf (dijkstras gOverflow [] 0).g 2 = -294967296 ∧
    (graphGetVertex gOverflow 0).edges =
      [{ start := 0, endVertex := 1, distance := 2000000000 }] ∧
    (graphGetVertex gOverflow 1).edges =
      [{ start := 1, endVertex := 0, distance := 2000000000 },
       { start := 1, endVertex := 2, distance := 2000000000 }] ∧
    (2000000000 : Int) + 2000000000 ≠ -294967296 := by
  refine ⟨?_, by decide, by decide, by decide, by decide⟩
  decide

theorem SameSkeleton.refl' (g : Graph) : SameSkeleton g g := ⟨rfl, fun _ => ⟨rfl, rfl, rfl⟩⟩

theorem SameSkeleton.trans' {g1 g2 g3 : Graph} (h1 : SameSkeleton g1 g2)
    (h2 : SameSkeleton g2 g3) : SameSkeleton g1 g3 := by
  refine ⟨h1.1.trans h2.1, fun i => ?_⟩
  obtain ⟨a1, b1, c1⟩ := h1.2 i
  obtain ⟨a2, b2, c2⟩ := h2.2 i
  exact ⟨a1.trans a2, b1.trans b2, c1.trans c2⟩

theorem EqButPos.sameSkeleton {g g' : Graph} (h : EqButPos g g') : SameSkeleton g g' :=
  ⟨h.1, fun i => ⟨(h.2 i).2.2.2.1, (h.2 i).2.2.2.2.1, (h.2 i).2.2.2.2.2⟩⟩

/-- Overwriting slot `i` with a vertex that keeps the skeleton fields of the
old occupant preserves the skeleton. -/
theorem SameSkeleton_graphSetVertex (g : Graph) (i : Nat) (v : Vertex)
    (he : v.edges = (graphGetVertex g i).edges)
    (hc : v.cityName = (graphGetVertex g i).cityName)
    (hn : v.vertexNumber = (graphGetVertex g i).vertexNumber) :
    SameSkeleton g (graphSetVertex g i v) := by
  by_cases hi : i < graphGetNumberOfCities g
  · refine ⟨(numberOfCities_graphSetVertex _ _ _).symm, fun j => ?_⟩
    by_cases hij : i = j
    · subst hij
      rw [graphGetVertex_graphSetVertex_self _ _ _ hi]
      exact ⟨he.symm, hc.symm, hn.symm⟩
    · rw [graphGetVertex_graphSetVertex_ne _ _ _ _ hij]
      exact ⟨rfl, rfl, rfl⟩
  · rw [graphSetVertex_of_le _ _ _ (Nat.le_of_not_lt hi)]
    exact SameSkeleton.refl' g

theorem SameSkeleton_setDist (g : Graph) (i : Nat) (d : Int) :
    SameSkeleton g (vertexSetDistanceFromSource g i d) :=
  SameSkeleton_graphSetVertex _ _ _ rfl rfl rfl

theorem SameSkeleton_setPrev (g : Graph) (i : Nat) (p : Option Nat) :
    SameSkeleton g (vertexSetPrevious g i p) :=
  SameSkeleton_graphSetVertex _ _ _ rfl rfl rfl

theorem SameSkeleton_setVis (g : Graph) (i : Nat) :
    SameSkeleton g (vertexSetIsVisited g i) :=
  SameSkeleton_graphSetVertex _ _ _ rfl rfl rfl

theorem SameSkeleton_setNotVis (g : Graph) (i : Nat) :
    SameSkeleton g (vertexSetIsNotVisited g i) :=
  SameSkeleton_graphSetVertex _ _ _ rfl rfl rfl

theorem numberOfCities_setDist (g : Graph) (i : Nat) (d : Int) :
    graphGetNumberOfCities (vertexSetDistanceFromSource g i d) = graphGetNumberOfCities g :=
  numberOfCities_graphSetVertex _ _ _

theorem numberOfCities_setPrev (g : Graph) (i : Nat) (p : Option Nat) :
    graphGetNumberOfCities (vertexSetPrevious g i p) = graphGetNumberOfCities g :=
  numberOfCities_graphSetVertex _ _ _

theorem numberOfCities_setVis (g : Graph) (i : Nat) :
    graphGetNumberOfCities (vertexSetIsVisited g i) = graphGetNumberOfCities g :=
  numberOfCities_graphSetVertex _ _ _

theorem numberOfCities_setNotVis (g : Graph) (i : Nat) :
    graphGetNumberOfCities (vertexSetIsNotVisited g i) = graphGetNumberOfCities g :=
  numberOfCities_graphSetVertex _ _ _

theorem graphGetVertex_setDist_ne (g : Graph) (i : Nat) (d : Int) (j : Nat) (h : i ≠ j) :
    graphGetVertex (vertexSetDistanceFromSource g i d) j = graphGetVertex g j :=
  graphGetVertex_graphSetVertex_ne _ _ _ _ h

theorem graphGetVertex_setPrev_ne (g : Graph) (i : Nat) (p : Option Nat) (j : Nat)
    (h : i ≠ j) : graphGetVertex (vertexSetPrevious g i p) j = graphGetVertex g j :=
  graphGetVertex_graphSetVertex_ne _ _ _ _ h

theorem graphGetVertex_setVis_ne (g : Graph) (i j : Nat) (h : i ≠ j) :
    graphGetVertex (vertexSetIsVisited g i) j = graphGetVertex g j :=
  graphGetVertex_graphSetVertex_ne _ _ _ _ h

theorem graphGetVertex_setNotVis_ne (g : Graph) (i j : Nat) (h : i ≠ j) :
    graphGetVertex (vertexSetIsNotVisited g i) j = graphGetVertex g j :=
  graphGetVertex_graphSetVertex_ne _ _ _ _ h

theorem graphGetVertex_setDist_self (g : Graph) (i : Nat) (d : Int)
    (h : i < graphGetNumberOfCities g) :
    graphGetVertex (vertexSetDistanceFromSource g i d) i =
      { graphGetVertex g i with distanceFromSource := d } :=
  graphGetVertex_graphSetVertex_self _ _ _ h

theorem graphGetVertex_setPrev_self (g : Graph) (i : Nat) (p : Option Nat)
    (h : i < graphGetNumberOfCities g) :
    graphGetVertex (vertexSetPrevious g i p) i =
      { graphGetVertex g i with previous := p } :=
  graphGetVertex_graphSetVertex_self _ _ _ h

theorem graphGetVertex_setVis_self (g : Graph) (i : Nat)
    (h : i < graphGetNumberOfCities g) :
    graphGetVertex (vertexSetIsVisited g i) i =
      { graphGetVertex g i with visited := true } :=
  graphGetVertex_graphSetVertex_self _ _ _ h

theorem graphGetVertex_setNotVis_self (g : Graph) (i : Nat)
    (h : i < graphGetNumberOfCities g) :
    graphGetVertex (vertexSetIsNotVisited g i) i =
      { graphGetVertex g i with visited := false } :=
  graphGetVertex_graphSetVertex_self _ _ _ h

theorem dijkstrasReset_eq_foldl (g : Graph) (h : List Node) (s : Nat) :
    dijkstrasReset g h s =
      (List.range (graphGetNumberOfCities g)).foldl (resetStep s)
        { g := vertexSetDistanceFromSource g s 0, h := h } := rfl

theorem resetEnqueue_inv (g : Graph) (s i : Nat) (st : St) (g3 : Graph)
    (hi : i < graphGetNumberOfCities g)
    (hinv : ResetInv g s i st)
    (hskel3 : SameSkeleton st.g g3)
    (hn3 : graphGetNumberOfCities g3 = graphGetNumberOfCities g)
    (hvne : ∀ j, j ≠ i → graphGetVertex g3 j = graphGetVertex st.g j)
    (hdi : distOf g3 i = if i = s then 0 else INT_MAX)
    (hpi : prevOf g3 i = none) (hvi : visOf g3 i = false)
    (hds3 : distOf g3 s = 0) :
    ResetInv g s (i + 1) (minHeapEnqueue ⟨g3, st.h⟩ i) := by
  obtain ⟨hskel, hlen, hperm, hWF, hsync, hds, hdist, hpv⟩ := hinv
  have hvlt : ∀ k, k < st.h.length → (heapGet st k).vertex < i := by
    intro k hk
    have hmem : (heapGet st k).vertex ∈ heapVerts st := by
      rw [heapVerts]
      refine List.mem_map_of_mem _ ?_
      rw [heapGet, getD_eq_getElem _ _ _ hk]
      exact List.getElem_mem _
    exact List.mem_range.mp (hperm.subset hmem)
  have hWF3 : WFHeap ⟨g3, st.h⟩ := by
    obtain ⟨hI, hF, hP⟩ := hWF
    refine ⟨hI, hF, fun k hk => ?_⟩
    have hk' : k < st.h.length := hk
    obtain ⟨hpos, hvlt', hpo⟩ := hP k hk'
    have hne : (heapGet st k).vertex ≠ i := Nat.ne_of_lt (hvlt k hk')
    refine ⟨hpos, ?_, ?_⟩
    · show (heapGet st k).vertex < graphGetNumberOfCities g3
      rw [hn3, hskel.1]
      exact hvlt'
    · show posOf g3 (heapGet st k).vertex = (k : Int)
      simp only [posOf]
      rw [hvne _ hne]
      exact hpo
  have hsync3 : heapSync ⟨g3, st.h⟩ := by
    intro p hp
    have hp' : p ∈ heapPairs st := hp
    have hp1 : p.1 < i := by
      have hmem : p.1 ∈ heapVerts st := by
        rw [heapVerts_eq_map_fst]
        exact List.mem_map_of_mem _ hp'
      exact List.mem_range.mp (hperm.subset hmem)
    show p.2 = distOf g3 p.1
    have hg3 : distOf g3 p.1 = distOf st.g p.1 := by
      simp only [distOf]
      rw [hvne _ (Nat.ne_of_lt hp1)]
    rw [hg3]
    exact hsync p hp'
  have hfresh : i ∉ heapVerts (⟨g3, st.h⟩ : St) := by
    intro hmem
    have hmem' : i ∈ heapVerts st := hmem
    exact absurd (List.mem_range.mp (hperm.subset hmem')) (lt_irrefl i)
  obtain ⟨hWF', hsync', hpairs', hlen', heqp⟩ :=
    minHeapEnqueue_spec ⟨g3, st.h⟩ i hWF3 hsync3
      (show i < graphGetNumberOfCities g3 by rw [hn3]; exact hi) hfresh
  have hd' : ∀ j, distOf g3 j = distOf (minHeapEnqueue ⟨g3, st.h⟩ i).g j :=
    fun j => (heqp.2 j).1
  have hp' : ∀ j, prevOf g3 j = prevOf (minHeapEnqueue ⟨g3, st.h⟩ i).g j :=
    fun j => (heqp.2 j).2.1
  have hv' : ∀ j, visOf g3 j = visOf (minHeapEnqueue ⟨g3, st.h⟩ i).g j :=
    fun j => (heqp.2 j).2.2.1
  refine ⟨hskel.trans' (hskel3.trans' heqp.sameSkeleton), ?_, ?_, hWF', hsync', ?_, ?_, ?_⟩
  · rw [hlen']
    show st.h.length + 1 = i + 1
    rw [hlen]
  · have h1 : heapVerts (minHeapEnqueue ⟨g3, st.h⟩ i) =
        (heapPairs (minHeapEnqueue ⟨g3, st.h⟩ i)).map Prod.fst := heapVerts_eq_map_fst _
    rw [h1]
    have h2 := hpairs'.map Prod.fst
    simp only [List.map_cons] at h2
    have h3 : (heapPairs (⟨g3, st.h⟩ : St)).map Prod.fst = heapVerts st :=
      (heapVerts_eq_map_fst st).symm
    rw [h3] at h2
    refine (h2.trans (hperm.cons i)).trans ?_
    rw [List.range_succ]
    exact (List.perm_append_singleton i (List.range i)).symm
  · rw [← hd']
    exact hds3
  · intro j hj hjs
    rw [← hd']
    rcases Nat.lt_succ_iff_lt_or_eq.mp hj with hlt | rfl
    · simp only [distOf]
      rw [hvne _ (Nat.ne_of_lt hlt)]
      exact hdist j hlt hjs
    · rw [hdi, if_neg hjs]
  · intro j hj
    rw [← hp', ← hv']
    rcases Nat.lt_succ_iff_lt_or_eq.mp hj with hlt | rfl
    · have he := hvne _ (Nat.ne_of_lt hlt)
      constructor
      · simp only [prevOf]
        rw [he]
        exact (hpv j hlt).1
      · simp only [visOf]
        rw [he]
        exact (hpv j hlt).2
    · exact ⟨hpi, hvi⟩

theorem resetStep_inv (g : Graph) (s i : Nat) (st : St)
    (hi : i < graphGetNumberOfCities g) (hinv : ResetInv g s i st) :
    ResetInv g s (i + 1) (resetStep s st i) := by
  have hn : graphGetNumberOfCities st.g = graphGetNumberOfCities g := hinv.1.1.symm
  have hii : i < graphGetNumberOfCities st.g := by rw [hn]; exact hi
  by_cases his : i = s
  · subst his
    have hstep : resetStep i st i =
        minHeapEnqueue ⟨vertexSetIsNotVisited (vertexSetPrevious st.g i none) i, st.h⟩ i := by
      simp only [resetStep, ne_eq, not_true_eq_false, if_neg, ite_false]
    rw [hstep]
    have hii1 : i < graphGetNumberOfCities (vertexSetPrevious st.g i none) := by
      rw [numberOfCities_setPrev]; exact hii
    have hgi : graphGetVertex (vertexSetIsNotVisited (vertexSetPrevious st.g i none) i) i =
        { graphGetVertex st.g i with previous := none, visited := false } := by
      rw [graphGetVertex_setNotVis_self _ _ hii1, graphGetVertex_setPrev_self _ _ _ hii]
    refine resetEnqueue_inv g i i st _ hi hinv
      ((SameSkeleton_setPrev st.g i none).trans' (SameSkeleton_setNotVis _ i))
      (by rw [numberOfCities_setNotVis, numberOfCities_setPrev, hn]) ?_ ?_ ?_ ?_ ?_
    · intro j hj
      rw [graphGetVertex_setNotVis_ne _ _ _ (fun hc => hj hc.symm),
        graphGetVertex_setPrev_ne _ _ _ _ (fun hc => hj hc.symm)]
    · rw [if_pos rfl]
      simp only [distOf, vertexGetDistanceFromSource, hgi]
      exact hinv.2.2.2.2.2.1
    · simp [prevOf, vertexGetPrevious, hgi]
    · simp [visOf, vertexIsVisited, hgi]
    · simp only [distOf, vertexGetDistanceFromSource, hgi]
      exact hinv.2.2.2.2.2.1
  · have hstep : resetStep s st i =
        minHeapEnqueue ⟨vertexSetIsNotVisited (vertexSetPrevious
          (vertexSetDistanceFromSource st.g i INT_MAX) i none) i, st.h⟩ i := by
      simp only [resetStep, ne_eq, his, not_false_eq_true, if_pos, ite_true]
    rw [hstep]
    have hii1 : i < graphGetNumberOfCities (vertexSetDistanceFromSource st.g i INT_MAX) := by
      rw [numberOfCities_setDist]; exact hii
    have hii2 : i < graphGetNumberOfCities
        (vertexSetPrevious (vertexSetDistanceFromSource st.g i INT_MAX) i none) := by
      rw [numberOfCities_setPrev]; exact hii1
    have hgi : graphGetVertex (vertexSetIsNotVisited (vertexSetPrevious
        (vertexSetDistanceFromSource st.g i INT_MAX) i none) i) i =
        { graphGetVertex st.g i with
            distanceFromSource := INT_MAX, previous := none, visited := false } := by
      rw [graphGetVertex_setNotVis_self _ _ hii2, graphGetVertex_setPrev_self _ _ _ hii1,
        graphGetVertex_setDist_self _ _ _ hii]
    have hvne : ∀ j, j ≠ i → graphGetVertex (vertexSetIsNotVisited (vertexSetPrevious
        (vertexSetDistanceFromSource st.g i INT_MAX) i none) i) j = graphGetVertex st.g j := by
      intro j hj
      rw [graphGetVertex_setNotVis_ne _ _ _ (fun hc => hj hc.symm),
        graphGetVertex_setPrev_ne _ _ _ _ (fun hc => hj hc.symm),
        graphGetVertex_setDist_ne _ _ _ _ (fun hc => hj hc.symm)]
    refine resetEnqueue_inv g s i st _ hi hinv
      (((SameSkeleton_setDist st.g i INT_MAX).trans'
        (SameSkeleton_setPrev _ i none)).trans' (SameSkeleton_setNotVis _ i))
      (by rw [numberOfCities_setNotVis, numberOfCities_setPrev, numberOfCities_setDist, hn])
      hvne ?_ ?_ ?_ ?_
    · rw [if_neg his]
      simp [distOf, vertexGetDistanceFromSource, hgi]
    · simp [prevOf, vertexGetPrevious, hgi]
    · simp [visOf, vertexIsVisited, hgi]
    · have hsi : s ≠ i := fun hc => his hc.symm
      simp only [distOf]
      rw [hvne s hsi]
      exact hinv.2.2.2.2.2.1

theorem resetFold_inv (g : Graph) (s : Nat) :
    ∀ (cnt i : Nat) (st : St), i + cnt = graphGetNumberOfCities g →
      ResetInv g s i st →
      ResetInv g s (graphGetNumberOfCities g)
        (List.foldl (resetStep s) st (List.range' i cnt)) := by
  intro cnt
  induction cnt with
  | zero =>
    intro i st hsum hinv
    have he : i = graphGetNumberOfCities g := by omega
    subst he
    simpa using hinv
  | succ cnt ih =>
    intro i st hsum hinv
    rw [List.range'_succ, List.foldl_cons]
    exact ih (i + 1) (resetStep s st i) (by omega)
      (resetStep_inv g s i st (by omega) hinv)

theorem dijkstrasReset_inv (g : Graph) (s : Nat) (hs : s < graphGetNumberOfCities g) :
    ResetInv g s (graphGetNumberOfCities g) (dijkstrasReset g [] s) := by
  rw [dijkstrasReset_eq_foldl, List.range_eq_range']
  refine resetFold_inv g s (graphGetNumberOfCities g) 0 _ (by omega) ?_
  refine ⟨SameSkeleton_setDist g s 0, rfl, by simp [heapVerts], ?_, ?_, ?_, ?_, ?_⟩
  · exact ⟨fun j hj => absurd hj (by simp), fun j hj => absurd hj (by simp),
      fun j hj => absurd hj (by simp)⟩
  · intro p hp
    simp [heapPairs] at hp
  · simp only [distOf, vertexGetDistanceFromSource]
    rw [graphGetVertex_setDist_self _ _ _ hs]
  · intro j hj
    exact absurd hj (by omega)
  · intro j hj
    exact absurd hj (by omega)

/-- In a synchronized well-formed heap whose vertices are exactly `0..n-1`,
where `s` has distance `0` and every other vertex has distance `INT_MAX`, the
root slot holds `s`. -/
theorem root_is_source (g0 : Graph) (s : Nat) (st : St)
    (hs : s < graphGetNumberOfCities g0)
    (hinv : ResetInv g0 s (graphGetNumberOfCities g0) st) :
    (heapGet st 0).vertex = s := by
  obtain ⟨hskel, hlen, hperm, hWF, hsync, hds, hdist, _⟩ := hinv
  have hn0 : 0 < st.h.length := by omega
  have hmem0 : heapGet st 0 ∈ st.h := by
    rw [heapGet, getD_eq_getElem _ _ _ hn0]
    exact List.getElem_mem _
  have hrpair : ((heapGet st 0).vertex, (heapGet st 0).value) ∈ heapPairs st :=
    List.mem_map_of_mem _ hmem0
  have hrlt : (heapGet st 0).vertex < graphGetNumberOfCities g0 := by
    have hmem : (heapGet st 0).vertex ∈ heapVerts st := by
      rw [heapVerts]
      exact List.mem_map_of_mem _ hmem0
    exact List.mem_range.mp (hperm.subset hmem)
  by_contra hrs
  have hroot : (heapGet st 0).value = INT_MAX := by
    have h1 := hsync _ hrpair
    simp only at h1
    rw [h1]
    exact hdist _ hrlt hrs
  have hsmem : s ∈ heapVerts st := hperm.symm.subset (List.mem_range.mpr hs)
  obtain ⟨nd, hnd, hndv⟩ := List.mem_map.mp hsmem
  have hspair : (nd.vertex, nd.value) ∈ heapPairs st := List.mem_map_of_mem _ hnd
  have hsval : nd.value = 0 := by
    have h1 := hsync _ hspair
    simp only at h1
    rw [h1, hndv]
    exact hds
  have hle := heapInv_le_pairs hWF.1 _ hspair
  simp only at hle
  rw [hsval] at hle
  have : heapVal st 0 = INT_MAX := hroot
  rw [this] at hle
  simp [INT_MAX] at hle

/-- Claim C9: at the end of the reset phase of a run started with the empty
heap, the source's distance is `0`, every other vertex's distance is the
`INT_MAX` sentinel, every vertex has no predecessor and is unvisited, the heap
holds every vertex exactly once (its size is the vertex count), and the first
dequeue returns the source. -/
theorem c9_reset_phase (g : Graph) (s : Nat) (hs : s < graphGetNumberOfCities g) :
    distOf (dijkstrasReset g [] s).g s = 0 ∧
    (∀ j, j < graphGetNumberOfCities g → j ≠ s →
      distOf (dijkstrasReset g [] s).g j = INT_MAX) ∧
    (∀ j, j < graphGetNumberOfCities g →
      prevOf (dijkstrasReset g [] s).g j = none ∧
      visOf (dijkstrasReset g [] s).g j = false) ∧
    (heapVerts (dijkstrasReset g [] s)).Perm (List.range (graphGetNumberOfCities g)) ∧
    minHeapGetSize (dijkstrasReset g [] s) = graphGetNumberOfCities g ∧
    (minHeapDequeue (dijkstrasReset g [] s)).2 = s := by
  have hinv := dijkstrasReset_inv g s hs
  obtain ⟨hskel, hlen, hperm, hWF, hsync, hds, hdist, hpv⟩ := hinv
  refine ⟨hds, hdist, hpv, hperm, hlen, ?_⟩
  have hne : 0 < (dijkstrasReset g [] s).h.length := by omega
  have hdq := (minHeapDequeue_spec (dijkstrasReset g [] s) hWF hsync hne).1
  rw [hdq]
  exact root_is_source g s (dijkstrasReset g [] s) hs
    ⟨hskel, hlen, hperm, hWF, hsync, hds, hdist, hpv⟩

theorem c9_reset_phase_witness :
    distOf (dijkstrasReset gTwoIslands [] 0).g 0 = 0 ∧
    (∀ j, j < graphGetNumberOfCities gTwoIslands → j ≠ 0 →
      distOf (dijkstrasReset gTwoIslands [] 0).g j = INT_MAX) ∧
    (∀ j, j < graphGetNumberOfCities gTwoIslands →
      prevOf (dijkstrasReset gTwoIslands [] 0).g j = none ∧
      visOf (dijkstrasReset gTwoIslands [] 0).g j = false) ∧
    (heapVerts (dijkstrasReset gTwoIslands [] 0)).Perm
      (List.range (graphGetNumberOfCities gTwoIslands)) ∧
    minHeapGetSize (dijkstrasReset gTwoIslands [] 0) =
      graphGetNumberOfCities gTwoIslands ∧
    (minHeapDequeue (dijkstrasReset gTwoIslands [] 0)).2 = 0 :=
  c9_reset_phase gTwoIslands 0 (by decide)

theorem wrap32_eq_self {x : Int} (h1 : -2147483648 ≤ x) (h2 : x ≤ 2147483647) :
    wrap32 x = x := by
  unfold wrap32
  rw [Int.emod_eq_of_lt (by omega) (by omega)]
  omega

theorem setDist_fields (g : Graph) (i : Nat) (d : Int) (j : Nat) :
    prevOf (vertexSetDistanceFromSource g i d) j = prevOf g j ∧
    visOf (vertexSetDistanceFromSource g i d) j = visOf g j ∧
    posOf (vertexSetDistanceFromSource g i d) j = posOf g j ∧
    (i ≠ j → distOf (vertexSetDistanceFromSource g i d) j = distOf g j) ∧
    (i = j → i < graphGetNumberOfCities g →
      distOf (vertexSetDistanceFromSource g i d) j = d) := by
  by_cases hij : i = j
  · subst hij
    by_cases hi : i < graphGetNumberOfCities g
    · refine ⟨?_, ?_, ?_, fun hc => absurd rfl hc, fun _ _ => ?_⟩ <;>
        simp only [prevOf, visOf, posOf, distOf, vertexGetPrevious, vertexIsVisited,
          vertexGetPositionInHeap, vertexGetDistanceFromSource,
          graphGetVertex_setDist_self _ _ _ hi]
    · simp only [vertexSetDistanceFromSource]
      rw [graphSetVertex_of_le _ _ _ (Nat.le_of_not_lt hi)]
      exact ⟨rfl, rfl, rfl, fun _ => rfl, fun _ hc => absurd hc hi⟩
  · refine ⟨?_, ?_, ?_, fun _ => ?_, fun hc => absurd hc hij⟩ <;>
      simp only [prevOf, visOf, posOf, distOf, graphGetVertex_setDist_ne _ _ _ _ hij]

theorem setPrev_fields (g : Graph) (i : Nat) (p : Option Nat) (j : Nat) :
    distOf (vertexSetPrevious g i p) j = distOf g j ∧
    visOf (vertexSetPrevious g i p) j = visOf g j ∧
    posOf (vertexSetPrevious g i p) j = posOf g j ∧
    (i ≠ j → prevOf (vertexSetPrevious g i p) j = prevOf g j) ∧
    (i = j → i < graphGetNumberOfCities g → prevOf (vertexSetPrevious g i p) j = p) := by
  by_cases hij : i = j
  · subst hij
    by_cases hi : i < graphGetNumberOfCities g
    · refine ⟨?_, ?_, ?_, fun hc => absurd rfl hc, fun _ _ => ?_⟩ <;>
        simp only [prevOf, visOf, posOf, distOf, vertexGetPrevious, vertexIsVisited,
          vertexGetPositionInHeap, vertexGetDistanceFromSource,
          graphGetVertex_setPrev_self _ _ _ hi]
    · simp only [vertexSetPrevious]
      rw [graphSetVertex_of_le _ _ _ (Nat.le_of_not_lt hi)]
      exact ⟨rfl, rfl, rfl, fun _ => rfl, fun _ hc => absurd hc hi⟩
  · refine ⟨?_, ?_, ?_, fun _ => ?_, fun hc => absurd hc hij⟩ <;>
      simp only [prevOf, visOf, posOf, distOf, graphGetVertex_setPrev_ne _ _ _ _ hij]

theorem setVis_fields (g : Graph) (i : Nat) (j : Nat) :
    distOf (vertexSetIsVisited g i) j = distOf g j ∧
    prevOf (vertexSetIsVisited g i) j = prevOf g j ∧
    posOf (vertexSetIsVisited g i) j = posOf g j ∧
    (i ≠ j → visOf (vertexSetIsVisited g i) j = visOf g j) ∧
    (i = j → i < graphGetNumberOfCities g → visOf (vertexSetIsVisited g i) j = true) := by
  by_cases hij : i = j
  · subst hij
    by_cases hi : i < graphGetNumberOfCities g
    · refine ⟨?_, ?_, ?_, fun hc => absurd rfl hc, fun _ _ => ?_⟩ <;>
        simp only [prevOf, visOf, posOf, distOf, vertexGetPrevious, vertexIsVisited,
          vertexGetPositionInHeap, vertexGetDistanceFromSource,
          graphGetVertex_setVis_self _ _ hi]
    · simp only [vertexSetIsVisited]
      rw [graphSetVertex_of_le _ _ _ (Nat.le_of_not_lt hi)]
      exact ⟨rfl, rfl, rfl, fun _ => rfl, fun _ hc => absurd hc hi⟩
  · refine ⟨?_, ?_, ?_, fun _ => ?_, fun hc => absurd hc hij⟩ <;>
      simp only [prevOf, visOf, posOf, distOf, graphGetVertex_setVis_ne _ _ _ hij]

/-- Setting a vertex visited never unsets any visited flag. -/
theorem visOf_setVis_mono (g : Graph) (i j : Nat) (h : visOf g j = true) :
    visOf (vertexSetIsVisited g i) j = true := by
  by_cases hij : i = j
  · subst hij
    by_cases hi : i < graphGetNumberOfCities g
    · exact (setVis_fields g i i).2.2.2.2 rfl hi
    · simp only [visOf, vertexSetIsVisited]
      rw [graphSetVertex_of_le _ _ _ (Nat.le_of_not_lt hi)]
      exact h
  · rw [(setVis_fields g i j).2.2.2.1 hij]
    exact h

theorem siftUpGo_g_EqButPos : ∀ (fuel : Nat) (st : St) (cur : Nat),
    EqButPos st.g (siftUpGo fuel st cur).g := by
  intro fuel
  induction fuel with
  | zero => intro st cur; exact EqButPos.refl _
  | succ fuel ih =>
    intro st cur
    simp only [siftUpGo]
    split
    · exact EqButPos.refl _
    · split
      · exact (swapNode_g_EqButPos st cur (cparent cur)).trans (ih _ _)
      · exact EqButPos.refl _

theorem siftDownGo_g_EqButPos : ∀ (fuel : Nat) (st : St) (cur : Nat),
    EqButPos st.g (siftDownGo fuel st cur).g := by
  intro fuel
  induction fuel with
  | zero => intro st cur; exact EqButPos.refl _
  | succ fuel ih =>
    intro st cur
    simp only [siftDownGo]
    split
    · split
      · split
        · split
          · exact (swapNode_g_EqButPos _ _ _).trans (ih _ _)
          · exact (swapNode_g_EqButPos _ _ _).trans (ih _ _)
        · exact EqButPos.refl _
      · split
        · split
          · exact (swapNode_g_EqButPos _ _ _).trans (ih _ _)
          · exact EqButPos.refl _
        · split
          · exact (swapNode_g_EqButPos _ _ _).trans (ih _ _)
          · exact EqButPos.refl _
    · exact EqButPos.refl _

theorem minHeapSiftDown_g_EqButPos (st : St) : EqButPos st.g (minHeapSiftDown st).g :=
  siftDownGo_g_EqButPos (st.h.length + 1) st 0

theorem minHeapDequeue_g_EqButPos (st : St) : EqButPos st.g (minHeapDequeue st).1.g := by
  simp only [minHeapDequeue]
  split
  · exact (EqButPos_setPos st.g (heapGet st (st.h.length - 1)).vertex 0).trans
      (minHeapSiftDown_g_EqButPos
        ⟨vertexSetPositionInHeap st.g (heapGet st (st.h.length - 1)).vertex 0, _⟩)
  · exact EqButPos.refl _

theorem minHeapDecreaseNodeValue_g_EqButPos (st : St) (v : Nat) :
    EqButPos st.g (minHeapDecreaseNodeValue st v).g :=
  siftUpGo_g_EqButPos ((vertexGetPositionInHeap (graphGetVertex st.g v)).toNat + 1)
    ⟨st.g, st.h.set (vertexGetPositionInHeap (graphGetVertex st.g v)).toNat
      { heapGet st (vertexGetPositionInHeap (graphGetVertex st.g v)).toNat with
        value := vertexGetDistanceFromSource (graphGetVertex st.g v) }⟩
    (vertexGetPositionInHeap (graphGetVertex st.g v)).toNat

/-- `relaxEdge` either leaves the state unchanged, or (when the target is
unvisited and the wrapped alternative is strictly smaller) rewrites its
distance and predecessor and decreases its heap key. -/
theorem relaxEdge_eq (u : Nat) (st : St) (e : Edge) :
    relaxEdge u st e = st ∨
    (¬ vertexIsVisited (graphGetVertex st.g (edgeGetEndVertex e)) = true ∧
     wrap32 (vertexGetDistanceFromSource (graphGetVertex st.g u) + edgeGetDistance e) <
       vertexGetDistanceFromSource (graphGetVertex st.g (edgeGetEndVertex e)) ∧
     relaxEdge u st e = minHeapDecreaseNodeValue
       ⟨vertexSetPrevious (vertexSetDistanceFromSource st.g (edgeGetEndVertex e)
          (wrap32 (vertexGetDistanceFromSource (graphGetVertex st.g u) + edgeGetDistance e)))
          (edgeGetEndVertex e) (some u), st.h⟩ (edgeGetEndVertex e)) := by
  simp only [relaxEdge]
  split
  · exact Or.inl rfl
  · rename_i h1
    split
    · rename_i h2
      exact Or.inr ⟨h1, h2, rfl⟩
    · exact Or.inl rfl

/-- `relaxEdge` never changes any visited flag, never changes the heap array
length, and never changes the distance or predecessor of a visited vertex. -/
theorem relaxEdge_untouched (u : Nat) (st : St) (e : Edge) (j : Nat) :
    visOf (relaxEdge u st e).g j = visOf st.g j ∧
    (visOf st.g j = true →
      distOf (relaxEdge u st e).g j = distOf st.g j ∧
      prevOf (relaxEdge u st e).g j = prevOf st.g j) := by
  rcases relaxEdge_eq u st e with heq | ⟨hunvis, _, heq⟩
  · rw [heq]
    exact ⟨rfl, fun _ => ⟨rfl, rfl⟩⟩
  · rw [heq]
    have hdec := minHeapDecreaseNodeValue_g_EqButPos
      ⟨vertexSetPrevious (vertexSetDistanceFromSource st.g (edgeGetEndVertex e)
          (wrap32 (vertexGetDistanceFromSource (graphGetVertex st.g u) + edgeGetDistance e)))
          (edgeGetEndVertex e) (some u), st.h⟩ (edgeGetEndVertex e)
    constructor
    · rw [← (hdec.2 j).2.2.1]
      show visOf (vertexSetPrevious _ _ _) j = visOf st.g j
      rw [(setPrev_fields _ _ _ j).2.1, (setDist_fields _ _ _ j).2.1]
    · intro hvis
      have hne : edgeGetEndVertex e ≠ j := by
        intro hc
        rw [← hc] at hvis
        exact hunvis hvis
      constructor
      · rw [← (hdec.2 j).1]
        show distOf (vertexSetPrevious _ _ _) j = distOf st.g j
        rw [(setPrev_fields _ _ _ j).1, (setDist_fields _ _ _ j).2.2.2.1 hne]
      · rw [← (hdec.2 j).2.1]
        show prevOf (vertexSetPrevious _ _ _) j = prevOf st.g j
        rw [(setPrev_fields _ _ _ j).2.2.2.1 hne, (setDist_fields _ _ _ j).1]

theorem relaxEdge_skeleton (u : Nat) (st : St) (e : Edge) :
    SameSkeleton st.g (relaxEdge u st e).g := by
  rcases relaxEdge_eq u st e with heq | ⟨_, _, heq⟩
  · rw [heq]
    exact SameSkeleton.refl' _
  · rw [heq]
    refine ((SameSkeleton_setDist st.g (edgeGetEndVertex e)
        (wrap32 (vertexGetDistanceFromSource (graphGetVertex st.g u) + edgeGetDistance e))).trans'
      (SameSkeleton_setPrev _ (edgeGetEndVertex e) (some u))).trans' ?_
    exact (minHeapDecreaseNodeValue_g_EqButPos
      ⟨vertexSetPrevious (vertexSetDistanceFromSource st.g (edgeGetEndVertex e)
          (wrap32 (vertexGetDistanceFromSource (graphGetVertex st.g u) + edgeGetDistance e)))
          (edgeGetEndVertex e) (some u), st.h⟩ (edgeGetEndVertex e)).sameSkeleton

theorem relaxFold_skeleton (u : Nat) : ∀ (es : List Edge) (st : St),
    SameSkeleton st.g ((es.foldl (relaxEdge u) st)).g := by
  intro es
  induction es with
  | nil => intro st; exact SameSkeleton.refl' _
  | cons e es ih =>
    intro st
    rw [List.foldl_cons]
    exact (relaxEdge_skeleton u st e).trans' (ih _)

/-- Relaxing an edge of the source, with the source's distance still `0` and
the edge weight in `[1, INT_MAX]`, never rewrites the source's distance or
predecessor: for a self-loop the wrapped sum is exactly the (positive) weight,
which is not below `0`. -/
theorem relaxEdge_source (s : Nat) (st : St) (e : Edge)
    (hw1 : 1 ≤ e.distance) (hw2 : e.distance ≤ INT_MAX)
    (hd : distOf st.g s = 0) (hp : prevOf st.g s = none) :
    distOf (relaxEdge s st e).g s = 0 ∧ prevOf (relaxEdge s st e).g s = none := by
  rcases relaxEdge_eq s st e with heq | ⟨hunvis, hlt, heq⟩
  · rw [heq]
    exact ⟨hd, hp⟩
  · have hne : edgeGetEndVertex e ≠ s := by
      intro hc
      rw [hc] at hlt
      have h0 : vertexGetDistanceFromSource (graphGetVertex st.g s) = 0 := hd
      rw [h0, zero_add] at hlt
      have hwr : wrap32 (edgeGetDistance e) = edgeGetDistance e :=
        wrap32_eq_self (by simp only [edgeGetDistance]; simp only [INT_MAX] at hw2; omega)
          (by simp only [edgeGetDistance]; simp only [INT_MAX] at hw2; omega)
      rw [hwr] at hlt
      simp only [edgeGetDistance] at hlt
      omega
    rw [heq]
    have hdec := minHeapDecreaseNodeValue_g_EqButPos
      ⟨vertexSetPrevious (vertexSetDistanceFromSource st.g (edgeGetEndVertex e)
          (wrap32 (vertexGetDistanceFromSource (graphGetVertex st.g s) + edgeGetDistance e)))
          (edgeGetEndVertex e) (some s), st.h⟩ (edgeGetEndVertex e)
    constructor
    · rw [← (hdec.2 s).1]
      show distOf (vertexSetPrevious _ _ _) s = 0
      rw [(setPrev_fields _ _ _ s).1, (setDist_fields _ _ _ s).2.2.2.1 hne]
      exact hd
    · rw [← (hdec.2 s).2.1]
      show prevOf (vertexSetPrevious _ _ _) s = none
      rw [(setPrev_fields _ _ _ s).2.2.2.1 hne, (setDist_fields _ _ _ s).1]
      exact hp

theorem relaxFold_source (s : Nat) : ∀ (es : List Edge) (st : St),
    (∀ e ∈ es, 1 ≤ e.distance ∧ e.distance ≤ INT_MAX) →
    distOf st.g s = 0 → prevOf st.g s = none →
    distOf ((es.foldl (relaxEdge s) st)).g s = 0 ∧
    prevOf ((es.foldl (relaxEdge s) st)).g s = none := by
  intro es
  induction es with
  | nil => intro st _ hd hp; exact ⟨hd, hp⟩
  | cons e es ih =>
    intro st hw hd hp
    rw [List.foldl_cons]
    obtain ⟨hd', hp'⟩ := relaxEdge_source s st e (hw e (by simp)).1 (hw e (by simp)).2 hd hp
    exact ih _ (fun e' he' => hw e' (by simp [he'])) hd' hp'

theorem relaxFold_visited (u s : Nat) : ∀ (es : List Edge) (st : St),
    visOf st.g s = true →
    distOf ((es.foldl (relaxEdge u) st)).g s = distOf st.g s ∧
    prevOf ((es.foldl (relaxEdge u) st)).g s = prevOf st.g s ∧
    visOf ((es.foldl (relaxEdge u) st)).g s = true := by
  intro es
  induction es with
  | nil => intro st hv; exact ⟨rfl, rfl, hv⟩
  | cons e es ih =>
    intro st hv
    rw [List.foldl_cons]
    obtain ⟨hvis, hut⟩ := relaxEdge_untouched u st e s
    have hv' : visOf (relaxEdge u st e).g s = true := by rw [hvis]; exact hv
    obtain ⟨hd1, hp1⟩ := hut hv
    obtain ⟨hd2, hp2, hv2⟩ := ih (relaxEdge u st e) hv'
    exact ⟨hd2.trans hd1, hp2.trans hp1, hv2⟩

/-- Once the source is visited with distance `0` and no predecessor, the rest
of the relaxation loop keeps it that way. -/
theorem relaxLoop_inv6 (s : Nat) : ∀ (fuel : Nat) (st : St),
    distOf st.g s = 0 → prevOf st.g s = none → visOf st.g s = true →
    distOf (relaxLoop fuel st).g s = 0 ∧ prevOf (relaxLoop fuel st).g s = none ∧
    visOf (relaxLoop fuel st).g s = true := by
  intro fuel
  induction fuel with
  | zero => intro st hd hp hv; exact ⟨hd, hp, hv⟩
  | succ fuel ih =>
    intro st hd hp hv
    simp only [relaxLoop]
    split
    · exact ⟨hd, hp, hv⟩
    · have heq1 := minHeapDequeue_g_EqButPos st
      have hd1 : distOf (minHeapDequeue st).1.g s = 0 := by
        rw [← (heq1.2 s).1]; exact hd
      have hp1 : prevOf (minHeapDequeue st).1.g s = none := by
        rw [← (heq1.2 s).2.1]; exact hp
      have hv1 : visOf (minHeapDequeue st).1.g s = true := by
        rw [← (heq1.2 s).2.2.1]; exact hv
      obtain ⟨hd2, hp2, hv2⟩ := relaxFold_visited (minHeapDequeue st).2 s
        ((graphGetVertex (minHeapDequeue st).1.g (minHeapDequeue st).2).edges)
        (minHeapDequeue st).1 hv1
      refine ih _ ?_ ?_ ?_
      · show distOf (vertexSetIsVisited _ _) s = 0
        rw [(setVis_fields _ _ s).1, hd2]
        exact hd1
      · show prevOf (vertexSetIsVisited _ _) s = none
        rw [(setVis_fields _ _ s).2.1, hp2]
        exact hp1
      · exact visOf_setVis_mono _ _ _ hv2

/-- Claim C6: for a valid source and edge weights in `[1, INT_MAX]`, the
completed run leaves the source with distance `0` and no predecessor. -/
theorem c6_source_fixed (g : Graph) (s : Nat)
    (hs : s < graphGetNumberOfCities g)
    (hw : ∀ i, i < graphGetNumberOfCities g →
      ∀ e ∈ (graphGetVertex g i).edges, 1 ≤ e.distance ∧ e.distance ≤ INT_MAX) :
    distOf (dijkstras g [] s).g s = 0 ∧ prevOf (dijkstras g [] s).g s = none := by
  obtain ⟨hskel, hlen, hperm, hWF, hsync, hds, hdist, hpv⟩ := dijkstrasReset_inv g s hs
  simp only [dijkstras]
  rw [hlen]
  obtain ⟨m, hm⟩ : ∃ m, graphGetNumberOfCities g = m + 1 :=
    ⟨graphGetNumberOfCities g - 1, by omega⟩
  rw [hm]
  simp only [relaxLoop]
  rw [if_neg (by simp [minHeapIsEmpty, hlen, hm])]
  have hne : 0 < (dijkstrasReset g [] s).h.length := by omega
  have hu : (minHeapDequeue (dijkstrasReset g [] s)).2 = s := by
    rw [(minHeapDequeue_spec (dijkstrasReset g [] s) hWF hsync hne).1]
    exact root_is_source g s (dijkstrasReset g [] s) hs
      ⟨hskel, hlen, hperm, hWF, hsync, hds, hdist, hpv⟩
  rw [hu]
  have heq1 := minHeapDequeue_g_EqButPos (dijkstrasReset g [] s)
  have hedges : (graphGetVertex (minHeapDequeue (dijkstrasReset g [] s)).1.g s).edges =
      (graphGetVertex g s).edges := by
    rw [← ((heq1.sameSkeleton).2 s).1, ← (hskel.2 s).1]
  rw [hedges]
  have hd1 : distOf (minHeapDequeue (dijkstrasReset g [] s)).1.g s = 0 := by
    rw [← (heq1.2 s).1]; exact hds
  have hp1 : prevOf (minHeapDequeue (dijkstrasReset g [] s)).1.g s = none := by
    rw [← (heq1.2 s).2.1]; exact (hpv s hs).1
  obtain ⟨hd2, hp2⟩ := relaxFold_source s (graphGetVertex g s).edges
    (minHeapDequeue (dijkstrasReset g [] s)).1 (fun e he => hw s hs e he) hd1 hp1
  have hcount : s < graphGetNumberOfCities
      ((graphGetVertex g s).edges.foldl (relaxEdge s)
        (minHeapDequeue (dijkstrasReset g [] s)).1).g := by
    rw [← (relaxFold_skeleton s (graphGetVertex g s).edges
      (minHeapDequeue (dijkstrasReset g [] s)).1).1, ← heq1.1, ← hskel.1]
    exact hs
  refine (relaxLoop_inv6 s m _ ?_ ?_ ?_).imp id (fun h => h.1)
  · show distOf (vertexSetIsVisited _ _) s = 0
    rw [(setVis_fields _ _ s).1]
    exact hd2
  · show prevOf (vertexSetIsVisited _ _) s = none
    rw [(setVis_fields _ _ s).2.1]
    exact hp2
  · exact (setVis_fields _ s s).2.2.2.2 rfl hcount

theorem c6_source_fixed_witness :
    distOf (dijkstras gTwoIslands [] 0).g 0 = 0 ∧
    prevOf (dijkstras gTwoIslands [] 0).g 0 = none :=
  c6_source_fixed gTwoIslands 0 (by decide) (by decide)

theorem PredChain.shape {g : Graph} {s v : Nat} {l : List Nat} {es : List Edge}
    (h : PredChain g s v l es) : ∃ l', l = v :: l' := by
  cases h with
  | src hp hd => exact ⟨[], rfl⟩
  | step e hch he hev hprev hdist hnew => exact ⟨_, rfl⟩

theorem PredChain.self_mem {g : Graph} {s v : Nat} {l : List Nat} {es : List Edge}
    (h : PredChain g s v l es) : v ∈ l := by
  obtain ⟨l', rfl⟩ := h.shape
  exact List.mem_cons_self _ _

theorem PredChain.nodup {g : Graph} {s v : Nat} {l : List Nat} {es : List Edge}
    (h : PredChain g s v l es) : l.Nodup := by
  induction h with
  | src hp hd => exact List.nodup_singleton _
  | step e hch he hev hprev hdist hnew ih => exact List.nodup_cons.mpr ⟨hnew, ih⟩

theorem PredChain.last {g : Graph} {s v : Nat} {l : List Nat} {es : List Edge}
    (h : PredChain g s v l es) : l.getLast? = some s := by
  induction h with
  | src hp hd => rfl
  | step e hch he hev hprev hdist hnew ih =>
    obtain ⟨l', rfl⟩ := hch.shape
    rw [List.getLast?_cons_cons]
    exact ih

theorem PredChain.sum_eq {g : Graph} {s v : Nat} {l : List Nat} {es : List Edge}
    (h : PredChain g s v l es) : (es.map Edge.distance).sum = distOf g v := by
  induction h with
  | src hp hd => rw [hd]; rfl
  | step e hch he hev hprev hdist hnew ih =>
    rw [List.map_cons, List.sum_cons, hdist, ih]
    omega

theorem PredChain.dist_nonneg {g : Graph} {s v : Nat} {l : List Nat} {es : List Edge}
    (h : PredChain g s v l es)
    (hnn : ∀ i, ∀ e ∈ (graphGetVertex g i).edges, 0 ≤ e.distance) :
    0 ≤ distOf g v := by
  induction h with
  | src hp hd => rw [hd]
  | step e hch he hev hprev hdist hnew ih =>
    rw [hdist]
    have := hnn _ e he
    omega

theorem PredChain.mem_lt {g : Graph} {s v : Nat} {l : List Nat} {es : List Edge}
    (h : PredChain g s v l es) (hs : s < graphGetNumberOfCities g)
    (hend : ∀ i, ∀ e ∈ (graphGetVertex g i).edges,
      e.endVertex < graphGetNumberOfCities g) :
    ∀ x ∈ l, x < graphGetNumberOfCities g := by
  induction h with
  | src hp hd =>
    intro x hx
    rw [List.mem_singleton] at hx
    subst hx
    exact hs
  | step e hch he hev hprev hdist hnew ih =>
    intro x hx
    rcases List.mem_cons.mp hx with rfl | hx'
    · rw [← hev]
      exact hend _ e he
    · exact ih x hx'

/-- Transport of a chain to a state that agrees on the chain's vertices. -/
theorem PredChain.congr {g g' : Graph} {s v : Nat} {l : List Nat} {es : List Edge}
    (h : PredChain g s v l es)
    (hfields : ∀ x ∈ l, distOf g' x = distOf g x ∧ prevOf g' x = prevOf g x ∧
      (graphGetVertex g' x).edges = (graphGetVertex g x).edges) :
    PredChain g' s v l es := by
  induction h with
  | src hp hd =>
    obtain ⟨hd', hp', _⟩ := hfields s (List.mem_singleton.mpr rfl)
    exact .src (by rw [hp']; exact hp) (by rw [hd']; exact hd)
  | step e hch he hev hprev hdist hnew ih =>
    rename_i u v l es
    have hu : u ∈ v :: l := List.mem_cons_of_mem _ hch.self_mem
    have hv : v ∈ v :: l := List.mem_cons_self _ _
    refine .step e (ih ?_) ?_ hev ?_ ?_ hnew
    · intro x hx
      exact hfields x (List.mem_cons_of_mem _ hx)
    · rw [(hfields u hu).2.2]
      exact he
    · rw [(hfields v hv).2.1]
      exact hprev
    · rw [(hfields v hv).1, (hfields u hu).1]
      exact hdist

/-! ## Sum bounds for chains -/

theorem sum_le_of_sublist : ∀ {l1 l2 : List Int}, l1.Sublist l2 →
    (∀ x ∈ l2, 0 ≤ x) → l1.sum ≤ l2.sum := by
  intro l1 l2 h
  induction h with
  | slnil => intro _; exact le_refl _
  | cons a h ih =>
    intro hnn
    rw [List.sum_cons]
    have h0 : (0 : Int) ≤ a := hnn a (List.mem_cons_self _ _)
    have := ih (fun x hx => hnn x (List.mem_cons_of_mem _ hx))
    omega
  | cons₂ a h ih =>
    intro hnn
    rw [List.sum_cons, List.sum_cons]
    have := ih (fun x hx => hnn x (List.mem_cons_of_mem _ hx))
    omega

theorem sum_le_of_subperm {l1 l2 : List Int} (h : l1.Subperm l2)
    (hnn : ∀ x ∈ l2, 0 ≤ x) : l1.sum ≤ l2.sum := by
  obtain ⟨l', hp, hsub⟩ := h
  rw [← hp.sum_eq]
  exact sum_le_of_sublist hsub hnn

theorem single_le_sum_list : ∀ {l : List Int}, (∀ x ∈ l, 0 ≤ x) →
    ∀ {a : Int}, a ∈ l → a ≤ l.sum := by
  intro l
  induction l with
  | nil => intro _ a ha; simp at ha
  | cons b l ih =>
    intro hnn a ha
    rw [List.sum_cons]
    have hb : (0 : Int) ≤ b := hnn b (List.mem_cons_self _ _)
    rcases List.mem_cons.mp ha with rfl | ha'
    · have : (0 : Int) ≤ l.sum := by
        have : ∀ x ∈ l, (0 : Int) ≤ x := fun x hx => hnn x (List.mem_cons_of_mem _ hx)
        calc (0 : Int) = (List.nil (α := Int)).sum := rfl
        _ ≤ l.sum := sum_le_of_sublist (List.nil_sublist l) this
      omega
    · have := ih (fun x hx => hnn x (List.mem_cons_of_mem _ hx)) ha'
      omega

theorem vertexWeightSum_nonneg (g : Graph) (i : Nat)
    (hnn : ∀ e ∈ (graphGetVertex g i).edges, 0 ≤ e.distance) :
    0 ≤ vertexWeightSum g i := by
  have : ∀ x ∈ (graphGetVertex g i).edges.map Edge.distance, (0 : Int) ≤ x := by
    intro x hx
    obtain ⟨e, he, rfl⟩ := List.mem_map.mp hx
    exact hnn e he
  calc (0 : Int) = (List.nil (α := Int)).sum := rfl
  _ ≤ vertexWeightSum g i := sum_le_of_sublist (List.nil_sublist _) this

theorem chain_subtotals {g : Graph} {s v : Nat} {l : List Nat} {es : List Edge}
    (h : PredChain g s v l es)
    (hnn : ∀ i, ∀ e ∈ (graphGetVertex g i).edges, 0 ≤ e.distance) :
    (es.map Edge.distance).sum ≤ (l.tail.map (vertexWeightSum g)).sum := by
  induction h with
  | src hp hd => exact le_refl _
  | step e hch he hev hprev hdist hnew ih =>
    rename_i u v l es
    obtain ⟨l', hl⟩ := hch.shape
    have hwe : e.distance ≤ vertexWeightSum g u :=
      single_le_sum_list
        (by
          intro x hx
          obtain ⟨e', he', rfl⟩ := List.mem_map.mp hx
          exact hnn _ e' he')
        (List.mem_map_of_mem _ he)
    have hstep : (l.tail.map (vertexWeightSum g)).sum + vertexWeightSum g u =
        (l.map (vertexWeightSum g)).sum := by
      rw [hl]
      simp only [List.tail_cons, List.map_cons, List.sum_cons]
      omega
    rw [List.map_cons, List.sum_cons, List.tail_cons]
    omega

theorem list_map_subtotal_le_total (g : Graph) (l : List Nat) (hnd : l.Nodup)
    (hlt : ∀ x ∈ l, x < graphGetNumberOfCities g)
    (hnn : ∀ i, ∀ e ∈ (graphGetVertex g i).edges, 0 ≤ e.distance) :
    (l.map (vertexWeightSum g)).sum ≤ totalWeight g := by
  obtain ⟨lm, hpm, hsm⟩ : l.Subperm (List.range (graphGetNumberOfCities g)) :=
    hnd.subperm (fun x hx => List.mem_range.mpr (hlt x hx))
  have hmap : (l.map (vertexWeightSum g)).Subperm
      ((List.range (graphGetNumberOfCities g)).map (vertexWeightSum g)) :=
    ⟨lm.map (vertexWeightSum g), hpm.map _, hsm.map _⟩
  refine sum_le_of_subperm hmap ?_
  intro x hx
  obtain ⟨i, _, rfl⟩ := List.mem_map.mp hx
  exact vertexWeightSum_nonneg g i (fun e he => hnn i e he)

/-- The chain sum, even extended by one more edge out of the endpoint, stays
below the total stored weight: the chain owners and the endpoint are
pairwise-distinct vertices. -/
theorem chain_ext_le_total {g : Graph} {s v : Nat} {l : List Nat} {es : List Edge}
    (h : PredChain g s v l es)
    (hnn : ∀ i, ∀ e ∈ (graphGetVertex g i).edges, 0 ≤ e.distance)
    (hlt : ∀ x ∈ l, x < graphGetNumberOfCities g) :
    (∀ e' ∈ (graphGetVertex g v).edges,
      (es.map Edge.distance).sum + e'.distance ≤ totalWeight g) ∧
    (es.map Edge.distance).sum ≤ totalWeight g := by
  obtain ⟨l', hl⟩ := h.shape
  have h1 := chain_subtotals h hnn
  have h2 := list_map_subtotal_le_total g l h.nodup hlt hnn
  have hvsub : (l.tail.map (vertexWeightSum g)).sum + vertexWeightSum g v =
      (l.map (vertexWeightSum g)).sum := by
    rw [hl]
    simp only [List.tail_cons, List.map_cons, List.sum_cons]
    omega
  constructor
  · intro e' he'
    have hwe : e'.distance ≤ vertexWeightSum g v :=
      single_le_sum_list
        (by
          intro x hx
          obtain ⟨e2, he2, rfl⟩ := List.mem_map.mp hx
          exact hnn _ e2 he2)
        (List.mem_map_of_mem _ he')
    omega
  · have hv0 : 0 ≤ vertexWeightSum g v :=
      vertexWeightSum_nonneg g v (fun e he => hnn v e he)
    omega

theorem graphGetVertex_of_le (g : Graph) (i : Nat)
    (h : graphGetNumberOfCities g ≤ i) : graphGetVertex g i = defaultVertex :=
  getD_len_le _ _ _ h

/-- Weight facts transported to any state with the skeleton of a well-formed
graph (out-of-range vertices have no edges at all). -/
theorem edges_facts_of_skeleton {g0 g : Graph} (hwf : WFGraph g0)
    (hskel : SameSkeleton g0 g) :
    ∀ i, ∀ e ∈ (graphGetVertex g i).edges,
      e.endVertex < graphGetNumberOfCities g ∧ 1 ≤ e.distance ∧
      e ∈ (graphGetVertex g0 i).edges := by
  intro i e he
  by_cases hi : i < graphGetNumberOfCities g0
  · have he0 : e ∈ (graphGetVertex g0 i).edges := by
      rw [(hskel.2 i).1]
      exact he
    obtain ⟨_, h2⟩ := hwf i hi
    obtain ⟨h3, h4⟩ := h2 e he0
    exact ⟨by rw [← hskel.1]; exact h3, h4, he0⟩
  · rw [(hskel.2 i).1.symm, graphGetVertex_of_le g0 i (Nat.le_of_not_lt hi)] at he
    simp [defaultVertex] at he

theorem Reach_lt {g0 : Graph} {s : Nat} (hwf : WFGraph g0)
    (hs : s < graphGetNumberOfCities g0) :
    ∀ {x : Nat}, Reach g0 s x → x < graphGetNumberOfCities g0 := by
  intro x h
  induction h with
  | refl => exact hs
  | step e hr he ih => exact ((hwf _ ih).2 e he).1

theorem totalWeight_of_skeleton {g g' : Graph} (hskel : SameSkeleton g g') :
    totalWeight g' = totalWeight g := by
  unfold totalWeight
  rw [← hskel.1]
  congr 1
  refine List.map_congr_left ?_
  intro i _
  unfold vertexWeightSum
  rw [(hskel.2 i).1]

theorem totalWeight_nonneg (g : Graph)
    (hnn : ∀ i, ∀ e ∈ (graphGetVertex g i).edges, 0 ≤ e.distance) :
    0 ≤ totalWeight g := by
  unfold totalWeight
  have : ∀ x ∈ (List.range (graphGetNumberOfCities g)).map (vertexWeightSum g),
      (0 : Int) ≤ x := by
    intro x hx
    obtain ⟨i, _, rfl⟩ := List.mem_map.mp hx
    exact vertexWeightSum_nonneg g i (fun e he => hnn i e he)
  calc (0 : Int) = (List.nil (α := Int)).sum := rfl
  _ ≤ _ := sum_le_of_sublist (List.nil_sublist _) this

theorem unvisited_nodup (g : Graph) : (unvisited g).Nodup :=
  (List.nodup_range _).filter _

theorem unvisited_mem (g : Graph) (v : Nat) :
    v ∈ unvisited g ↔ v < graphGetNumberOfCities g ∧ visOf g v = false := by
  unfold unvisited
  rw [List.mem_filter, List.mem_range]
  simp

theorem unvisited_congr {g g' : Graph}
    (hn : graphGetNumberOfCities g = graphGetNumberOfCities g')
    (hv : ∀ j, visOf g j = visOf g' j) : unvisited g = unvisited g' := by
  unfold unvisited
  rw [← hn]
  exact List.filter_congr (fun i _ => by rw [hv])

theorem unvisited_setVis (g : Graph) (u : Nat) (hu : u < graphGetNumberOfCities g) :
    unvisited (vertexSetIsVisited g u) = (unvisited g).erase u := by
  rw [(unvisited_nodup g).erase_eq_filter]
  unfold unvisited
  rw [numberOfCities_setVis, List.filter_filter]
  refine List.filter_congr ?_
  intro i hi
  by_cases hiu : i = u
  · subst hiu
    rw [(setVis_fields g i i).2.2.2.2 rfl hu]
    simp
  · rw [(setVis_fields g u i).2.2.2.1 (fun hc => hiu hc.symm)]
    simp [hiu]

/-- Locate the heap slot of an enqueued vertex. -/
theorem verts_slot {st : St} (hP : posOK st) (hsync : heapSync st) {v : Nat}
    (hv : v ∈ heapVerts st) :
    ∃ k, k < st.h.length ∧ (heapGet st k).vertex = v ∧ posOf st.g v = (k : Int) ∧
      heapVal st k = distOf st.g v := by
  obtain ⟨nd, hnd, hndv⟩ := List.mem_map.mp hv
  obtain ⟨k, hk, hkeq⟩ := List.mem_iff_getElem.mp hnd
  have hget : heapGet st k = nd := by
    rw [heapGet, getD_eq_getElem _ _ _ hk]
    exact hkeq
  obtain ⟨_, _, hpo⟩ := hP k hk
  have hvk : (heapGet st k).vertex = v := by rw [hget]; exact hndv
  rw [hvk] at hpo
  refine ⟨k, hk, hvk, hpo, ?_⟩
  have hpair : (nd.vertex, nd.value) ∈ heapPairs st := List.mem_map_of_mem _ hnd
  have := hsync _ hpair
  simp only at this
  rw [heapVal, hget, this, hndv]

/-- The three-way case split of `relaxEdge`. -/
theorem relaxEdge_cases (u : Nat) (st : St) (e : Edge) :
    (vertexIsVisited (graphGetVertex st.g (edgeGetEndVertex e)) = true ∧
      relaxEdge u st e = st) ∨
    (¬ vertexIsVisited (graphGetVertex st.g (edgeGetEndVertex e)) = true ∧
     ¬ wrap32 (vertexGetDistanceFromSource (graphGetVertex st.g u) + edgeGetDistance e) <
       vertexGetDistanceFromSource (graphGetVertex st.g (edgeGetEndVertex e)) ∧
     relaxEdge u st e = st) ∨
    (¬ vertexIsVisited (graphGetVertex st.g (edgeGetEndVertex e)) = true ∧
     wrap32 (vertexGetDistanceFromSource (graphGetVertex st.g u) + edgeGetDistance e) <
       vertexGetDistanceFromSource (graphGetVertex st.g (edgeGetEndVertex e)) ∧
     relaxEdge u st e = minHeapDecreaseNodeValue
       ⟨vertexSetPrevious (vertexSetDistanceFromSource st.g (edgeGetEndVertex e)
          (wrap32 (vertexGetDistanceFromSource (graphGetVertex st.g u) + edgeGetDistance e)))
          (edgeGetEndVertex e) (some u), st.h⟩ (edgeGetEndVertex e)) := by
  simp only [relaxEdge]
  split
  · rename_i h1
    exact Or.inl ⟨h1, rfl⟩
  · rename_i h1
    split
    · rename_i h2
      exact Or.inr (Or.inr ⟨h1, h2, rfl⟩)
    · rename_i h2
      exact Or.inr (Or.inl ⟨h1, h2, rfl⟩)

/-- Distances never increase under a relaxation step. -/
theorem relaxEdge_dist_le (u : Nat) (st : St) (e : Edge) (j : Nat) :
    distOf (relaxEdge u st e).g j ≤ distOf st.g j := by
  rcases relaxEdge_cases u st e with ⟨_, heq⟩ | ⟨_, _, heq⟩ | ⟨_, hlt, heq⟩
  · rw [heq]
  · rw [heq]
  · rw [heq]
    have hdec := minHeapDecreaseNodeValue_g_EqButPos
      ⟨vertexSetPrevious (vertexSetDistanceFromSource st.g (edgeGetEndVertex e)
          (wrap32 (vertexGetDistanceFromSource (graphGetVertex st.g u) + edgeGetDistance e)))
          (edgeGetEndVertex e) (some u), st.h⟩ (edgeGetEndVertex e)
    rw [← (hdec.2 j).1]
    show distOf (vertexSetPrevious _ _ _) j ≤ distOf st.g j
    rw [(setPrev_fields _ _ _ j).1]
    by_cases hj : edgeGetEndVertex e = j
    · subst hj
      by_cases hn : edgeGetEndVertex e < graphGetNumberOfCities st.g
      · rw [(setDist_fields _ _ _ _).2.2.2.2 rfl hn]
        exact le_of_lt hlt
      · have hnoop : vertexSetDistanceFromSource st.g (edgeGetEndVertex e)
            (wrap32 (vertexGetDistanceFromSource (graphGetVertex st.g u) + edgeGetDistance e)) =
            st.g := by
          simp only [vertexSetDistanceFromSource]
          rw [graphSetVertex_of_le _ _ _ (Nat.le_of_not_lt hn)]
        rw [hnoop]
    · rw [(setDist_fields _ _ _ _).2.2.2.1 hj]

/-! ## The relaxation-loop invariants (for C5) -/

/-- Field effect of the relaxation update `dist v := d; prev v := p` followed
by the decrease-key call: only vertex `v`'s distance and predecessor change
(the decrease-key touches `positionInHeap` records only). -/
theorem decrease_after_set_fields (g : Graph) (h : List Node) (v : Nat) (d : Int)
    (p : Option Nat) (hn : v < graphGetNumberOfCities g) :
    distOf (minHeapDecreaseNodeValue
      ⟨vertexSetPrevious (vertexSetDistanceFromSource g v d) v p, h⟩ v).g v = d ∧
    prevOf (minHeapDecreaseNodeValue
      ⟨vertexSetPrevious (vertexSetDistanceFromSource g v d) v p, h⟩ v).g v = p ∧
    (∀ j, j ≠ v →
      distOf (minHeapDecreaseNodeValue
        ⟨vertexSetPrevious (vertexSetDistanceFromSource g v d) v p, h⟩ v).g j = distOf g j ∧
      prevOf (minHeapDecreaseNodeValue
        ⟨vertexSetPrevious (vertexSetDistanceFromSource g v d) v p, h⟩ v).g j = prevOf g j) ∧
    (∀ j, visOf (minHeapDecreaseNodeValue
      ⟨vertexSetPrevious (vertexSetDistanceFromSource g v d) v p, h⟩ v).g j = visOf g j) ∧
    graphGetNumberOfCities (minHeapDecreaseNodeValue
      ⟨vertexSetPrevious (vertexSetDistanceFromSource g v d) v p, h⟩ v).g =
      graphGetNumberOfCities g := by
  have hdec := minHeapDecreaseNodeValue_g_EqButPos
    ⟨vertexSetPrevious (vertexSetDistanceFromSource g v d) v p, h⟩ v
  have hv1 : v < graphGetNumberOfCities (vertexSetDistanceFromSource g v d) := by
    rw [numberOfCities_setDist]
    exact hn
  refine ⟨?_, ?_, ?_, ?_, ?_⟩
  · rw [← (hdec.2 v).1]
    show distOf (vertexSetPrevious _ _ _) v = d
    rw [(setPrev_fields _ _ _ v).1, (setDist_fields g v d v).2.2.2.2 rfl hn]
  · rw [← (hdec.2 v).2.1]
    show prevOf (vertexSetPrevious _ _ _) v = p
    rw [(setPrev_fields _ _ _ v).2.2.2.2 rfl hv1]
  · intro j hj
    have hvj : v ≠ j := fun hc => hj hc.symm
    constructor
    · rw [← (hdec.2 j).1]
      show distOf (vertexSetPrevious _ _ _) j = distOf g j
      rw [(setPrev_fields _ _ _ j).1, (setDist_fields g v d j).2.2.2.1 hvj]
    · rw [← (hdec.2 j).2.1]
      show prevOf (vertexSetPrevious _ _ _) j = prevOf g j
      rw [(setPrev_fields _ _ _ j).2.2.2.1 hvj, (setDist_fields g v d j).1]
  · intro j
    rw [← (hdec.2 j).2.2.1]
    show visOf (vertexSetPrevious _ _ _) j = visOf g j
    rw [(setPrev_fields _ _ _ j).2.1, (setDist_fields g v d j).2.1]
  · rw [← hdec.1]
    show graphGetNumberOfCities (vertexSetPrevious _ _ _) = _
    rw [numberOfCities_setPrev, numberOfCities_setDist]

theorem cleanFold_step (g0 : Graph) (s u : Nat) (hwf : WFGraph g0)
    (htot : totalWeight g0 < INT_MAX) (hs : s < graphGetNumberOfCities g0)
    (t : St) (e : Edge) (he0 : e ∈ (graphGetVertex g0 u).edges)
    (hcf : CleanFold g0 s u t) :
    CleanFold g0 s u (relaxEdge u t e) ∧
    (visOf (relaxEdge u t e).g (edgeGetEndVertex e) = false →
      distOf (relaxEdge u t e).g (edgeGetEndVertex e) ≤
        distOf t.g u + edgeGetDistance e) ∧
    (∀ j, distOf (relaxEdge u t e).g j ≤ distOf t.g j) ∧
    (∀ j, visOf (relaxEdge u t e).g j = visOf t.g j) ∧
    distOf (relaxEdge u t e).g u = distOf t.g u := by
  obtain ⟨hskel, hWF, hsync, hperm, hun, huvis, hreachu,
    ⟨lu, esu, hchu, htailu⟩, hchains, hvisreach, hfront, hnb, hsrc⟩ := hcf
  have hnn : ∀ i, ∀ e' ∈ (graphGetVertex t.g i).edges, 0 ≤ e'.distance := by
    intro i e' he'
    have := (edges_facts_of_skeleton hwf hskel i e' he').2.1
    omega
  have hend : ∀ i, ∀ e' ∈ (graphGetVertex t.g i).edges,
      e'.endVertex < graphGetNumberOfCities t.g :=
    fun i e' he' => (edges_facts_of_skeleton hwf hskel i e' he').1
  have hnt : graphGetNumberOfCities t.g = graphGetNumberOfCities g0 := hskel.1.symm
  have hst : s < graphGetNumberOfCities t.g := by rw [hnt]; exact hs
  have he : e ∈ (graphGetVertex t.g u).edges := by
    rw [← (hskel.2 u).1]
    exact he0
  have hw1 : 1 ≤ e.distance := ((hwf u hun).2 e he0).2
  have hvend : edgeGetEndVertex e < graphGetNumberOfCities t.g := hend u e he
  have hlt_lu : ∀ x ∈ lu, x < graphGetNumberOfCities t.g := hchu.mem_lt hst hend
  have hsum := hchu.sum_eq
  have hext := (chain_ext_le_total hchu hnn hlt_lu).1 e he
  have htott : totalWeight t.g = totalWeight g0 := totalWeight_of_skeleton hskel
  have hdu0 : 0 ≤ distOf t.g u := hchu.dist_nonneg hnn
  have hbound : distOf t.g u + e.distance ≤ totalWeight g0 := by
    rw [← hsum, ← htott]
    exact hext
  have halt : wrap32 (vertexGetDistanceFromSource (graphGetVertex t.g u) + edgeGetDistance e) =
      distOf t.g u + e.distance := by
    show wrap32 (distOf t.g u + e.distance) = distOf t.g u + e.distance
    refine wrap32_eq_self (by omega) ?_
    simp only [INT_MAX] at htot
    omega
  rcases relaxEdge_cases u t e with ⟨hvis, heq⟩ | ⟨hunv, hnlt, heq⟩ | ⟨hunv, hlt, heq⟩
  · rw [heq]
    refine ⟨⟨hskel, hWF, hsync, hperm, hun, huvis, hreachu,
      ⟨lu, esu, hchu, htailu⟩, hchains, hvisreach, hfront, hnb, hsrc⟩, ?_, ?_, ?_, rfl⟩
    · intro hfalse
      have : visOf t.g (edgeGetEndVertex e) = true := hvis
      rw [hfalse] at this
      simp at this
    · intro j; exact le_refl _
    · intro j; rfl
  · rw [heq]
    refine ⟨⟨hskel, hWF, hsync, hperm, hun, huvis, hreachu,
      ⟨lu, esu, hchu, htailu⟩, hchains, hvisreach, hfront, hnb, hsrc⟩, ?_, ?_, ?_, rfl⟩
    · intro _
      rw [halt] at hnlt
      have : distOf t.g (edgeGetEndVertex e) ≤ distOf t.g u + e.distance := by
        have h9 : ¬ (distOf t.g u + e.distance <
            distOf t.g (edgeGetEndVertex e)) := hnlt
        omega
      exact this
    · intro j; exact le_refl _
    · intro j; rfl
  · -- update case
    have hvv : visOf t.g (edgeGetEndVertex e) = false := by
      revert hunv
      show ¬ visOf t.g (edgeGetEndVertex e) = true → _
      cases visOf t.g (edgeGetEndVertex e) <;> simp
    have hvne_u : edgeGetEndVertex e ≠ u := by
      intro hceq
      rw [hceq, halt] at hlt
      have : distOf t.g u + e.distance < distOf t.g u := hlt
      omega
    have hune_v : u ≠ edgeGetEndVertex e := fun hc => hvne_u hc.symm
    obtain ⟨hdv, hpv, hothers, hvisall, hcount⟩ :=
      decrease_after_set_fields t.g t.h (edgeGetEndVertex e)
        (wrap32 (vertexGetDistanceFromSource (graphGetVertex t.g u) + edgeGetDistance e))
        (some u) hvend
    rw [← heq] at hdv hpv hothers hvisall hcount
    -- heap bookkeeping via the decrease-key specification
    have hmemv : edgeGetEndVertex e ∈ heapVerts t := by
      refine hperm.symm.subset ((List.mem_erase_of_ne hvne_u).mpr ?_)
      exact (unvisited_mem t.g _).mpr ⟨hvend, hvv⟩
    obtain ⟨k, hk, hkv, hkpos, hkval⟩ := verts_slot hWF.2.2 hsync hmemv
    have hWFphi : WFHeap ⟨vertexSetPrevious (vertexSetDistanceFromSource t.g (edgeGetEndVertex e)
        (wrap32 (vertexGetDistanceFromSource (graphGetVertex t.g u) + edgeGetDistance e)))
        (edgeGetEndVertex e) (some u), t.h⟩ := by
      refine ⟨hWF.1, hWF.2.1, ?_⟩
      intro i hi
      have hi' : i < t.h.length := hi
      obtain ⟨h1, h2, h3⟩ := hWF.2.2 i hi'
      refine ⟨h1, ?_, ?_⟩
      · show (heapGet t i).vertex < graphGetNumberOfCities (vertexSetPrevious _ _ _)
        rw [numberOfCities_setPrev, numberOfCities_setDist]
        exact h2
      · show posOf (vertexSetPrevious _ _ _) (heapGet t i).vertex = (i : Int)
        rw [(setPrev_fields _ _ _ _).2.2.1, (setDist_fields _ _ _ _).2.2.1]
        exact h3
    have hsyncphi : ∀ p ∈ heapPairs (⟨vertexSetPrevious (vertexSetDistanceFromSource t.g
        (edgeGetEndVertex e)
        (wrap32 (vertexGetDistanceFromSource (graphGetVertex t.g u) + edgeGetDistance e)))
        (edgeGetEndVertex e) (some u), t.h⟩ : St), p.1 ≠ edgeGetEndVertex e →
        p.2 = distOf (vertexSetPrevious (vertexSetDistanceFromSource t.g (edgeGetEndVertex e)
          (wrap32 (vertexGetDistanceFromSource (graphGetVertex t.g u) + edgeGetDistance e)))
          (edgeGetEndVertex e) (some u)) p.1 := by
      intro p hp hpne
      have hp' : p ∈ heapPairs t := hp
      have hne' : edgeGetEndVertex e ≠ p.1 := fun hc => hpne hc.symm
      rw [(setPrev_fields _ _ _ p.1).1, (setDist_fields _ _ _ p.1).2.2.2.1 hne']
      exact hsync p hp'
    have hdecphi : distOf (vertexSetPrevious (vertexSetDistanceFromSource t.g (edgeGetEndVertex e)
        (wrap32 (vertexGetDistanceFromSource (graphGetVertex t.g u) + edgeGetDistance e)))
        (edgeGetEndVertex e) (some u)) (edgeGetEndVertex e) ≤
        heapVal (⟨vertexSetPrevious (vertexSetDistanceFromSource t.g (edgeGetEndVertex e)
          (wrap32 (vertexGetDistanceFromSource (graphGetVertex t.g u) + edgeGetDistance e)))
          (edgeGetEndVertex e) (some u), t.h⟩ : St)
        ((posOf (vertexSetPrevious (vertexSetDistanceFromSource t.g (edgeGetEndVertex e)
          (wrap32 (vertexGetDistanceFromSource (graphGetVertex t.g u) + edgeGetDistance e)))
          (edgeGetEndVertex e) (some u)) (edgeGetEndVertex e)).toNat) := by
      rw [(setPrev_fields _ _ _ _).1, (setDist_fields _ _ _ _).2.2.2.2 rfl hvend,
        (setPrev_fields _ _ _ _).2.2.1, (setDist_fields _ _ _ _).2.2.1, hkpos]
      have htn : ((k : Int)).toNat = k := by simp
      rw [htn]
      show wrap32 _ ≤ heapVal t k
      rw [hkval, halt]
      exact le_of_lt (by rw [halt] at hlt; exact hlt)
    obtain ⟨hWF', hsync', hvertsperm', hlen', heqp'⟩ :=
      minHeapDecreaseNodeValue_spec _ _ hWFphi hsyncphi hmemv hdecphi
    rw [← heq] at hWF' hsync' hvertsperm' hlen'
    have hvisres : ∀ j, visOf (relaxEdge u t e).g j = visOf t.g j := hvisall
    have hedgesres : ∀ x, (graphGetVertex (relaxEdge u t e).g x).edges =
        (graphGetVertex t.g x).edges :=
      fun x => ((relaxEdge_skeleton u t e).2 x).1.symm
    have hchain_congr : ∀ {w : Nat} {l : List Nat} {es : List Edge},
        PredChain t.g s w l es → (∀ x ∈ l, x ≠ edgeGetEndVertex e) →
        PredChain (relaxEdge u t e).g s w l es := by
      intro w l es hch hne
      refine hch.congr ?_
      intro x hx
      obtain ⟨hd, hp⟩ := hothers x (hne x hx)
      exact ⟨hd, hp, hedgesres x⟩
    have hchu' : PredChain (relaxEdge u t e).g s u lu esu := by
      refine hchain_congr hchu ?_
      intro x hx
      obtain ⟨lu', hlu⟩ := hchu.shape
      rcases (by rw [hlu] at hx; exact List.mem_cons.mp hx : x = u ∨ x ∈ lu') with rfl | hx'
      · exact fun hc => hvne_u hc.symm
      · have hvx : visOf t.g x = true := by
          refine htailu x ?_
          rw [hlu]
          exact hx'
        intro hc
        rw [hc, hvv] at hvx
        simp at hvx
    have hnewv : edgeGetEndVertex e ∉ lu := by
      intro hmem
      obtain ⟨lu', hlu⟩ := hchu.shape
      rcases (by rw [hlu] at hmem; exact List.mem_cons.mp hmem) with hceq | hmem'
      · exact hvne_u hceq
      · have : visOf t.g (edgeGetEndVertex e) = true := by
          refine htailu _ ?_
          rw [hlu]
          exact hmem'
        rw [hvv] at this
        simp at this
    have hchv : PredChain (relaxEdge u t e).g s (edgeGetEndVertex e)
        (edgeGetEndVertex e :: lu) (e :: esu) := by
      refine PredChain.step e hchu' ?_ rfl hpv ?_ hnewv
      · rw [hedgesres u]
        exact he
      · rw [hdv, halt, (hothers u hune_v).1]
    have hreachv : Reach g0 s (edgeGetEndVertex e) := Reach.step e hreachu he0
    refine ⟨⟨hskel.trans' (relaxEdge_skeleton u t e), hWF', hsync', ?_, hun,
      by rw [hvisres u]; exact huvis, hreachu, ⟨lu, esu, hchu', ?_⟩, ?_, ?_, ?_, ?_, ?_⟩,
      ?_, ?_, hvisres, (hothers u hune_v).1⟩
    · -- heap contents
      have hvv' : heapVerts (⟨vertexSetPrevious (vertexSetDistanceFromSource t.g
          (edgeGetEndVertex e)
          (wrap32 (vertexGetDistanceFromSource (graphGetVertex t.g u) + edgeGetDistance e)))
          (edgeGetEndVertex e) (some u), t.h⟩ : St) = heapVerts t := rfl
      rw [hvv'] at hvertsperm'
      refine (hvertsperm'.trans hperm).trans ?_
      rw [@unvisited_congr t.g (relaxEdge u t e).g hcount.symm
        (fun j => (hvisres j).symm)]
    · intro x hx
      rw [hvisres x]
      exact htailu x hx
    · -- ChainsOK
      intro w hw hvisw hreachw
      rw [hvisres w] at hvisw
      obtain ⟨l, es, hch, hsup⟩ := hchains w hw hvisw hreachw
      refine ⟨l, es, hchain_congr hch ?_, fun x hx => by rw [hvisres x]; exact hsup x hx⟩
      intro x hx hceq
      have := hsup x hx
      rw [hceq, hvv] at this
      simp at this
    · intro w hw hvisw
      rw [hvisres w] at hvisw
      exact hvisreach w hw hvisw
    · -- frontier clause
      intro w hw hvisw hwne
      rw [hvisres w] at hvisw
      by_cases hwv : w = edgeGetEndVertex e
      · subst hwv
        refine Or.inr ⟨hreachv, edgeGetEndVertex e :: lu, e :: esu, hchv, ?_⟩
        intro x hx
        simp only [List.tail_cons] at hx
        obtain ⟨lu', hlu⟩ := hchu.shape
        rcases (by rw [hlu] at hx; exact List.mem_cons.mp hx) with rfl | hx'
        · exact Or.inr rfl
        · refine Or.inl ?_
          rw [hvisres x]
          refine htailu x ?_
          rw [hlu]
          exact hx'
      · rcases hfront w hw hvisw hwne with hmax | ⟨hreachw, l, es, hch, hsup⟩
        · refine Or.inl ?_
          rw [(hothers w (fun hc => hwv hc)).1]
          exact hmax
        · refine Or.inr ⟨hreachw, l, es, hchain_congr hch ?_, ?_⟩
          · intro x hx hceq
            obtain ⟨l', hl⟩ := hch.shape
            rcases (by rw [hl] at hx; exact List.mem_cons.mp hx) with rfl | hx'
            · exact hwv hceq
            · rcases hsup x (by rw [hl]; exact hx') with hvx | hxu
              · rw [hceq, hvv] at hvx
                simp at hvx
              · rw [hxu] at hceq
                exact hvne_u hceq.symm
          · intro x hx
            rcases hsup x hx with hvx | hxu
            · exact Or.inl (by rw [hvisres x]; exact hvx)
            · exact Or.inr hxu
    · -- neighbour bound clause
      intro x hx hvisx e' he' hvise'
      rw [hvisres x] at hvisx
      rw [hedgesres x] at he'
      rw [hvisres e'.endVertex] at hvise'
      have h1 : distOf (relaxEdge u t e).g e'.endVertex ≤ distOf t.g e'.endVertex :=
        relaxEdge_dist_le u t e e'.endVertex
      have h2 := hnb x hx hvisx e' he' hvise'
      have h3 : distOf (relaxEdge u t e).g x = distOf t.g x := by
        refine (hothers x ?_).1
        intro hc
        rw [hc, hvv] at hvisx
        simp at hvisx
      rw [h3]
      omega
    · -- source clause
      intro hvss
      rw [hvisres s] at hvss
      obtain ⟨hds, hps⟩ := hsrc hvss
      have hsne : s ≠ edgeGetEndVertex e := by
        intro hc
        rw [halt] at hlt
        have hz : vertexGetDistanceFromSource (graphGetVertex t.g (edgeGetEndVertex e)) = 0 := by
          rw [← hc]
          exact hds
        rw [hz] at hlt
        omega
      obtain ⟨hd', hp'⟩ := hothers s hsne
      rw [hd', hp']
      exact ⟨hds, hps⟩
    · -- the freshly established bound
      intro _
      rw [hdv, halt]
      show _ ≤ distOf t.g u + e.distance
      exact le_refl _
    · intro j
      exact relaxEdge_dist_le u t e j

theorem relaxFold_vis (u : Nat) : ∀ (es : List Edge) (st : St) (j : Nat),
    visOf ((es.foldl (relaxEdge u) st)).g j = visOf st.g j := by
  intro es
  induction es with
  | nil => intro st j; rfl
  | cons e es ih =>
    intro st j
    rw [List.foldl_cons, ih]
    exact (relaxEdge_untouched u st e j).1

theorem cleanFold_fold (g0 : Graph) (s u : Nat) (hwf : WFGraph g0)
    (htot : totalWeight g0 < INT_MAX) (hs : s < graphGetNumberOfCities g0) :
    ∀ (es : List Edge) (t : St),
    (∀ e ∈ es, e ∈ (graphGetVertex g0 u).edges) → CleanFold g0 s u t →
    CleanFold g0 s u (es.foldl (relaxEdge u) t) ∧
    (∀ j, visOf ((es.foldl (relaxEdge u) t)).g j = visOf t.g j) ∧
    (∀ j, distOf ((es.foldl (relaxEdge u) t)).g j ≤ distOf t.g j) ∧
    distOf ((es.foldl (relaxEdge u) t)).g u = distOf t.g u ∧
    (∀ e ∈ es, visOf ((es.foldl (relaxEdge u) t)).g (edgeGetEndVertex e) = false →
      distOf ((es.foldl (relaxEdge u) t)).g (edgeGetEndVertex e) ≤
        distOf ((es.foldl (relaxEdge u) t)).g u + edgeGetDistance e) := by
  intro es
  induction es with
  | nil =>
    intro t _ hcf
    exact ⟨hcf, fun j => rfl, fun j => le_refl _, rfl, fun e he => absurd he (by simp)⟩
  | cons e es ih =>
    intro t hmem hcf
    obtain ⟨hcf1, hbd1, hdle1, hvis1, hdu1⟩ :=
      cleanFold_step g0 s u hwf htot hs t e (hmem e (List.mem_cons_self _ _)) hcf
    obtain ⟨hcfF, hvisF, hdleF, hduF, hEF⟩ :=
      ih (relaxEdge u t e) (fun e' he' => hmem e' (List.mem_cons_of_mem _ he')) hcf1
    rw [List.foldl_cons]
    refine ⟨hcfF, fun j => (hvisF j).trans (hvis1 j),
      fun j => (hdleF j).trans (hdle1 j), hduF.trans hdu1, ?_⟩
    intro e' he' hvfin
    rcases List.mem_cons.mp he' with heq | he''
    · rw [heq] at hvfin ⊢
      have hv1 : visOf (relaxEdge u t e).g (edgeGetEndVertex e) = false := by
        rw [← hvisF _]
        exact hvfin
      have hb := hbd1 hv1
      have h2 := hdleF (edgeGetEndVertex e)
      rw [hduF, hdu1]
      omega
    · exact hEF e' he'' hvfin

/-- While any reachable vertex is unvisited, some unvisited vertex holds a
finite distance bounded by the total weight (the frontier of the visited
region, or the source itself). -/
theorem clean_frontier (g0 : Graph) (s : Nat) (hwf : WFGraph g0)
    (hs : s < graphGetNumberOfCities g0) (st : St)
    (hskel : SameSkeleton g0 st.g) (hchains : ChainsOK g0 s st)
    (hnb : ∀ x, x < graphGetNumberOfCities g0 → visOf st.g x = true →
      ∀ e ∈ (graphGetVertex st.g x).edges, visOf st.g e.endVertex = false →
        distOf st.g e.endVertex ≤ distOf st.g x + e.distance)
    (hsrc : visOf st.g s = false → distOf st.g s = 0 ∧ prevOf st.g s = none) :
    ∀ {r : Nat}, Reach g0 s r → visOf st.g r = false →
    ∃ y, y < graphGetNumberOfCities g0 ∧ visOf st.g y = false ∧
      distOf st.g y ≤ totalWeight g0 := by
  have hnn : ∀ i, ∀ e' ∈ (graphGetVertex st.g i).edges, 0 ≤ e'.distance := by
    intro i e' he'
    have := (edges_facts_of_skeleton hwf hskel i e' he').2.1
    omega
  have hend : ∀ i, ∀ e' ∈ (graphGetVertex st.g i).edges,
      e'.endVertex < graphGetNumberOfCities st.g :=
    fun i e' he' => (edges_facts_of_skeleton hwf hskel i e' he').1
  have hnn0 : ∀ i, ∀ e' ∈ (graphGetVertex g0 i).edges, 0 ≤ e'.distance := by
    intro i e' he'
    by_cases hi : i < graphGetNumberOfCities g0
    · have := ((hwf i hi).2 e' he').2
      omega
    · rw [graphGetVertex_of_le g0 i (Nat.le_of_not_lt hi)] at he'
      simp [defaultVertex] at he'
  have htotnn : 0 ≤ totalWeight g0 := totalWeight_nonneg g0 hnn0
  intro r hreach
  induction hreach with
  | refl =>
    intro hvs
    exact ⟨s, hs, hvs, by rw [(hsrc hvs).1]; exact htotnn⟩
  | step e hr he ih =>
    rename_i x
    intro hve
    by_cases hvx : visOf st.g x = false
    · exact ih hvx
    · have hvx' : visOf st.g x = true := by
        revert hvx
        cases visOf st.g x <;> simp
      have hx_lt : x < graphGetNumberOfCities g0 := Reach_lt hwf hs hr
      obtain ⟨l, es, hch, hsup⟩ := hchains x hx_lt hvx' hr
      have hst : s < graphGetNumberOfCities st.g := by rw [hskel.1] at hs; exact hs
      have hlt_l : ∀ z ∈ l, z < graphGetNumberOfCities st.g := hch.mem_lt hst hend
      have he' : e ∈ (graphGetVertex st.g x).edges := by
        rw [← (hskel.2 x).1]
        exact he
      have hext := (chain_ext_le_total hch hnn hlt_l).1 e he'
      have hsum := hch.sum_eq
      have htott : totalWeight st.g = totalWeight g0 := totalWeight_of_skeleton hskel
      have hbd := hnb x hx_lt hvx' e he' hve
      refine ⟨e.endVertex, ?_, hve, ?_⟩
      · have := hend x e he'
        rw [hskel.1]
        exact this
      · rw [← hsum, ← htott] at *
        omega

/-- Marking the relaxed vertex visited at the end of a clean iteration
re-establishes the full loop invariant (clean side). -/
theorem cleanFinish (g0 : Graph) (s u : Nat) (t2 : St)
    (hcf : CleanFold g0 s u t2)
    (hE : ∀ e ∈ (graphGetVertex t2.g u).edges, visOf t2.g e.endVertex = false →
      distOf t2.g e.endVertex ≤ distOf t2.g u + e.distance) :
    LoopInv g0 s ⟨vertexSetIsVisited t2.g u, t2.h⟩ := by
  obtain ⟨hskel, hWF, hsync, hperm, hun, huvis, hreachu,
    ⟨lu, esu, hchu, htailu⟩, hchains, hvisreach, hfront, hnb, hsrc⟩ := hcf
  have hnu : u < graphGetNumberOfCities t2.g := by
    rw [hskel.1] at hun
    exact hun
  have hvisu : visOf (vertexSetIsVisited t2.g u) u = true :=
    (setVis_fields t2.g u u).2.2.2.2 rfl hnu
  have hvisne : ∀ j, j ≠ u → visOf (vertexSetIsVisited t2.g u) j = visOf t2.g j :=
    fun j hj => (setVis_fields t2.g u j).2.2.2.1 (fun hc => hj hc.symm)
  have hdall : ∀ j, distOf (vertexSetIsVisited t2.g u) j = distOf t2.g j :=
    fun j => (setVis_fields t2.g u j).1
  have hpall : ∀ j, prevOf (vertexSetIsVisited t2.g u) j = prevOf t2.g j :=
    fun j => (setVis_fields t2.g u j).2.1
  have heall : ∀ j, (graphGetVertex (vertexSetIsVisited t2.g u) j).edges =
      (graphGetVertex t2.g j).edges :=
    fun j => ((SameSkeleton_setVis t2.g u).2 j).1.symm
  have hCH : ∀ {w : Nat} {l : List Nat} {es : List Edge}, PredChain t2.g s w l es →
      PredChain (vertexSetIsVisited t2.g u) s w l es := by
    intro w l es h
    exact h.congr (fun x _ => ⟨hdall x, hpall x, heall x⟩)
  have hvchar : ∀ j, visOf (vertexSetIsVisited t2.g u) j = true →
      j = u ∨ visOf t2.g j = true := by
    intro j hj
    by_cases hju : j = u
    · exact Or.inl hju
    · rw [hvisne j hju] at hj
      exact Or.inr hj
  refine ⟨hskel.trans' (SameSkeleton_setVis _ _), ?_, Or.inl ⟨?_, ?_, ?_, ?_, ?_, ?_, ?_⟩⟩
  · -- ChainsOK
    intro v hv hvis hreach
    rcases hvchar v hvis with rfl | hvt
    · refine ⟨lu, esu, hCH hchu, ?_⟩
      obtain ⟨lu', hlu⟩ := hchu.shape
      intro x hx
      rcases (by rw [hlu] at hx; exact List.mem_cons.mp hx) with rfl | hx'
      · exact hvisu
      · exact visOf_setVis_mono _ _ _ (htailu x (by rw [hlu]; exact hx'))
    · obtain ⟨l, es, hch, hsupv⟩ := hchains v hv hvt hreach
      exact ⟨l, es, hCH hch, fun x hx => visOf_setVis_mono _ _ _ (hsupv x hx)⟩
  · -- WFHeap
    refine ⟨hWF.1, hWF.2.1, ?_⟩
    intro i hi
    have hi' : i < t2.h.length := hi
    obtain ⟨h1, h2, h3⟩ := hWF.2.2 i hi'
    refine ⟨h1, ?_, ?_⟩
    · show (heapGet t2 i).vertex < graphGetNumberOfCities (vertexSetIsVisited t2.g u)
      rw [numberOfCities_setVis]
      exact h2
    · show posOf (vertexSetIsVisited t2.g u) (heapGet t2 i).vertex = (i : Int)
      rw [(setVis_fields t2.g u _).2.2.1]
      exact h3
  · -- heapSync
    intro p hp
    have hp' : p ∈ heapPairs t2 := hp
    show p.2 = distOf (vertexSetIsVisited t2.g u) p.1
    rw [hdall]
    exact hsync p hp'
  · -- heap contents = unvisited
    show (heapVerts t2).Perm (unvisited (vertexSetIsVisited t2.g u))
    rw [unvisited_setVis t2.g u hnu]
    exact hperm
  · -- visited are reachable
    intro v hv hvis
    rcases hvchar v hvis with rfl | hvt
    · exact hreachu
    · exact hvisreach v hv hvt
  · -- frontier clause
    intro v hv hvis
    have hvne_u : v ≠ u := by
      intro hc
      rw [hc, hvisu] at hvis
      simp at hvis
    rw [hvisne v hvne_u] at hvis
    rcases hfront v hv hvis hvne_u with hmax | ⟨hreachv, l, es, hch, hsupv⟩
    · exact Or.inl (by rw [hdall]; exact hmax)
    · refine Or.inr ⟨hreachv, l, es, hCH hch, ?_⟩
      intro x hx
      rcases hsupv x hx with hvx | rfl
      · exact visOf_setVis_mono _ _ _ hvx
      · exact hvisu
  · -- neighbour bounds
    intro x hx hvisx e he hvise
    rw [heall x] at he
    have hend_ne : e.endVertex ≠ u := by
      intro hc
      rw [hc, hvisu] at hvise
      simp at hvise
    rw [hvisne _ hend_ne] at hvise
    rw [hdall, hdall]
    rcases hvchar x hvisx with rfl | hvt
    · exact hE e he hvise
    · exact hnb x hx hvt e he hvise
  · -- source clause
    intro hvs
    have hsne : s ≠ u := by
      intro hc
      rw [hc, hvisu] at hvs
      simp at hvs
    rw [hvisne s hsne] at hvs
    rw [hdall, hpall]
    exact hsrc hvs

theorem cleanStep (g0 : Graph) (s : Nat) (hwf : WFGraph g0)
    (htot : totalWeight g0 < INT_MAX) (hs : s < graphGetNumberOfCities g0)
    (st : St) (hne : 0 < st.h.length)
    (hskel : SameSkeleton g0 st.g) (hchains : ChainsOK g0 s st)
    (hclean : CleanSide g0 s st)
    (hfr : ∃ r, r < graphGetNumberOfCities g0 ∧ Reach g0 s r ∧ visOf st.g r = false) :
    LoopInv g0 s ⟨vertexSetIsVisited (((graphGetVertex (minHeapDequeue st).1.g
        (minHeapDequeue st).2).edges).foldl (relaxEdge (minHeapDequeue st).2)
        (minHeapDequeue st).1).g (minHeapDequeue st).2,
      (((graphGetVertex (minHeapDequeue st).1.g (minHeapDequeue st).2).edges).foldl
        (relaxEdge (minHeapDequeue st).2) (minHeapDequeue st).1).h⟩ := by
  obtain ⟨hWF, hsync, hperm, hvisreach, hfront, hnb, hsrc⟩ := hclean
  obtain ⟨hdq1, hWFd, hsyncd, hpairsd, hlend, heqd⟩ := minHeapDequeue_spec st hWF hsync hne
  have hu_mem : (minHeapDequeue st).2 ∈ heapVerts st := by
    rw [hdq1, heapVerts]
    refine List.mem_map_of_mem _ ?_
    rw [heapGet, getD_eq_getElem _ _ _ hne]
    exact List.getElem_mem _
  have hu_unv := (unvisited_mem st.g _).mp (hperm.subset hu_mem)
  have hnst : graphGetNumberOfCities st.g = graphGetNumberOfCities g0 := hskel.1.symm
  have hu_lt0 : (minHeapDequeue st).2 < graphGetNumberOfCities g0 := by
    rw [← hnst]
    exact hu_unv.1
  obtain ⟨r, hr1, hr2, hr3⟩ := hfr
  obtain ⟨y, hy1, hy2, hy3⟩ := clean_frontier g0 s hwf hs st hskel hchains hnb hsrc hr2 hr3
  have hy_mem : y ∈ heapVerts st :=
    hperm.symm.subset ((unvisited_mem st.g y).mpr ⟨by rw [hnst]; exact hy1, hy2⟩)
  obtain ⟨ky, hky, hkyv, hkypos, hkyval⟩ := verts_slot hWF.2.2 hsync hy_mem
  have hroot_le : heapVal st 0 ≤ totalWeight g0 := by
    have h1 := heapInv_root_min hWF.1 ky hky
    rw [hkyval] at h1
    exact le_trans h1 hy3
  have hrootmem : heapGet st 0 ∈ st.h := by
    rw [heapGet, getD_eq_getElem _ _ _ hne]
    exact List.getElem_mem _
  have hdu_eq : heapVal st 0 = distOf st.g (minHeapDequeue st).2 := by
    have h0 := hsync _ (List.mem_map_of_mem (fun nd => (nd.vertex, nd.value)) hrootmem)
    rw [hdq1]
    exact h0
  have hdu_le : distOf st.g (minHeapDequeue st).2 ≤ totalWeight g0 := by
    rw [← hdu_eq]
    exact hroot_le
  rcases hfront _ hu_lt0 hu_unv.2 with hmax | ⟨hreachu, lu, esu, hchu, hsup⟩
  · exfalso
    rw [hmax] at hdu_le
    simp only [INT_MAX] at hdu_le htot
    omega
  have hskeld : SameSkeleton g0 (minHeapDequeue st).1.g := hskel.trans' heqd.sameSkeleton
  have hCHd : ∀ {w : Nat} {l : List Nat} {es : List Edge}, PredChain st.g s w l es →
      PredChain (minHeapDequeue st).1.g s w l es := by
    intro w l es h
    refine h.congr ?_
    intro x _
    exact ⟨((heqd.2 x).1).symm, ((heqd.2 x).2.1).symm, (heqd.sameSkeleton.2 x).1.symm⟩
  have hvisd : ∀ j, visOf (minHeapDequeue st).1.g j = visOf st.g j :=
    fun j => ((heqd.2 j).2.2.1).symm
  have hdistd : ∀ j, distOf (minHeapDequeue st).1.g j = distOf st.g j :=
    fun j => ((heqd.2 j).1).symm
  have hvertsd : (heapVerts (minHeapDequeue st).1).Perm
      ((unvisited (minHeapDequeue st).1.g).erase (minHeapDequeue st).2) := by
    have h1 : (heapVerts st).Perm ((minHeapDequeue st).2 :: heapVerts (minHeapDequeue st).1) := by
      have h0 := hpairsd.map Prod.fst
      rw [heapVerts_eq_map_fst, heapVerts_eq_map_fst, hdq1]
      simpa using h0
    have h2 : ((minHeapDequeue st).2 :: heapVerts (minHeapDequeue st).1).Perm (unvisited st.g) :=
      h1.symm.trans hperm
    have h3 := (List.cons_perm_iff_perm_erase.mp h2).2
    rw [unvisited_congr heqd.1 (fun j => (heqd.2 j).2.2.1)] at h3
    exact h3
  have hcfd : CleanFold g0 s (minHeapDequeue st).2 (minHeapDequeue st).1 := by
    refine ⟨hskeld, hWFd, hsyncd, hvertsd, hu_lt0,
      by rw [hvisd]; exact hu_unv.2, hreachu,
      ⟨lu, esu, hCHd hchu, fun x hx => by rw [hvisd]; exact hsup x hx⟩, ?_, ?_, ?_, ?_, ?_⟩
    · intro v hv hvis hreach
      rw [hvisd] at hvis
      obtain ⟨l, es, hch, hsupv⟩ := hchains v hv hvis hreach
      exact ⟨l, es, hCHd hch, fun x hx => by rw [hvisd]; exact hsupv x hx⟩
    · intro v hv hvis
      rw [hvisd] at hvis
      exact hvisreach v hv hvis
    · intro v hv hvis hvne
      rw [hvisd] at hvis
      rcases hfront v hv hvis with hmax | ⟨hreachv, l, es, hch, hsupv⟩
      · exact Or.inl (by rw [hdistd]; exact hmax)
      · exact Or.inr ⟨hreachv, l, es, hCHd hch,
          fun x hx => Or.inl (by rw [hvisd]; exact hsupv x hx)⟩
    · intro x hx hvis e he hvise
      rw [hvisd] at hvis
      rw [(heqd.sameSkeleton.2 x).1.symm] at he
      rw [hvisd] at hvise
      rw [hdistd, hdistd]
      exact hnb x hx hvis e he hvise
    · intro hvs
      rw [hvisd] at hvs
      rw [hdistd, (heqd.2 s).2.1.symm]
      exact hsrc hvs
  have hmemes : ∀ e ∈ (graphGetVertex (minHeapDequeue st).1.g (minHeapDequeue st).2).edges,
      e ∈ (graphGetVertex g0 (minHeapDequeue st).2).edges := by
    intro e he
    rw [(hskeld.2 (minHeapDequeue st).2).1]
    exact he
  obtain ⟨hcf2, hvis2, hdle2, hdu2, hE2⟩ :=
    cleanFold_fold g0 s (minHeapDequeue st).2 hwf htot hs
      (graphGetVertex (minHeapDequeue st).1.g (minHeapDequeue st).2).edges
      (minHeapDequeue st).1 hmemes hcfd
  refine cleanFinish g0 s (minHeapDequeue st).2 _ hcf2 ?_
  intro e he hvise
  have he' : e ∈ (graphGetVertex (minHeapDequeue st).1.g (minHeapDequeue st).2).edges := by
    rw [((relaxFold_skeleton (minHeapDequeue st).2
      (graphGetVertex (minHeapDequeue st).1.g (minHeapDequeue st).2).edges
      (minHeapDequeue st).1).2 (minHeapDequeue st).2).1]
    exact he
  exact hE2 e he' hvise

/-- Once every reachable vertex is visited, any further iteration (whatever
corruption it works on unreachable vertices) preserves the chains of the
finalized reachable vertices: relaxation never touches a visited vertex. -/
theorem dirtyStep (g0 : Graph) (s : Nat) (st : St)
    (hskel : SameSkeleton g0 st.g) (hchains : ChainsOK g0 s st)
    (hdirty : AllReachVis g0 s st) :
    LoopInv g0 s ⟨vertexSetIsVisited (((graphGetVertex (minHeapDequeue st).1.g
        (minHeapDequeue st).2).edges).foldl (relaxEdge (minHeapDequeue st).2)
        (minHeapDequeue st).1).g (minHeapDequeue st).2,
      (((graphGetVertex (minHeapDequeue st).1.g (minHeapDequeue st).2).edges).foldl
        (relaxEdge (minHeapDequeue st).2) (minHeapDequeue st).1).h⟩ := by
  have heqd := minHeapDequeue_g_EqButPos st
  have hvis_d : ∀ j, visOf (minHeapDequeue st).1.g j = visOf st.g j :=
    fun j => ((heqd.2 j).2.2.1).symm
  have hvis_f : ∀ j, visOf (((graphGetVertex (minHeapDequeue st).1.g
      (minHeapDequeue st).2).edges).foldl (relaxEdge (minHeapDequeue st).2)
      (minHeapDequeue st).1).g j = visOf st.g j := by
    intro j
    rw [relaxFold_vis, hvis_d]
  have hvis_mono : ∀ j, visOf st.g j = true →
      visOf (vertexSetIsVisited (((graphGetVertex (minHeapDequeue st).1.g
        (minHeapDequeue st).2).edges).foldl (relaxEdge (minHeapDequeue st).2)
        (minHeapDequeue st).1).g (minHeapDequeue st).2) j = true := by
    intro j hj
    refine visOf_setVis_mono _ _ _ ?_
    rw [hvis_f]
    exact hj
  have hskel2 : SameSkeleton g0 (vertexSetIsVisited (((graphGetVertex
      (minHeapDequeue st).1.g (minHeapDequeue st).2).edges).foldl
      (relaxEdge (minHeapDequeue st).2) (minHeapDequeue st).1).g
      (minHeapDequeue st).2) :=
    ((hskel.trans' heqd.sameSkeleton).trans' (relaxFold_skeleton _ _ _)).trans'
      (SameSkeleton_setVis _ _)
  refine ⟨hskel2, ?_, Or.inr ?_⟩
  · intro v hv hvis hreach
    have hvst : visOf st.g v = true := hdirty v hv hreach
    obtain ⟨l, es, hch, hsupv⟩ := hchains v hv hvst hreach
    have hsup_st : ∀ x ∈ l, visOf st.g x = true := hsupv
    -- transport to the dequeued state
    have hch1 : PredChain (minHeapDequeue st).1.g s v l es :=
      hch.congr (fun x _ =>
        ⟨((heqd.2 x).1).symm, ((heqd.2 x).2.1).symm, (heqd.sameSkeleton.2 x).1.symm⟩)
    -- transport through the relaxation fold (all chain members stay visited)
    have hch2 : PredChain (((graphGetVertex (minHeapDequeue st).1.g
        (minHeapDequeue st).2).edges).foldl (relaxEdge (minHeapDequeue st).2)
        (minHeapDequeue st).1).g s v l es := by
      refine hch1.congr ?_
      intro x hx
      have hvx : visOf (minHeapDequeue st).1.g x = true := by
        rw [hvis_d]
        exact hsup_st x hx
      obtain ⟨hd, hp, _⟩ := relaxFold_visited (minHeapDequeue st).2 x
        ((graphGetVertex (minHeapDequeue st).1.g (minHeapDequeue st).2).edges)
        (minHeapDequeue st).1 hvx
      exact ⟨hd, hp, ((relaxFold_skeleton _ _ _).2 x).1.symm⟩
    -- transport through the final visited-marking
    refine ⟨l, es, hch2.congr (fun x _ =>
      ⟨(setVis_fields _ _ x).1, (setVis_fields _ _ x).2.1,
        ((SameSkeleton_setVis _ _).2 x).1.symm⟩), ?_⟩
    intro x hx
    exact hvis_mono x (hsup_st x hx)
  · intro v hv hreach
    exact hvis_mono v (hdirty v hv hreach)

theorem relaxLoop_LoopInv (g0 : Graph) (s : Nat) (hwf : WFGraph g0)
    (htot : totalWeight g0 < INT_MAX) (hs : s < graphGetNumberOfCities g0) :
    ∀ (fuel : Nat) (st : St), LoopInv g0 s st → LoopInv g0 s (relaxLoop fuel st) := by
  intro fuel
  induction fuel with
  | zero => exact fun st h => h
  | succ fuel ih =>
    intro st hinv
    simp only [relaxLoop]
    split
    · exact hinv
    · rename_i hne'
      have hne : 0 < st.h.length := by
        rcases Nat.eq_zero_or_pos st.h.length with h0 | hpos
        · exact absurd (by simp [minHeapIsEmpty, h0]) hne'
        · exact hpos
      obtain ⟨hskel, hchains, hside⟩ := hinv
      refine ih _ ?_
      by_cases hfr : ∃ r, r < graphGetNumberOfCities g0 ∧ Reach g0 s r ∧ visOf st.g r = false
      · rcases hside with hclean | hdirty
        · exact cleanStep g0 s hwf htot hs st hne hskel hchains hclean hfr
        · exfalso
          obtain ⟨r, h1, h2, h3⟩ := hfr
          rw [hdirty r h1 h2] at h3
          simp at h3
      · have hdirty : AllReachVis g0 s st := by
          intro v hv hr
          by_contra hvv
          refine hfr ⟨v, hv, hr, ?_⟩
          revert hvv
          cases visOf st.g v <;> simp
        exact dirtyStep g0 s st hskel hchains hdirty

theorem loopInv_init (g0 : Graph) (s : Nat) (hs : s < graphGetNumberOfCities g0) :
    LoopInv g0 s (dijkstrasReset g0 [] s) := by
  obtain ⟨hskel, hlen, hperm, hWF, hsync, hds, hdist, hpv⟩ := dijkstrasReset_inv g0 s hs
  have hnst : graphGetNumberOfCities (dijkstrasReset g0 [] s).g =
      graphGetNumberOfCities g0 := hskel.1.symm
  refine ⟨hskel, ?_, Or.inl ⟨hWF, hsync, ?_, ?_, ?_, ?_, ?_⟩⟩
  · intro v hv hvis _
    have := (hpv v (by rw [← hnst] at hv; rw [hnst] at hv; exact hv)).2
    rw [this] at hvis
    simp at hvis
  · -- all vertices unvisited: the heap holds exactly the vertex set
    have hun : unvisited (dijkstrasReset g0 [] s).g =
        List.range (graphGetNumberOfCities g0) := by
      unfold unvisited
      rw [hnst]
      refine List.filter_eq_self.mpr ?_
      intro a ha
      rw [(hpv a (List.mem_range.mp ha)).2]
      rfl
    rw [hun]
    exact hperm
  · intro v hv hvis
    rw [(hpv v hv).2] at hvis
    simp at hvis
  · intro v hv hvis
    by_cases hvs : v = s
    · subst hvs
      refine Or.inr ⟨Reach.refl, [v], [], PredChain.src (hpv v hv).1 hds, ?_⟩
      intro x hx
      simp at hx
    · exact Or.inl (hdist v hv hvs)
  · intro x hx hvis
    rw [(hpv x hx).2] at hvis
    simp at hvis
  · intro _
    exact ⟨hds, (hpv s hs).1⟩

theorem getLastOpt_map {α β : Type} (f : α → β) :
    ∀ (l : List α), (l.map f).getLast? = l.getLast?.map f
  | [] => rfl
  | [a] => rfl
  | a :: b :: l => by
    rw [List.map_cons, List.map_cons, List.getLast?_cons_cons, List.getLast?_cons_cons,
      ← List.map_cons]
    exact getLastOpt_map f (b :: l)

/-- The backward walk of `dijkstrasWriteToFile` along a realized predecessor
chain appends exactly the city names of the chain's tail. -/
theorem routeWalk_chain (g : Graph) (s : Nat)
    (hnum : ∀ i, i < graphGetNumberOfCities g → (graphGetVertex g i).vertexNumber = i) :
    ∀ {v : Nat} {l : List Nat} {es : List Edge}, PredChain g s v l es →
      (∀ x ∈ l, x < graphGetNumberOfCities g) →
      ∀ (fuel : Nat), l.length ≤ fuel + 1 → ∀ (acc : List String),
        routeWalk g fuel v acc =
          acc ++ l.tail.map (fun x => vertexGetCityName (graphGetVertex g x)) := by
  intro v l es hch
  induction hch with
  | src hp hd =>
    intro hlt fuel hfuel acc
    cases fuel with
    | zero => simp [routeWalk]
    | succ fuel =>
      simp only [routeWalk]
      rw [show vertexGetPrevious (graphGetVertex g s) = none from hp]
      simp
  | step e hch' he hev hprev hdist hnew ih =>
    rename_i u v l es
    intro hlt fuel hfuel acc
    obtain ⟨l', hl⟩ := hch'.shape
    cases fuel with
    | zero =>
      rw [hl] at hfuel
      simp at hfuel
    | succ fuel =>
      simp only [routeWalk]
      rw [show vertexGetPrevious (graphGetVertex g v) = some u from hprev]
      have hu_lt : u < graphGetNumberOfCities g := by
        refine hlt u ?_
        rw [hl]
        simp
      show routeWalk g fuel (vertexGetVertexNumber (graphGetVertex g u))
          (acc ++ [vertexGetCityName (graphGetVertex g u)]) =
        acc ++ (v :: l).tail.map (fun x => vertexGetCityName (graphGetVertex g x))
      rw [show vertexGetVertexNumber (graphGetVertex g u) = u from hnum u hu_lt]
      rw [ih (fun x hx => hlt x (List.mem_cons_of_mem _ hx)) fuel
        (by rw [hl] at hfuel ⊢; simp at hfuel ⊢; omega)
        (acc ++ [vertexGetCityName (graphGetVertex g u)])]
      rw [hl]
      simp

theorem routeCityNames_chain (g : Graph) (s D : Nat) {l : List Nat} {es : List Edge}
    (hch : PredChain g s D l es)
    (hnum : ∀ i, i < graphGetNumberOfCities g → (graphGetVertex g i).vertexNumber = i)
    (hlt : ∀ x ∈ l, x < graphGetNumberOfCities g) :
    routeCityNames g D = l.map (fun x => vertexGetCityName (graphGetVertex g x)) := by
  have hlen : l.length ≤ graphGetNumberOfCities g := by
    have h1 := (hch.nodup.subperm
      (fun x hx => List.mem_range.mpr (hlt x hx))).length_le
    simpa using h1
  unfold routeCityNames
  rw [routeWalk_chain g s hnum hch hlt _ (by omega) _]
  obtain ⟨l', rfl⟩ := hch.shape
  simp

theorem dijkstras_final (g0 : Graph) (s : Nat) (hwf : WFGraph g0)
    (htot : totalWeight g0 < INT_MAX) (hs : s < graphGetNumberOfCities g0) :
    LoopInv g0 s (dijkstras g0 [] s) ∧ (dijkstras g0 [] s).h.length = 0 := by
  constructor
  · simp only [dijkstras]
    exact relaxLoop_LoopInv g0 s hwf htot hs _ _ (loopInv_init g0 s hs)
  · simp only [dijkstras]
    rw [relaxLoop_drains (dijkstrasReset g0 [] s).h.length (dijkstrasReset g0 [] s)
      (le_refl _)]
    rfl

theorem dijkstras_visits_reachable (g0 : Graph) (s : Nat) (hwf : WFGraph g0)
    (htot : totalWeight g0 < INT_MAX) (hs : s < graphGetNumberOfCities g0)
    (D : Nat) (hD : D < graphGetNumberOfCities g0) (hreach : Reach g0 s D) :
    visOf (dijkstras g0 [] s).g D = true := by
  obtain ⟨⟨hskel, hchains, hside⟩, hlen0⟩ := dijkstras_final g0 s hwf htot hs
  rcases hside with hclean | hdirty
  · obtain ⟨_, _, hperm, _⟩ := hclean
    have hverts : heapVerts (dijkstras g0 [] s) = [] := by
      unfold heapVerts
      rw [List.length_eq_zero.mp hlen0]
      rfl
    rw [hverts] at hperm
    have hempty : unvisited (dijkstras g0 [] s).g = [] := hperm.symm.eq_nil
    by_contra hvv
    have hfalse : visOf (dijkstras g0 [] s).g D = false := by
      revert hvv
      cases visOf (dijkstras g0 [] s).g D <;> simp
    have hmem : D ∈ unvisited (dijkstras g0 [] s).g :=
      (unvisited_mem _ D).mpr ⟨by rw [← hskel.1]; exact hD, hfalse⟩
    rw [hempty] at hmem
    simp at hmem
  · exact hdirty D hD hreach

/-- Claim C5 as amended: provided no relaxation sum can overflow `int` (total
stored weight below `INT_MAX`; the counterexample shows the claim fails
otherwise), for every reachable destination the predecessor walk realizes a
chain of edges from the source to the destination whose recorded city-name
sequence is exactly what `dijkstrasWriteToFile` renders (destination first),
beginning with the destination's name, ending with the source's name, and the
traversed edge weights sum to `distanceFromSource(D)`. -/
theorem c5_route_reconstruction (g : Graph) (s D : Nat)
    (hwf : WFGraph g) (htot : totalWeight g < INT_MAX)
    (hs : s < graphGetNumberOfCities g) (hreach : Reach g s D) :
    ∃ l es, PredChain (dijkstras g [] s).g s D l es ∧
      routeCityNames (dijkstras g [] s).g D =
        l.map (fun x => vertexGetCityName (graphGetVertex (dijkstras g [] s).g x)) ∧
      l.head? = some D ∧ l.getLast? = some s ∧
      (routeCityNames (dijkstras g [] s).g D).head? =
        some (vertexGetCityName (graphGetVertex (dijkstras g [] s).g D)) ∧
      (routeCityNames (dijkstras g [] s).g D).getLast? =
        some (vertexGetCityName (graphGetVertex (dijkstras g [] s).g s)) ∧
      (es.map Edge.distance).sum = distOf (dijkstras g [] s).g D := by
  have hD : D < graphGetNumberOfCities g := Reach_lt hwf hs hreach
  obtain ⟨⟨hskel, hchains, _⟩, _⟩ := dijkstras_final g s hwf htot hs
  have hvisD := dijkstras_visits_reachable g s hwf htot hs D hD hreach
  obtain ⟨l, es, hch, _⟩ := hchains D hD hvisD hreach
  have hnum : ∀ i, i < graphGetNumberOfCities (dijkstras g [] s).g →
      (graphGetVertex (dijkstras g [] s).g i).vertexNumber = i := by
    intro i hi
    rw [← (hskel.2 i).2.2]
    refine (hwf i ?_).1
    rw [hskel.1]
    exact hi
  have hend : ∀ i, ∀ e ∈ (graphGetVertex (dijkstras g [] s).g i).edges,
      e.endVertex < graphGetNumberOfCities (dijkstras g [] s).g :=
    fun i e he => (edges_facts_of_skeleton hwf hskel i e he).1
  have hst : s < graphGetNumberOfCities (dijkstras g [] s).g := by
    rw [← hskel.1]
    exact hs
  have hlt : ∀ x ∈ l, x < graphGetNumberOfCities (dijkstras g [] s).g :=
    hch.mem_lt hst hend
  have hroute := routeCityNames_chain (dijkstras g [] s).g s D hch hnum hlt
  obtain ⟨l', hl⟩ := hch.shape
  refine ⟨l, es, hch, hroute, by rw [hl]; rfl, hch.last, ?_, ?_, hch.sum_eq⟩
  · rw [hroute, hl]
    rfl
  · rw [hroute, getLastOpt_map, hch.last]
    rfl

theorem c5_route_reconstruction_witness :
    ∃ l es, PredChain (dijkstras gSpec [] 0).g 0 2 l es ∧
      routeCityNames (dijkstras gSpec [] 0).g 2 =
        l.map (fun x => vertexGetCityName (graphGetVertex (dijkstras gSpec [] 0).g x)) ∧
      l.head? = some 2 ∧ l.getLast? = some 0 ∧
      (routeCityNames (dijkstras gSpec [] 0).g 2).head? =
        some (vertexGetCityName (graphGetVertex (dijkstras gSpec [] 0).g 2)) ∧
      (routeCityNames (dijkstras gSpec [] 0).g 2).getLast? =
        some (vertexGetCityName (graphGetVertex (dijkstras gSpec [] 0).g 0)) ∧
      (es.map Edge.distance).sum = distOf (dijkstras gSpec [] 0).g 2 :=
  c5_route_reconstruction gSpec 0 2 (by decide) (by decide) (by decide)
    (Reach.step { start := 0, endVertex := 2, distance := 10 } Reach.refl (by decide))

end Dijk
